import Mathlib

/-!
Maze navigation: a shallow embedding of `src/main.cpp`

The multi-level maze search of the repository is embedded as pure Lean
functions over lists.  A grid `vector<vector<string>>` is a list of levels,
each a list of rows, each a list of characters.  `size_t` arithmetic is
arithmetic on `Nat` modulo `2^64`.  `std::set` and `std::map` are modelled by
lists (membership and first-match lookup); `std::deque` by a list whose head is
the front.  Reading a vector out of bounds, reading a missing parent entry,
taking `front()` of an empty path and popping with a routing mode that is
neither stack nor queue are undefined in the source and are reported as
`Exec.undefinedBehaviour`.  Loops that the source writes as `while` take a fuel
argument and report `Exec.outOfFuel` when the fuel does not suffice; one unit
of fuel pays for one pass through the loop body.  "Traversable" means accepted
by `isValid` throughout.
-/

namespace MazeNavigation

/-! ## Data model -/

/-- Selector values of the source enumeration `Mode`. -/
inductive Mode where
  | kNone
  | kStack
  | kQueue
  | kMap
  | kList
  deriving DecidableEq, Repr

/-- A maze cell coordinate together with a direction label (`struct Position`). -/
structure Position where
  level : Nat
  row : Nat
  col : Nat
  direction : Char
  deriving DecidableEq, Repr

/-- The grid: levels, rows, characters. -/
abbrev Grid := List (List (List Char))

/-- The key of the visited set and the parent map: `tuple<size_t,size_t,size_t>`. -/
abbrev Key := Nat × Nat × Nat

/-- The coordinate triple of a position (`make_tuple(level, row, col)`). -/
def Position.key (p : Position) : Key := (p.level, p.row, p.col)

/-- Result of running a piece of the program. -/
inductive Exec (α : Type) where
  | ok (a : α)
  | undefinedBehaviour
  | outOfFuel
  deriving DecidableEq, Repr

/-- The number of values of `size_t` (64 bit). -/
def sizeModulus : Nat := 18446744073709551616

/-- The sum `a + d` of a `size_t` and an `int`, computed in `size_t`. -/
def sizeAdd (a : Nat) (d : Int) : Nat := (((a : Int) + d) % 18446744073709551616).toNat

/-- The character `levels[level][row][col]`, `none` when an index is out of range. -/
def cellAt (levels : Grid) (level row col : Nat) : Option Char :=
  match levels[level]? with
  | none => none
  | some lv =>
    match lv[row]? with
    | none => none
    | some r => r[col]?

/-! ## Frontier expansion -/

/-- Traversability test `isValid` of the source. -/
def isValid (levels : Grid) (level row col : Nat) : Bool :=
  match levels[level]? with
  | none => false
  | some lv =>
    match lv[row]? with
    | none => false
    | some r =>
      match r[col]? with
      | none => false
      | some c => c == '.' || c == 'E' || c == 'H'

/-- The four row/column offsets, in the order of the source. -/
def moves : List (Int × Int) := [(-1, 0), (0, 1), (1, 0), (0, -1)]

/-- The label the source gives to an offset. -/
def moveDirection (move : Int × Int) : Char :=
  if move.1 = -1 then 'n'
  else if move.1 = 1 then 's'
  else if move.2 = -1 then 'w'
  else if move.2 = 1 then 'e'
  else ' '

/-- One round of the first loop of `getNextPositions`. -/
def planarCandidate (levels : Grid) (current : Position) (move : Int × Int) : Option Position :=
  let newRow := sizeAdd current.row move.1
  let newCol := sizeAdd current.col move.2
  if isValid levels current.level newRow newCol then
    some ⟨current.level, newRow, newCol, moveDirection move⟩
  else none

/-- The first loop of `getNextPositions`: the same-level candidates. -/
def planarPositions (levels : Grid) (current : Position) : List Position :=
  moves.filterMap (planarCandidate levels current)

/-- One round of the elevator loop of `getNextPositions`. -/
def elevatorCandidate (levels : Grid) (current : Position) (visited : List Key)
    (newLevel : Nat) : Exec (List Position) :=
  if newLevel ≠ current.level then
    match cellAt levels newLevel current.row current.col with
    | none => Exec.undefinedBehaviour
    | some c =>
      if c = 'E' then
        if (newLevel, current.row, current.col) ∉ visited then
          Exec.ok [⟨newLevel, current.row, current.col, if newLevel < current.level then 'n' else 's'⟩]
        else Exec.ok []
      else Exec.ok []
  else Exec.ok []

/-- The elevator loop of `getNextPositions` over the given level indices. -/
def elevatorLoop (levels : Grid) (current : Position) (visited : List Key) :
    List Nat → Exec (List Position)
  | [] => Exec.ok []
  | newLevel :: rest =>
    match elevatorCandidate levels current visited newLevel with
    | Exec.ok a =>
      match elevatorLoop levels current visited rest with
      | Exec.ok b => Exec.ok (a ++ b)
      | Exec.undefinedBehaviour => Exec.undefinedBehaviour
      | Exec.outOfFuel => Exec.outOfFuel
    | Exec.undefinedBehaviour => Exec.undefinedBehaviour
    | Exec.outOfFuel => Exec.outOfFuel

/-- The candidates `getNextPositions(levels, current, visited)`. -/
def getNextPositions (levels : Grid) (current : Position) (visited : List Key) :
    Exec (List Position) :=
  let positions := planarPositions levels current
  match cellAt levels current.level current.row current.col with
  | none => Exec.undefinedBehaviour
  | some c =>
    if c = 'E' then
      match elevatorLoop levels current visited (List.range levels.length) with
      | Exec.ok more => Exec.ok (positions ++ more)
      | Exec.undefinedBehaviour => Exec.undefinedBehaviour
      | Exec.outOfFuel => Exec.outOfFuel
    else Exec.ok positions

/-! ## Search engine -/

/-- The three containers of `pathfinding`. -/
structure SearchState where
  dq : List Position
  parentMap : List (Key × Position)
  visited : List Key
  deriving DecidableEq, Repr

/-- The way the search loop ends. -/
inductive SearchEnd where
  | found (current : Position) (st : SearchState)
  | exhausted (st : SearchState)
  deriving DecidableEq, Repr

/-- The state before the first iteration. -/
def initState (start : Position) : SearchState :=
  ⟨[start], [(start.key, start)], [start.key]⟩

/-- The lookup `parentMap[key]` for a key that is present. -/
def parentOf : List (Key × Position) → Key → Option Position
  | [], _ => none
  | (k, p) :: rest, key => if k = key then some p else parentOf rest key

/-- Taking `current` off the frontier: the back in stack mode, the front in queue mode. -/
def popFrontier (mode : Mode) (dq : List Position) : Option (Position × List Position) :=
  match mode with
  | Mode.kStack =>
    match dq.getLast? with
    | none => none
    | some current => some (current, dq.dropLast)
  | Mode.kQueue =>
    match dq with
    | [] => none
    | current :: rest => some (current, rest)
  | _ => none

/-- One round of the loop over `nextPositions`. -/
def pushNext (mode : Mode) (current : Position) (st : SearchState) (next : Position) :
    SearchState :=
  if next.key ∈ st.visited then st
  else
    ⟨if mode = Mode.kStack then st.dq ++ [next]
      else if mode = Mode.kQueue then st.dq ++ [next]
      else st.dq,
     (next.key, current) :: st.parentMap,
     next.key :: st.visited⟩

/-- What one pass through the loop does: it ends the search or hands on a new state. -/
inductive LoopStep where
  | ended (e : SearchEnd)
  | next (st : SearchState)
  deriving DecidableEq, Repr

/-- The loop test and one pass through the body of `while (!dq.empty())`. -/
def loopBody (levels : Grid) (mode : Mode) (st : SearchState) : Exec LoopStep :=
  if st.dq = [] then Exec.ok (LoopStep.ended (SearchEnd.exhausted st))
  else
    match popFrontier mode st.dq with
    | none => Exec.undefinedBehaviour
    | some (current, dq) =>
      match cellAt levels current.level current.row current.col with
      | none => Exec.undefinedBehaviour
      | some c =>
        if c = 'H' then
          Exec.ok (LoopStep.ended (SearchEnd.found current ⟨dq, st.parentMap, st.visited⟩))
        else
          match getNextPositions levels current st.visited with
          | Exec.ok nextPositions =>
            Exec.ok (LoopStep.next
              (nextPositions.foldl (pushNext mode current) ⟨dq, st.parentMap, st.visited⟩))
          | Exec.undefinedBehaviour => Exec.undefinedBehaviour
          | Exec.outOfFuel => Exec.outOfFuel

/-- The `while (!dq.empty())` loop of `pathfinding`; one unit of fuel pays for one pop. -/
def searchLoop (levels : Grid) (mode : Mode) : Nat → SearchState → Exec SearchEnd
  | 0, st => if st.dq = [] then Exec.ok (SearchEnd.exhausted st) else Exec.outOfFuel
  | fuel + 1, st =>
    match loopBody levels mode st with
    | Exec.ok (LoopStep.ended e) => Exec.ok e
    | Exec.ok (LoopStep.next st1) => searchLoop levels mode fuel st1
    | Exec.undefinedBehaviour => Exec.undefinedBehaviour
    | Exec.outOfFuel => Exec.outOfFuel

/-- The states at the head of the search loop of `pathfinding`, one per iteration. -/
inductive LoopHead (levels : Grid) (mode : Mode) (start : Position) : SearchState → Prop where
  | init : LoopHead levels mode start (initState start)
  | step (st st1 : SearchState) : LoopHead levels mode start st →
      loopBody levels mode st = Exec.ok (LoopStep.next st1) → LoopHead levels mode start st1

/-! ## Path reconstruction and labelling -/

/-- The backward walk over the parent map; `path` collects the cells goal first. -/
def walkBack (parentMap : List (Key × Position)) (start : Position) :
    Nat → Position → List Position → Exec (List Position)
  | 0, current, path => if current.key = start.key then Exec.ok path else Exec.outOfFuel
  | fuel + 1, current, path =>
    if current.key = start.key then Exec.ok path
    else
      match parentOf parentMap current.key with
      | none => Exec.undefinedBehaviour
      | some parent => walkBack parentMap start fuel parent (path ++ [current])

/-- The walk, the final `push_back(start)` and the `reverse`. -/
def reconstructPath (parentMap : List (Key × Position)) (start current : Position)
    (fuel : Nat) : Exec (List Position) :=
  match walkBack parentMap start fuel current [] with
  | Exec.ok path => Exec.ok (path ++ [start]).reverse
  | Exec.undefinedBehaviour => Exec.undefinedBehaviour
  | Exec.outOfFuel => Exec.outOfFuel

/-- The label of `current` given its successor `next`. -/
def labelRule (current next : Position) : Char :=
  if current.level = next.level then
    if current.row = next.row then
      if current.col < next.col then 'e' else 'w'
    else
      if current.row < next.row then 's' else 'n'
  else Char.ofNat ((48 + next.level) % 256)

/-- Round `i` of the labelling loop. -/
def labelStep (path : List Position) (i : Nat) : List Position :=
  match path[i]?, path[i + 1]? with
  | some current, some next => path.set i { current with direction := labelRule current next }
  | _, _ => path

/-- The labelling loop `for (i = 0; i < path.size() - 1; ++i)`. -/
def labelLoop (path : List Position) : List Position :=
  (List.range (path.length - 1)).foldl labelStep path

/-- The assignment `path[0].direction = path[1].direction` for paths of two or more cells. -/
def borrowStartLabel (path : List Position) : List Position :=
  if path ≠ [] ∧ path.length > 1 then
    match path[0]?, path[1]? with
    | some first, some second => path.set 0 { first with direction := second.direction }
    | _, _ => path
  else path

/-- The labelled path: the labelling loop, then the start special case. -/
def labelPath (path : List Position) : List Position :=
  borrowStartLabel (labelLoop path)

/-! ## Output -/

/-- The line `Start in level L, row R, column C`. -/
def startLine (p : Position) : String :=
  "Start in level " ++ toString p.level ++ ", row " ++ toString p.row ++ ", column "
    ++ toString p.col

/-- Writing `ch` at `updatedLevels[level][row][col]`. -/
def setCell (levels : Grid) (level row col : Nat) (ch : Char) : Grid :=
  levels.modify (fun lv => lv.modify (fun r => r.set col ch) row) level

/-- One round of the overwrite loop of `printSolutionMap`. -/
def overlayStep (updatedLevels : Exec Grid) (pos : Position) : Exec Grid :=
  match updatedLevels with
  | Exec.ok g =>
    match cellAt g pos.level pos.row pos.col with
    | none => Exec.undefinedBehaviour
    | some c =>
      if c ≠ 'H' then Exec.ok (setCell g pos.level pos.row pos.col pos.direction)
      else Exec.ok g
  | Exec.undefinedBehaviour => Exec.undefinedBehaviour
  | Exec.outOfFuel => Exec.outOfFuel

/-- The copy `updatedLevels` after the overwrite loop. -/
def overlay (path : List Position) (levels : Grid) : Exec Grid :=
  path.foldl overlayStep (Exec.ok levels)

/-- The lines of one level: its marker and its rows. -/
def renderLevel (i : Nat) (lv : List (List Char)) : List String :=
  ("//level " ++ toString i) :: lv.map String.mk

/-- The lines of all levels, in order. -/
def renderLevels (levels : Grid) : List String :=
  (levels.enum.map (fun e => renderLevel e.1 e.2)).flatten

/-- The lines written by `printSolutionMap(path, levels)`. -/
def printSolutionMap (path : List Position) (levels : Grid) : Exec (List String) :=
  match path with
  | [] => Exec.undefinedBehaviour
  | front :: _ =>
    match overlay path levels with
    | Exec.ok updatedLevels => Exec.ok (startLine front :: renderLevels updatedLevels)
    | Exec.undefinedBehaviour => Exec.undefinedBehaviour
    | Exec.outOfFuel => Exec.outOfFuel

/-- The line `(level,row,col,direction)`. -/
def listLine (pos : Position) : String :=
  "(" ++ toString pos.level ++ "," ++ toString pos.row ++ "," ++ toString pos.col ++ ","
    ++ String.singleton pos.direction ++ ")"

/-- The lines written by `printSolutionList(path)`. -/
def printSolutionList (path : List Position) : List String :=
  match path with
  | [] => ["//path taken"]
  | _ :: _ =>
    "//path taken" ::
      ((List.range (path.length - 1)).filterMap (fun i =>
        match path[i]? with
        | some pos => if pos.direction ≠ ' ' then some (listLine pos) else none
        | none => none))

/-! ## The entry point -/

/-- The way `pathfinding` ends: the labelled path, or exhaustion. -/
inductive Outcome where
  | found (path : List Position) (st : SearchState)
  | exhausted (st : SearchState)
  deriving DecidableEq, Repr

/-- The search of `pathfinding` up to the labelled path. -/
def runSearch (levels : Grid) (start : Position) (mode : Mode) (fuel : Nat) : Exec Outcome :=
  match searchLoop levels mode fuel (initState start) with
  | Exec.ok (SearchEnd.found current st) =>
    match reconstructPath st.parentMap start current fuel with
    | Exec.ok path => Exec.ok (Outcome.found (labelPath path) st)
    | Exec.undefinedBehaviour => Exec.undefinedBehaviour
    | Exec.outOfFuel => Exec.outOfFuel
  | Exec.ok (SearchEnd.exhausted st) => Exec.ok (Outcome.exhausted st)
  | Exec.undefinedBehaviour => Exec.undefinedBehaviour
  | Exec.outOfFuel => Exec.outOfFuel

/-- The lines written by `pathfinding(levels, start, mode, outputMode)`. -/
def pathfinding (levels : Grid) (start : Position) (mode outputMode : Mode) (fuel : Nat) :
    Exec (List String) :=
  match runSearch levels start mode fuel with
  | Exec.ok (Outcome.found path _) =>
    if outputMode = Mode.kMap then printSolutionMap path levels
    else if outputMode = Mode.kList then Exec.ok (printSolutionList path)
    else Exec.ok []
  | Exec.ok (Outcome.exhausted _) =>
    if outputMode = Mode.kMap then Exec.ok (startLine start :: renderLevels levels)
    else Exec.ok ["//path taken"]
  | Exec.undefinedBehaviour => Exec.undefinedBehaviour
  | Exec.outOfFuel => Exec.outOfFuel

/-! ## Notions the specification is stated with -/

/-- Every level has `rows` rows and every row `cols` characters; the extents fit `size_t`. -/
def WellFormed (levels : Grid) (rows cols : Nat) : Prop :=
  rows < sizeModulus ∧ cols < sizeModulus ∧
    ∀ lv ∈ levels, lv.length = rows ∧ ∀ r ∈ lv, r.length = cols

/-- The coordinate lies inside a grid of the given extents. -/
def InBounds (levels : Grid) (rows cols : Nat) (k : Key) : Prop :=
  k.1 < levels.length ∧ k.2.1 < rows ∧ k.2.2 < cols

/-- The cell at a coordinate holds the given character. -/
def CellIs (levels : Grid) (k : Key) (c : Char) : Prop :=
  cellAt levels k.1 k.2.1 k.2.2 = some c

/-- One legal move: a step to a 4-adjacent traversable cell of the same level, or an
elevator jump between two Elevator cells with the same row and column. -/
def LegalMove (levels : Grid) (a b : Key) : Prop :=
  (a.1 = b.1 ∧
      ((a.2.1 = b.2.1 ∧ (a.2.2 + 1 = b.2.2 ∨ b.2.2 + 1 = a.2.2)) ∨
        (a.2.2 = b.2.2 ∧ (a.2.1 + 1 = b.2.1 ∨ b.2.1 + 1 = a.2.1))) ∧
      isValid levels b.1 b.2.1 b.2.2 = true) ∨
    (a.1 ≠ b.1 ∧ a.2.1 = b.2.1 ∧ a.2.2 = b.2.2 ∧ CellIs levels a 'E' ∧ CellIs levels b 'E')

/-- A sequence of coordinates each one legal move from the one before. -/
def IsWalk (levels : Grid) (w : List Key) : Prop :=
  List.Chain' (LegalMove levels) w

/-- The coordinate `b` can be reached from `a` by legal moves. -/
def Reachable (levels : Grid) (a b : Key) : Prop :=
  Relation.ReflTransGen (LegalMove levels) a b

/-- Some Hazard cell can be reached from `a` by legal moves. -/
def HazardReachable (levels : Grid) (a : Key) : Prop :=
  ∃ h, Reachable levels a h ∧ CellIs levels h 'H'

/-- The same-level candidates as the specification lists them: north, east, south, west,
a step off the low edge left out, each kept when its target is traversable. -/
def planarSpec (levels : Grid) (current : Position) : List Position :=
  ((if 0 < current.row then [(⟨current.level, current.row - 1, current.col, 'n'⟩ : Position)]
      else []) ++
    [(⟨current.level, current.row, current.col + 1, 'e'⟩ : Position),
     (⟨current.level, current.row + 1, current.col, 's'⟩ : Position)] ++
    (if 0 < current.col then [(⟨current.level, current.row, current.col - 1, 'w'⟩ : Position)]
      else [])).filter (fun p => isValid levels p.level p.row p.col)

/-- The cross-level candidates as the specification lists them. -/
def elevatorSpec (levels : Grid) (current : Position) (visited : List Key) : List Position :=
  if cellAt levels current.level current.row current.col = some 'E' then
    ((List.range levels.length).filter (fun l =>
        decide (l ≠ current.level) && decide (cellAt levels l current.row current.col = some 'E')
          && decide ((l, current.row, current.col) ∉ visited))).map
      (fun l => ⟨l, current.row, current.col, if l < current.level then 'n' else 's'⟩)
  else []

/-! ## Proof devices: the pushed candidates and the loop invariants -/

/-- The candidates the loop over `nextPositions` pushes: those whose coordinate is not yet
visited, each coordinate once. -/
def freshOf (visited : List Key) : List Position → List Position
  | [] => []
  | c :: cs =>
    if c.key ∈ visited then freshOf visited cs else c :: freshOf (c.key :: visited) cs

/-- The candidate list of `current` under some visited set. -/
def IsCandidate (levels : Grid) (current p : Position) : Prop :=
  p ∈ planarSpec levels current ∨ ∃ visited, p ∈ elevatorSpec levels current visited

/-- Invariant of the search loop in either mode; `depth` is the depth of a visited cell in
the tree of parent pointers. -/
structure Inv (levels : Grid) (rows cols : Nat) (start : Position) (depth : Key → Nat)
    (st : SearchState) : Prop where
  start_mem : start.key ∈ st.visited
  start_parent : parentOf st.parentMap start.key = some start
  start_depth : depth start.key = 0
  keys_eq : st.parentMap.map Prod.fst = st.visited
  visited_nodup : st.visited.Nodup
  visited_inb : ∀ k ∈ st.visited, InBounds levels rows cols k
  dq_sub : ∀ p ∈ st.dq, p.key ∈ st.visited
  dq_nodup : (st.dq.map Position.key).Nodup
  dq_label : ∀ p ∈ st.dq, p = start ∨
    ∃ q, parentOf st.parentMap p.key = some q ∧ IsCandidate levels q p
  parent_ok : ∀ k ∈ st.visited, k ≠ start.key →
    ∃ p, parentOf st.parentMap k = some p ∧ p.key ∈ st.visited ∧
      p.key ∉ st.dq.map Position.key ∧ LegalMove levels p.key k ∧ depth k = depth p.key + 1
  closed : ∀ k ∈ st.visited, k ∉ st.dq.map Position.key →
    ¬ CellIs levels k 'H' ∧ ∀ k2, LegalMove levels k k2 → k2 ∈ st.visited

/-- Additional invariant of the search loop in queue mode. -/
structure QInv (levels : Grid) (depth : Key → Nat) (st : SearchState) : Prop where
  sorted : st.dq.Pairwise (fun a b => depth a.key ≤ depth b.key)
  bound : ∀ a ∈ st.dq, ∀ k ∈ st.visited, depth k ≤ depth a.key + 1
  closed_depth : ∀ k ∈ st.visited, k ∉ st.dq.map Position.key →
    ∀ k2, LegalMove levels k k2 → depth k2 ≤ depth k + 1

/-- The cells the backward walk collects from `current`, goal first, the start left out. -/
inductive BackWalk (parentMap : List (Key × Position)) (start : Position) :
    Position → List Position → Prop where
  | stop (current : Position) : current.key = start.key →
      BackWalk parentMap start current []
  | step (current parent : Position) (rest : List Position) : current.key ≠ start.key →
      parentOf parentMap current.key = some parent → BackWalk parentMap start parent rest →
      BackWalk parentMap start current (current :: rest)

/-- The cells pushed when `current` is expanded in state `st`. -/
def freshCells (levels : Grid) (current : Position) (st : SearchState) : List Position :=
  freshOf st.visited (planarSpec levels current ++ elevatorSpec levels current st.visited)

/-- The state after `current` was popped, leaving `rest`, and expanded. -/
def expandState (levels : Grid) (current : Position) (rest : List Position)
    (st : SearchState) : SearchState :=
  ⟨rest ++ freshCells levels current st,
   ((freshCells levels current st).map (fun p => (p.key, current))).reverse ++ st.parentMap,
   ((freshCells levels current st).map Position.key).reverse ++ st.visited⟩

/-- The depths after `current` was expanded: the pushed cells lie one below `current`. -/
def bumpDepth (levels : Grid) (current : Position) (st : SearchState) (depth : Key → Nat) :
    Key → Nat :=
  fun k => if k ∈ (freshCells levels current st).map Position.key then depth current.key + 1
    else depth k

/-- The invariants of the search loop hold for some assignment of depths. -/
def Good (levels : Grid) (rows cols : Nat) (start : Position) (mode : Mode)
    (st : SearchState) : Prop :=
  ∃ depth, Inv levels rows cols start depth st ∧ (mode = Mode.kQueue → QInv levels depth st)

/-- Element `i` of a path after the labelling loop: relabelled from its successor when it
has one. -/
def labelAt (path : List Position) (i : Nat) : Option Position :=
  match path[i]?, path[i + 1]? with
  | some current, some next => some { current with direction := labelRule current next }
  | some current, none => some current
  | none, _ => none

/-- What is known of a search that ended with a path: the loop head `st0` at which the Hazard
cell `current` was popped, the invariants there, and the backward walk `chain`. -/
structure FoundRun (levels : Grid) (rows cols : Nat) (start : Position) (mode : Mode)
    (path : List Position) (st : SearchState) (depth : Key → Nat) (st0 : SearchState)
    (current : Position) (chain : List Position) : Prop where
  head : LoopHead levels mode start st0
  inv : Inv levels rows cols start depth st0
  qinv : mode = Mode.kQueue → QInv levels depth st0
  pop : popFrontier mode st0.dq = some (current, st.dq)
  pm_eq : st.parentMap = st0.parentMap
  vis_eq : st.visited = st0.visited
  hazard : CellIs levels current.key 'H'
  walk : BackWalk st0.parentMap start current chain
  path_eq : path = labelPath (chain ++ [start]).reverse

instance (levels : Grid) (rows cols : Nat) : Decidable (WellFormed levels rows cols) := by
  unfold WellFormed
  infer_instance

instance (levels : Grid) (rows cols : Nat) (k : Key) : Decidable (InBounds levels rows cols k) := by
  unfold InBounds
  infer_instance

instance (levels : Grid) (k : Key) (c : Char) : Decidable (CellIs levels k c) := by
  unfold CellIs
  infer_instance

instance (levels : Grid) (a b : Key) : Decidable (LegalMove levels a b) := by
  unfold LegalMove
  infer_instance

instance (levels : Grid) (w : List Key) : Decidable (IsWalk levels w) := by
  unfold IsWalk
  infer_instance

/-- The label of a path cell as the specification words it: compass letters on one level,
the decimal digit of the successor's level across levels. -/
def specLabel (current next : Position) : Char :=
  if current.level = next.level then
    if current.row = next.row then
      if next.col > current.col then 'e' else 'w'
    else
      if next.row > current.row then 's' else 'n'
  else Nat.digitChar next.level

/-- Replaying one label as a move, as the specification words it. -/
def replayMove (k : Key) (c : Char) : Key :=
  if c = 'e' then (k.1, k.2.1, k.2.2 + 1)
  else if c = 'w' then (k.1, k.2.1, k.2.2 - 1)
  else if c = 's' then (k.1, k.2.1 + 1, k.2.2)
  else if c = 'n' then (k.1, k.2.1 - 1, k.2.2)
  else (c.toNat - '0'.toNat, k.2.1, k.2.2)

/-- Replaying a list of labels from a coordinate: the coordinates passed through. -/
def replay (k : Key) : List Char → List Key
  | [] => [k]
  | c :: cs => k :: replay (replayMove k c) cs

/-- The labels derived from the consecutive pairs of a path. -/
def deriveLabels (path : List Position) : List Char :=
  List.zipWith labelRule path path.tail

/-! ## Example mazes -/

/-- One level, 3x3: Start at (0,0,0), Hazard at (0,0,2), all other cells Open. -/
def mazeRow : Grid := [["S.H".toList, "...".toList, "...".toList]]

/-- One level, 2x2: the Hazard lies round a corner from the Start. -/
def mazeCorner : Grid := [["S.".toList, "#H".toList]]

/-- Two levels, 2x2: the Hazard is reached through an elevator. -/
def mazeLift : Grid := [["S.".toList, "E#".toList], ["H.".toList, "E.".toList]]

/-- One level, 2x2: the Hazard is walled off. -/
def mazeWalled : Grid := [["S#".toList, "#H".toList]]

/-- The start position of the example mazes. -/
def origin : Position := ⟨0, 0, 0, ' '⟩

/-- The labelled path both modes find in `mazeCorner`. -/
def cornerPath : List Position := [⟨0, 0, 0, 's'⟩, ⟨0, 0, 1, 's'⟩, ⟨0, 1, 1, 's'⟩]

/-- The containers of the search in `mazeCorner` when the Hazard is popped. -/
def cornerState : SearchState :=
  ⟨[], [((0, 1, 1), ⟨0, 0, 1, 'e'⟩), ((0, 0, 1), ⟨0, 0, 0, ' '⟩), ((0, 0, 0), ⟨0, 0, 0, ' '⟩)],
   [(0, 1, 1), (0, 0, 1), (0, 0, 0)]⟩

/-- The containers of the search in `mazeWalled` when the frontier runs empty. -/
def walledState : SearchState := ⟨[], [((0, 0, 0), origin)], [(0, 0, 0)]⟩

/-- The dimensions of a grid: the length of every row of every level. -/
def gridShape (levels : Grid) : List (List Nat) :=
  levels.map (fun lv => lv.map List.length)

/-! ## Proof devices: forgetting the label of the start -/

/-- Applying a function to the result of a run. -/
def Exec.map {α β : Type} (f : α → β) : Exec α → Exec β
  | Exec.ok a => Exec.ok (f a)
  | Exec.undefinedBehaviour => Exec.undefinedBehaviour
  | Exec.outOfFuel => Exec.outOfFuel

/-- The position with its label blanked when it lies on the coordinate `k`. -/
def normLabel (k : Key) (p : Position) : Position :=
  if p.key = k then { p with direction := ' ' } else p

/-- The containers with the label blanked on every position that lies on `k`. -/
def normState (k : Key) (st : SearchState) : SearchState :=
  ⟨st.dq.map (normLabel k), st.parentMap.map (fun e => (e.1, normLabel k e.2)), st.visited⟩

/-- The end of the search loop with the labels on `k` blanked. -/
def normEnd (k : Key) : SearchEnd → SearchEnd
  | SearchEnd.found current st => SearchEnd.found (normLabel k current) (normState k st)
  | SearchEnd.exhausted st => SearchEnd.exhausted (normState k st)

/-- The result of one pass through the loop with the labels on `k` blanked. -/
def normStep (k : Key) : LoopStep → LoopStep
  | LoopStep.ended e => LoopStep.ended (normEnd k e)
  | LoopStep.next st => LoopStep.next (normState k st)

/-- Two runs end the same way: both with a path over the same coordinates, both exhausted,
or both without a result. -/
def SameOutcome : Exec Outcome → Exec Outcome → Prop
  | Exec.ok (Outcome.found p1 _), Exec.ok (Outcome.found p2 _) =>
      p1.map Position.key = p2.map Position.key
  | Exec.ok (Outcome.exhausted _), Exec.ok (Outcome.exhausted _) => True
  | Exec.undefinedBehaviour, Exec.undefinedBehaviour => True
  | Exec.outOfFuel, Exec.outOfFuel => True
  | _, _ => False


/-! ## Grid lookups -/

theorem sizeAdd_zero (a : Nat) (h : a < sizeModulus) : sizeAdd a 0 = a := by
  unfold sizeAdd; unfold sizeModulus at h; omega

theorem sizeAdd_one (a : Nat) (h : a + 1 < sizeModulus) : sizeAdd a 1 = a + 1 := by
  unfold sizeAdd; unfold sizeModulus at h; omega

theorem sizeAdd_neg_one (a : Nat) (h : a < sizeModulus) (h0 : 0 < a) :
    sizeAdd a (-1) = a - 1 := by
  unfold sizeAdd; unfold sizeModulus at h; omega

theorem sizeAdd_neg_one_zero : sizeAdd 0 (-1) = sizeModulus - 1 := by
  decide

theorem isValid_iff (levels : Grid) (l r c : Nat) :
    isValid levels l r c = true ↔
      ∃ ch, cellAt levels l r c = some ch ∧ (ch = '.' ∨ ch = 'E' ∨ ch = 'H') := by
  unfold isValid cellAt
  cases h1 : levels[l]? with
  | none => simp
  | some lv =>
    cases h2 : lv[r]? with
    | none => simp [h2]
    | some rw =>
      cases h3 : rw[c]? with
      | none => simp [h2, h3]
      | some ch => simp [h2, h3, or_assoc]

theorem cellAt_some_iff (levels : Grid) (rows cols : Nat) (hw : WellFormed levels rows cols)
    (l r c : Nat) :
    (∃ ch, cellAt levels l r c = some ch) ↔ InBounds levels rows cols (l, r, c) := by
  obtain ⟨_, _, hall⟩ := hw
  unfold cellAt InBounds
  constructor
  · rintro ⟨ch, h⟩
    cases hl : levels[l]? with
    | none => simp [hl] at h
    | some lv =>
      have hlv := List.getElem?_eq_some.mp hl
      obtain ⟨hlt, hlv⟩ := hlv
      have hmem : lv ∈ levels := hlv ▸ List.getElem_mem _
      cases hr : lv[r]? with
      | none => simp [hl, hr] at h
      | some rw =>
        obtain ⟨hrlt, hrw⟩ := List.getElem?_eq_some.mp hr
        have hrmem : rw ∈ lv := hrw ▸ List.getElem_mem _
        simp only [hl, hr] at h
        obtain ⟨hclt, _⟩ := List.getElem?_eq_some.mp h
        have h1 := (hall lv hmem).1
        have h2 := (hall lv hmem).2 rw hrmem
        exact ⟨hlt, by simpa [h1] using hrlt, by simpa [h2] using hclt⟩
  · rintro ⟨hl, hr, hc⟩
    simp only at hl hr hc
    have hmem : levels[l] ∈ levels := List.getElem_mem _
    have h1 := (hall _ hmem).1
    have hr2 : r < (levels[l]).length := by omega
    have hrmem : (levels[l])[r] ∈ levels[l] := List.getElem_mem _
    have h2 := (hall _ hmem).2 _ hrmem
    have hc2 : c < ((levels[l])[r]).length := by omega
    refine ⟨((levels[l])[r])[c], ?_⟩
    simp [List.getElem?_eq_getElem, hl, hr2, hc2]

theorem isValid_inBounds (levels : Grid) (rows cols : Nat) (hw : WellFormed levels rows cols)
    (l r c : Nat) (h : isValid levels l r c = true) : InBounds levels rows cols (l, r, c) := by
  obtain ⟨ch, hch, _⟩ := (isValid_iff levels l r c).mp h
  exact (cellAt_some_iff levels rows cols hw l r c).mp ⟨ch, hch⟩

theorem isValid_false_of_row (levels : Grid) (rows cols : Nat) (hw : WellFormed levels rows cols)
    (l r c : Nat) (h : rows ≤ r) : isValid levels l r c = false := by
  cases hv : isValid levels l r c with
  | false => rfl
  | true =>
    have := isValid_inBounds levels rows cols hw l r c hv
    unfold InBounds at this
    simp only at this
    omega

theorem isValid_false_of_col (levels : Grid) (rows cols : Nat) (hw : WellFormed levels rows cols)
    (l r c : Nat) (h : cols ≤ c) : isValid levels l r c = false := by
  cases hv : isValid levels l r c with
  | false => rfl
  | true =>
    have := isValid_inBounds levels rows cols hw l r c hv
    unfold InBounds at this
    simp only at this
    omega


/-! ## The candidates of `getNextPositions` -/

theorem planarCandidate_north (levels : Grid) (rows cols : Nat)
    (hw : WellFormed levels rows cols) (current : Position)
    (hb : InBounds levels rows cols current.key) :
    planarCandidate levels current (-1, 0) =
      if 0 < current.row ∧ isValid levels current.level (current.row - 1) current.col = true
      then some ⟨current.level, current.row - 1, current.col, 'n'⟩ else none := by
  obtain ⟨hr, hc, _⟩ := id hw
  obtain ⟨_, hbr, hbc⟩ := hb
  simp only [Position.key] at hbr hbc
  unfold planarCandidate
  simp only [sizeAdd_zero current.col (by omega)]
  by_cases h0 : 0 < current.row
  · rw [sizeAdd_neg_one current.row (by omega) h0]
    simp [h0, moveDirection]
  · have hz : current.row = 0 := by omega
    rw [hz, sizeAdd_neg_one_zero]
    rw [isValid_false_of_row levels rows cols hw _ _ _ (by unfold sizeModulus at *; omega)]
    simp

theorem planarCandidate_west (levels : Grid) (rows cols : Nat)
    (hw : WellFormed levels rows cols) (current : Position)
    (hb : InBounds levels rows cols current.key) :
    planarCandidate levels current (0, -1) =
      if 0 < current.col ∧ isValid levels current.level current.row (current.col - 1) = true
      then some ⟨current.level, current.row, current.col - 1, 'w'⟩ else none := by
  obtain ⟨hr, hc, _⟩ := id hw
  obtain ⟨_, hbr, hbc⟩ := hb
  simp only [Position.key] at hbr hbc
  unfold planarCandidate
  simp only [sizeAdd_zero current.row (by omega)]
  by_cases h0 : 0 < current.col
  · rw [sizeAdd_neg_one current.col (by omega) h0]
    simp [h0, moveDirection]
  · have hz : current.col = 0 := by omega
    rw [hz, sizeAdd_neg_one_zero]
    rw [isValid_false_of_col levels rows cols hw _ _ _ (by unfold sizeModulus at *; omega)]
    simp

theorem planarCandidate_east (levels : Grid) (rows cols : Nat)
    (hw : WellFormed levels rows cols) (current : Position)
    (hb : InBounds levels rows cols current.key) :
    planarCandidate levels current (0, 1) =
      if isValid levels current.level current.row (current.col + 1) = true
      then some ⟨current.level, current.row, current.col + 1, 'e'⟩ else none := by
  obtain ⟨hr, hc, _⟩ := id hw
  obtain ⟨_, hbr, hbc⟩ := hb
  simp only [Position.key] at hbr hbc
  unfold planarCandidate
  simp only [sizeAdd_zero current.row (by omega), sizeAdd_one current.col (by omega)]
  simp [moveDirection]

theorem planarCandidate_south (levels : Grid) (rows cols : Nat)
    (hw : WellFormed levels rows cols) (current : Position)
    (hb : InBounds levels rows cols current.key) :
    planarCandidate levels current (1, 0) =
      if isValid levels current.level (current.row + 1) current.col = true
      then some ⟨current.level, current.row + 1, current.col, 's'⟩ else none := by
  obtain ⟨hr, hc, _⟩ := id hw
  obtain ⟨_, hbr, hbc⟩ := hb
  simp only [Position.key] at hbr hbc
  unfold planarCandidate
  simp only [sizeAdd_zero current.col (by omega), sizeAdd_one current.row (by omega)]
  simp [moveDirection]

theorem planarPositions_eq (levels : Grid) (rows cols : Nat)
    (hw : WellFormed levels rows cols) (current : Position)
    (hb : InBounds levels rows cols current.key) :
    planarPositions levels current = planarSpec levels current := by
  unfold planarPositions planarSpec moves
  simp only [List.filterMap_cons, List.filterMap_nil,
    planarCandidate_north levels rows cols hw current hb,
    planarCandidate_east levels rows cols hw current hb,
    planarCandidate_south levels rows cols hw current hb,
    planarCandidate_west levels rows cols hw current hb]
  by_cases h1 : 0 < current.row <;> by_cases h2 : 0 < current.col <;>
    by_cases v1 : isValid levels current.level (current.row - 1) current.col = true <;>
    by_cases v2 : isValid levels current.level current.row (current.col + 1) = true <;>
    by_cases v3 : isValid levels current.level (current.row + 1) current.col = true <;>
    by_cases v4 : isValid levels current.level current.row (current.col - 1) = true <;>
    simp [h1, h2, v1, v2, v3, v4, List.filter_cons]

theorem elevatorLoop_eq (levels : Grid) (rows cols : Nat)
    (hw : WellFormed levels rows cols) (current : Position)
    (hb : InBounds levels rows cols current.key) (visited : List Key) (ls : List Nat)
    (hls : ∀ l ∈ ls, l < levels.length) :
    elevatorLoop levels current visited ls =
      Exec.ok ((ls.filter (fun l =>
          decide (l ≠ current.level) &&
            decide (cellAt levels l current.row current.col = some 'E')
            && decide ((l, current.row, current.col) ∉ visited))).map
        (fun l => ⟨l, current.row, current.col, if l < current.level then 'n' else 's'⟩)) := by
  induction ls with
  | nil => rfl
  | cons l rest ih =>
    have hl : l < levels.length := hls l (List.mem_cons_self _ _)
    have ih1 := ih (fun x hx => hls x (List.mem_cons_of_mem _ hx))
    obtain ⟨_, hbr, hbc⟩ := hb
    simp only [Position.key] at hbr hbc
    obtain ⟨c, hc⟩ := (cellAt_some_iff levels rows cols hw l current.row current.col).mpr
      ⟨hl, hbr, hbc⟩
    unfold elevatorLoop
    rw [ih1]
    unfold elevatorCandidate
    by_cases h1 : l = current.level
    · simp [h1, List.filter_cons]
    · by_cases h2 : c = 'E'
      · by_cases h3 : (l, current.row, current.col) ∈ visited
        · simp [h1, hc, h2, h3, List.filter_cons]
        · simp [h1, hc, h2, h3, List.filter_cons]
      · simp [h1, hc, h2, List.filter_cons]

theorem getNextPositions_eq (levels : Grid) (rows cols : Nat)
    (hw : WellFormed levels rows cols) (current : Position)
    (hb : InBounds levels rows cols current.key) (visited : List Key) :
    getNextPositions levels current visited =
      Exec.ok (planarSpec levels current ++ elevatorSpec levels current visited) := by
  obtain ⟨c, hc⟩ := (cellAt_some_iff levels rows cols hw current.level current.row
    current.col).mpr hb
  unfold getNextPositions elevatorSpec
  simp only [hc, planarPositions_eq levels rows cols hw current hb]
  by_cases h : c = 'E'
  · rw [elevatorLoop_eq levels rows cols hw current hb visited (List.range levels.length)
      (fun l hl => List.mem_range.mp hl)]
    simp [h]
  · simp [h]

theorem mem_planarSpec (levels : Grid) (current p : Position) :
    p ∈ planarSpec levels current ↔
      (isValid levels p.level p.row p.col = true ∧ p.level = current.level ∧
        ((p.row + 1 = current.row ∧ p.col = current.col ∧ p.direction = 'n') ∨
         (p.row = current.row ∧ p.col = current.col + 1 ∧ p.direction = 'e') ∨
         (p.row = current.row + 1 ∧ p.col = current.col ∧ p.direction = 's') ∨
         (p.row = current.row ∧ p.col + 1 = current.col ∧ p.direction = 'w'))) := by
  obtain ⟨pl, pr, pc, pd⟩ := p
  unfold planarSpec
  simp only [List.mem_filter, List.mem_append, List.mem_cons, List.mem_singleton,
    Position.mk.injEq]
  constructor
  · rintro ⟨h, hv⟩
    refine ⟨hv, ?_⟩
    rcases h with (h | h | h) | h
    · split at h
      · simp only [List.mem_singleton, Position.mk.injEq] at h
        obtain ⟨h1, h2, h3, h4⟩ := h
        exact ⟨h1, Or.inl ⟨by omega, h3, h4⟩⟩
      · simp at h
    · obtain ⟨h1, h2, h3, h4⟩ := h
      exact ⟨h1, Or.inr (Or.inl ⟨h2, h3, h4⟩)⟩
    · simp only [List.mem_singleton, Position.mk.injEq, List.not_mem_nil, or_false] at h
      obtain ⟨h1, h2, h3, h4⟩ := h
      exact ⟨h1, Or.inr (Or.inr (Or.inl ⟨h2, h3, h4⟩))⟩
    · split at h
      · simp only [List.mem_singleton, Position.mk.injEq] at h
        obtain ⟨h1, h2, h3, h4⟩ := h
        exact ⟨h1, Or.inr (Or.inr (Or.inr ⟨h2, by omega, h4⟩))⟩
      · simp at h
  · rintro ⟨hv, hl, h⟩
    refine ⟨?_, hv⟩
    rcases h with ⟨h1, h2, h3⟩ | ⟨h1, h2, h3⟩ | ⟨h1, h2, h3⟩ | ⟨h1, h2, h3⟩
    · left; left
      have h0 : 0 < current.row := by omega
      simp only [h0, if_true, List.mem_singleton, Position.mk.injEq]
      exact ⟨hl, by omega, h2, h3⟩
    · left; right; left
      exact ⟨hl, h1, h2, h3⟩
    · left; right; right
      simp only [List.mem_singleton, Position.mk.injEq, List.not_mem_nil, or_false]
      exact ⟨hl, h1, h2, h3⟩
    · right
      have h0 : 0 < current.col := by omega
      simp only [h0, if_true, List.mem_singleton, Position.mk.injEq]
      exact ⟨hl, h1, by omega, h3⟩

theorem mem_elevatorSpec (levels : Grid) (current p : Position) (visited : List Key) :
    p ∈ elevatorSpec levels current visited ↔
      (cellAt levels current.level current.row current.col = some 'E' ∧
        p.level < levels.length ∧ p.level ≠ current.level ∧
        cellAt levels p.level current.row current.col = some 'E' ∧
        (p.level, current.row, current.col) ∉ visited ∧
        p.row = current.row ∧ p.col = current.col ∧
        p.direction = if p.level < current.level then 'n' else 's') := by
  obtain ⟨pl, pr, pc, pd⟩ := p
  unfold elevatorSpec
  by_cases hE : cellAt levels current.level current.row current.col = some 'E'
  · simp only [hE, if_true, List.mem_map, List.mem_filter, List.mem_range, Bool.and_eq_true,
      decide_eq_true_eq, Position.mk.injEq, true_and]
    constructor
    · rintro ⟨l, ⟨hl, ⟨h1, h2⟩, h3⟩, rfl, rfl, rfl, rfl⟩
      exact ⟨hl, h1, h2, h3, rfl, rfl, rfl⟩
    · rintro ⟨hl, h1, h2, h3, rfl, rfl, h4⟩
      exact ⟨pl, ⟨hl, ⟨h1, h2⟩, h3⟩, rfl, rfl, rfl, h4.symm⟩
  · simp [hE]

theorem cellAt_level_lt (levels : Grid) (l r c : Nat) (ch : Char)
    (h : cellAt levels l r c = some ch) : l < levels.length := by
  unfold cellAt at h
  cases hl : levels[l]? with
  | none => simp [hl] at h
  | some lv => exact (List.getElem?_eq_some.mp hl).1

theorem candidate_legal (levels : Grid) (rows cols : Nat) (hw : WellFormed levels rows cols)
    (current p : Position) (hb : InBounds levels rows cols current.key)
    (hp : IsCandidate levels current p) :
    LegalMove levels current.key p.key ∧ InBounds levels rows cols p.key := by
  rcases hp with hp | ⟨visited, hp⟩
  · rw [mem_planarSpec] at hp
    obtain ⟨hv, hl, hdir⟩ := hp
    refine ⟨Or.inl ⟨hl.symm, ?_, hv⟩, isValid_inBounds levels rows cols hw _ _ _ hv⟩
    simp only [Position.key]
    rcases hdir with ⟨h1, h2, _⟩ | ⟨h1, h2, _⟩ | ⟨h1, h2, _⟩ | ⟨h1, h2, _⟩
    · exact Or.inr ⟨h2.symm, Or.inr h1⟩
    · exact Or.inl ⟨h1.symm, Or.inl h2.symm⟩
    · exact Or.inr ⟨h2.symm, Or.inl h1.symm⟩
    · exact Or.inl ⟨h1.symm, Or.inr h2⟩
  · rw [mem_elevatorSpec] at hp
    obtain ⟨hE, hlt, hne, hE2, _, hr, hc, _⟩ := hp
    constructor
    · refine Or.inr ⟨fun h => hne h.symm, hr.symm, hc.symm, hE, ?_⟩
      simp only [CellIs, Position.key, hr, hc]
      exact hE2
    · obtain ⟨_, hbr, hbc⟩ := hb
      simp only [Position.key] at hbr hbc
      exact ⟨hlt, by simpa [Position.key, hr] using hbr, by simpa [Position.key, hc] using hbc⟩

theorem candidate_cover (levels : Grid) (current : Position) (visited : List Key) (k : Key)
    (h : LegalMove levels current.key k) :
    k ∈ visited ∨ ∃ p ∈ planarSpec levels current ++ elevatorSpec levels current visited,
      p.key = k := by
  obtain ⟨kl, kr, kc⟩ := k
  rcases h with ⟨hl, hadj, hv⟩ | ⟨hne, hr, hc, hE1, hE2⟩
  · simp only [Position.key] at hl hadj hv
    right
    rcases hadj with ⟨h1, h2 | h2⟩ | ⟨h1, h2 | h2⟩
    · refine ⟨⟨kl, kr, kc, 'e'⟩, List.mem_append_left _ ?_, rfl⟩
      rw [mem_planarSpec]
      exact ⟨hv, hl.symm, Or.inr (Or.inl ⟨h1.symm, h2.symm, rfl⟩)⟩
    · refine ⟨⟨kl, kr, kc, 'w'⟩, List.mem_append_left _ ?_, rfl⟩
      rw [mem_planarSpec]
      exact ⟨hv, hl.symm, Or.inr (Or.inr (Or.inr ⟨h1.symm, h2, rfl⟩))⟩
    · refine ⟨⟨kl, kr, kc, 's'⟩, List.mem_append_left _ ?_, rfl⟩
      rw [mem_planarSpec]
      exact ⟨hv, hl.symm, Or.inr (Or.inr (Or.inl ⟨h2.symm, h1.symm, rfl⟩))⟩
    · refine ⟨⟨kl, kr, kc, 'n'⟩, List.mem_append_left _ ?_, rfl⟩
      rw [mem_planarSpec]
      exact ⟨hv, hl.symm, Or.inl ⟨h2, h1.symm, rfl⟩⟩
  · simp only [Position.key, CellIs] at hne hr hc hE1 hE2
    by_cases hvis : (kl, kr, kc) ∈ visited
    · exact Or.inl hvis
    · right
      refine ⟨⟨kl, kr, kc, if kl < current.level then 'n' else 's'⟩,
        List.mem_append_right _ ?_, rfl⟩
      rw [mem_elevatorSpec]
      refine ⟨hE1, cellAt_level_lt levels _ _ _ _ hE2, fun h => hne h.symm, ?_, ?_, hr.symm,
        hc.symm, rfl⟩
      · simpa [hr, hc] using hE2
      · simpa [hr, hc] using hvis

/-! ## The loop over `nextPositions` -/

theorem freshOf_sub (cs : List Position) : ∀ (visited : List Key) (p : Position),
    p ∈ freshOf visited cs → p ∈ cs ∧ p.key ∉ visited := by
  induction cs with
  | nil => intro visited p h; simp [freshOf] at h
  | cons c cs ih =>
    intro visited p h
    unfold freshOf at h
    by_cases hc : c.key ∈ visited
    · simp only [hc, if_true] at h
      obtain ⟨h1, h2⟩ := ih visited p h
      exact ⟨List.mem_cons_of_mem _ h1, h2⟩
    · simp only [hc, if_false, List.mem_cons] at h
      rcases h with rfl | h
      · exact ⟨List.mem_cons_self _ _, hc⟩
      · obtain ⟨h1, h2⟩ := ih (c.key :: visited) p h
        exact ⟨List.mem_cons_of_mem _ h1, fun hm => h2 (List.mem_cons_of_mem _ hm)⟩

theorem freshOf_nodup (cs : List Position) : ∀ (visited : List Key),
    ((freshOf visited cs).map Position.key).Nodup := by
  induction cs with
  | nil => intro visited; simp [freshOf]
  | cons c cs ih =>
    intro visited
    unfold freshOf
    by_cases hc : c.key ∈ visited
    · simp only [hc, if_true]
      exact ih visited
    · simp only [hc, if_false, List.map_cons, List.nodup_cons]
      refine ⟨?_, ih _⟩
      intro hm
      obtain ⟨p, hp, hpk⟩ := List.mem_map.mp hm
      exact (freshOf_sub cs _ p hp).2 (hpk ▸ List.mem_cons_self _ _)

theorem freshOf_cover (cs : List Position) : ∀ (visited : List Key) (c : Position),
    c ∈ cs → c.key ∈ visited ∨ c.key ∈ (freshOf visited cs).map Position.key := by
  induction cs with
  | nil => intro visited c h; simp at h
  | cons d cs ih =>
    intro visited c h
    unfold freshOf
    by_cases hd : d.key ∈ visited
    · simp only [hd, if_true]
      rcases List.mem_cons.mp h with rfl | h
      · exact Or.inl hd
      · exact ih visited c h
    · simp only [hd, if_false, List.map_cons, List.mem_cons]
      rcases List.mem_cons.mp h with rfl | h
      · exact Or.inr (Or.inl rfl)
      · rcases ih (d.key :: visited) c h with h1 | h1
        · rcases List.mem_cons.mp h1 with h2 | h2
          · exact Or.inr (Or.inl h2)
          · exact Or.inl h2
        · exact Or.inr (Or.inr h1)

theorem freshOf_cons_mem (visited : List Key) (c : Position) (cs : List Position)
    (h : c.key ∈ visited) : freshOf visited (c :: cs) = freshOf visited cs := by
  simp [freshOf, h]

theorem freshOf_cons_not_mem (visited : List Key) (c : Position) (cs : List Position)
    (h : c.key ∉ visited) :
    freshOf visited (c :: cs) = c :: freshOf (c.key :: visited) cs := by
  simp [freshOf, h]

theorem foldl_pushNext (mode : Mode) (hm : mode = Mode.kStack ∨ mode = Mode.kQueue)
    (current : Position) (cs : List Position) : ∀ (st : SearchState),
    cs.foldl (pushNext mode current) st =
      ⟨st.dq ++ freshOf st.visited cs,
       ((freshOf st.visited cs).map (fun p => (p.key, current))).reverse ++ st.parentMap,
       ((freshOf st.visited cs).map Position.key).reverse ++ st.visited⟩ := by
  induction cs with
  | nil => intro st; simp [freshOf]
  | cons c cs ih =>
    intro st
    rw [List.foldl_cons, ih]
    unfold pushNext
    by_cases hc : c.key ∈ st.visited
    · simp [hc, freshOf_cons_mem]
    · rcases hm with rfl | rfl <;> simp [hc, freshOf_cons_not_mem]

theorem popFrontier_spec (mode : Mode) (dq rest : List Position) (current : Position)
    (h : popFrontier mode dq = some (current, rest)) :
    (mode = Mode.kQueue ∧ dq = current :: rest) ∨ (mode = Mode.kStack ∧ dq = rest ++ [current]) := by
  unfold popFrontier at h
  cases mode with
  | kQueue =>
    cases dq with
    | nil => simp at h
    | cons a l =>
      simp only [Option.some.injEq, Prod.mk.injEq] at h
      exact Or.inl ⟨rfl, by rw [h.1, h.2]⟩
  | kStack =>
    right
    cases hl : dq.getLast? with
    | none => simp [hl] at h
    | some a =>
      simp only [hl, Option.some.injEq, Prod.mk.injEq] at h
      obtain ⟨rfl, rfl⟩ := h
      refine ⟨rfl, ?_⟩
      have hne : dq ≠ [] := by
        intro h0; rw [h0] at hl; simp at hl
      have := List.dropLast_append_getLast hne
      rw [List.getLast?_eq_getLast _ hne] at hl
      simp only [Option.some.injEq] at hl
      rw [hl] at this
      exact this.symm
  | kNone => simp at h
  | kMap => simp at h
  | kList => simp at h

theorem popFrontier_some (mode : Mode) (hm : mode = Mode.kStack ∨ mode = Mode.kQueue)
    (dq : List Position) (hne : dq ≠ []) :
    ∃ current rest, popFrontier mode dq = some (current, rest) := by
  rcases hm with rfl | rfl
  · unfold popFrontier
    rw [List.getLast?_eq_getLast _ hne]
    exact ⟨_, _, rfl⟩
  · cases dq with
    | nil => exact absurd rfl hne
    | cons a l => exact ⟨a, l, rfl⟩

/-! ## The parent map -/

theorem parentOf_append_not_mem (l1 l2 : List (Key × Position)) (k : Key)
    (h : k ∉ l1.map Prod.fst) : parentOf (l1 ++ l2) k = parentOf l2 k := by
  induction l1 with
  | nil => rfl
  | cons e l1 ih =>
    obtain ⟨k1, p1⟩ := e
    simp only [List.map_cons, List.mem_cons, not_or] at h
    simp only [List.cons_append, parentOf]
    rw [if_neg (fun hk => h.1 hk.symm)]
    exact ih h.2

theorem parentOf_append_mem (l1 l2 : List (Key × Position)) (k : Key) (q : Position)
    (hall : ∀ e ∈ l1, e.2 = q) (h : k ∈ l1.map Prod.fst) :
    parentOf (l1 ++ l2) k = some q := by
  induction l1 with
  | nil => simp at h
  | cons e l1 ih =>
    obtain ⟨k1, p1⟩ := e
    simp only [List.cons_append, parentOf]
    by_cases hk : k1 = k
    · rw [if_pos hk]
      have := hall (k1, p1) (List.mem_cons_self _ _)
      simp only at this
      rw [this]
    · rw [if_neg hk]
      simp only [List.map_cons, List.mem_cons] at h
      rcases h with h | h
      · exact absurd h.symm hk
      · exact ih (fun e he => hall e (List.mem_cons_of_mem _ he)) h

theorem parentOf_some_mem (l : List (Key × Position)) (k : Key) (q : Position)
    (h : parentOf l k = some q) : k ∈ l.map Prod.fst := by
  induction l with
  | nil => simp [parentOf] at h
  | cons e l ih =>
    obtain ⟨k1, p1⟩ := e
    simp only [parentOf] at h
    by_cases hk : k1 = k
    · simp [hk]
    · rw [if_neg hk] at h
      simp only [List.map_cons, List.mem_cons]
      exact Or.inr (ih h)

theorem parentOf_of_mem (l : List (Key × Position)) (k : Key) (h : k ∈ l.map Prod.fst) :
    ∃ q, parentOf l k = some q := by
  induction l with
  | nil => simp at h
  | cons e l ih =>
    obtain ⟨k1, p1⟩ := e
    simp only [parentOf]
    by_cases hk : k1 = k
    · exact ⟨p1, by rw [if_pos hk]⟩
    · rw [if_neg hk]
      simp only [List.map_cons, List.mem_cons] at h
      rcases h with h | h
      · exact absurd h.symm hk
      · exact ih h

/-! ## One pass through the search loop -/

theorem mem_expand_visited (levels : Grid) (current : Position) (rest : List Position)
    (st : SearchState) (k : Key) :
    k ∈ (expandState levels current rest st).visited ↔
      k ∈ (freshCells levels current st).map Position.key ∨ k ∈ st.visited := by
  simp [expandState]

theorem parentOf_expand_old (levels : Grid) (current : Position) (rest : List Position)
    (st : SearchState) (k : Key) (h : k ∉ (freshCells levels current st).map Position.key) :
    parentOf (expandState levels current rest st).parentMap k = parentOf st.parentMap k := by
  unfold expandState
  apply parentOf_append_not_mem
  simpa [List.map_reverse, List.map_map, Function.comp_def] using h

theorem parentOf_expand_new (levels : Grid) (current : Position) (rest : List Position)
    (st : SearchState) (k : Key) (h : k ∈ (freshCells levels current st).map Position.key) :
    parentOf (expandState levels current rest st).parentMap k = some current := by
  unfold expandState
  apply parentOf_append_mem
  · intro e he
    simp only [List.mem_reverse, List.mem_map] at he
    obtain ⟨p, _, rfl⟩ := he
    rfl
  · simpa [List.map_reverse, List.map_map, Function.comp_def] using h

theorem fresh_not_visited (levels : Grid) (current : Position) (st : SearchState) (k : Key)
    (h : k ∈ (freshCells levels current st).map Position.key) : k ∉ st.visited := by
  obtain ⟨p, hp, rfl⟩ := List.mem_map.mp h
  exact (freshOf_sub _ _ p hp).2

theorem fresh_candidate (levels : Grid) (current : Position) (st : SearchState) (p : Position)
    (h : p ∈ freshCells levels current st) : IsCandidate levels current p := by
  have := (freshOf_sub _ _ p h).1
  rcases List.mem_append.mp this with h1 | h1
  · exact Or.inl h1
  · exact Or.inr ⟨_, h1⟩

theorem loopBody_cases (levels : Grid) (rows cols : Nat) (hw : WellFormed levels rows cols)
    (mode : Mode) (hm : mode = Mode.kStack ∨ mode = Mode.kQueue) (st : SearchState)
    (hsub : ∀ p ∈ st.dq, InBounds levels rows cols p.key) :
    (st.dq = [] ∧ loopBody levels mode st = Exec.ok (LoopStep.ended (SearchEnd.exhausted st))) ∨
    ∃ current rest, popFrontier mode st.dq = some (current, rest) ∧
      ((CellIs levels current.key 'H' ∧
          loopBody levels mode st =
            Exec.ok (LoopStep.ended (SearchEnd.found current ⟨rest, st.parentMap, st.visited⟩))) ∨
       (¬ CellIs levels current.key 'H' ∧
          loopBody levels mode st =
            Exec.ok (LoopStep.next (expandState levels current rest st)))) := by
  by_cases hne : st.dq = []
  · left
    exact ⟨hne, by simp [loopBody, hne]⟩
  · right
    obtain ⟨current, rest, hpop⟩ := popFrontier_some mode hm st.dq hne
    refine ⟨current, rest, hpop, ?_⟩
    have hmem : current ∈ st.dq := by
      rcases popFrontier_spec mode st.dq rest current hpop with ⟨_, h⟩ | ⟨_, h⟩ <;>
        rw [h] <;> simp
    have hb := hsub current hmem
    obtain ⟨c, hc⟩ := (cellAt_some_iff levels rows cols hw current.level current.row
      current.col).mpr hb
    by_cases hH : c = 'H'
    · left
      subst hH
      exact ⟨hc, by simp [loopBody, hne, hpop, hc]⟩
    · right
      refine ⟨?_, ?_⟩
      · intro h
        unfold CellIs at h
        simp only [Position.key] at h
        rw [hc] at h
        exact hH (Option.some.inj h)
      · simp only [loopBody, hne, if_false, hpop, hc, hH,
          getNextPositions_eq levels rows cols hw current hb st.visited]
        rw [foldl_pushNext mode hm]
        rfl

/-! ## Preservation of the invariants -/

theorem inv_init (levels : Grid) (rows cols : Nat) (start : Position)
    (hb : InBounds levels rows cols start.key) :
    Inv levels rows cols start (fun _ => 0) (initState start) := by
  refine ⟨?_, ?_, rfl, ?_, ?_, ?_, ?_, ?_, ?_, ?_, ?_⟩
  · simp [initState]
  · simp [initState, parentOf]
  · simp [initState]
  · simp [initState]
  · intro k hk
    simp only [initState, List.mem_singleton] at hk
    exact hk ▸ hb
  · intro p hp
    simp only [initState, List.mem_singleton] at hp
    simp [initState, hp]
  · simp [initState]
  · intro p hp
    simp only [initState, List.mem_singleton] at hp
    exact Or.inl hp
  · intro k hk hne
    simp only [initState, List.mem_singleton] at hk
    exact absurd hk hne
  · intro k hk hnot
    simp only [initState, List.mem_singleton] at hk
    simp [initState, hk] at hnot

theorem bumpDepth_old (levels : Grid) (current : Position) (st : SearchState)
    (depth : Key → Nat) (k : Key) (h : k ∈ st.visited) :
    bumpDepth levels current st depth k = depth k := by
  unfold bumpDepth
  rw [if_neg (fun hf => fresh_not_visited levels current st k hf h)]

theorem bumpDepth_new (levels : Grid) (current : Position) (st : SearchState)
    (depth : Key → Nat) (k : Key) (h : k ∈ (freshCells levels current st).map Position.key) :
    bumpDepth levels current st depth k = depth current.key + 1 := by
  unfold bumpDepth
  rw [if_pos h]

theorem inv_expand (levels : Grid) (rows cols : Nat) (hw : WellFormed levels rows cols)
    (start : Position) (depth : Key → Nat) (st : SearchState)
    (hinv : Inv levels rows cols start depth st) (current : Position) (rest : List Position)
    (hperm : st.dq.Perm (current :: rest)) (hH : ¬ CellIs levels current.key 'H') :
    Inv levels rows cols start (bumpDepth levels current st depth)
      (expandState levels current rest st) := by
  have hcur_mem : current ∈ st.dq := hperm.symm.subset (List.mem_cons_self _ _)
  have hcur_vis : current.key ∈ st.visited := hinv.dq_sub current hcur_mem
  have hcur_inb : InBounds levels rows cols current.key := hinv.visited_inb _ hcur_vis
  have hrest : ∀ p ∈ rest, p ∈ st.dq := fun p hp =>
    hperm.symm.subset (List.mem_cons_of_mem _ hp)
  have hkperm : (st.dq.map Position.key).Perm (current.key :: rest.map Position.key) := by
    simpa using hperm.map Position.key
  have hknodup : (current.key :: rest.map Position.key).Nodup :=
    hkperm.nodup_iff.mp hinv.dq_nodup
  have hcur_notin : current.key ∉ rest.map Position.key := (List.nodup_cons.mp hknodup).1
  have hrest_nodup : (rest.map Position.key).Nodup := (List.nodup_cons.mp hknodup).2
  have hrest_vis : ∀ k ∈ rest.map Position.key, k ∈ st.visited := by
    intro k hk
    obtain ⟨p, hp, rfl⟩ := List.mem_map.mp hk
    exact hinv.dq_sub p (hrest p hp)
  have hdq_keys : ∀ k, k ∈ st.dq.map Position.key → k = current.key ∨ k ∈ rest.map Position.key := by
    intro k hk
    exact List.mem_cons.mp (hkperm.subset hk)
  have hnew_dq : ∀ k, k ∈ (expandState levels current rest st).dq.map Position.key ↔
      k ∈ rest.map Position.key ∨ k ∈ (freshCells levels current st).map Position.key := by
    intro k
    simp [expandState]
  refine ⟨?_, ?_, ?_, ?_, ?_, ?_, ?_, ?_, ?_, ?_, ?_⟩
  · exact (mem_expand_visited _ _ _ _ _).mpr (Or.inr hinv.start_mem)
  · rw [parentOf_expand_old _ _ _ _ _
      (fun hf => fresh_not_visited levels current st _ hf hinv.start_mem)]
    exact hinv.start_parent
  · rw [bumpDepth_old _ _ _ _ _ hinv.start_mem]
    exact hinv.start_depth
  · simp [expandState, List.map_reverse, List.map_map, Function.comp_def, hinv.keys_eq]
  · unfold expandState
    simp only
    rw [List.nodup_append]
    refine ⟨List.nodup_reverse.mpr (freshOf_nodup _ _), hinv.visited_nodup, ?_⟩
    intro k hk1 hk2
    exact fresh_not_visited levels current st k (List.mem_reverse.mp hk1) hk2
  · intro k hk
    rcases (mem_expand_visited _ _ _ _ _).mp hk with hk | hk
    · obtain ⟨p, hp, rfl⟩ := List.mem_map.mp hk
      exact (candidate_legal levels rows cols hw current p hcur_inb
        (fresh_candidate levels current st p hp)).2
    · exact hinv.visited_inb k hk
  · intro p hp
    simp only [expandState, List.mem_append] at hp
    rcases hp with hp | hp
    · exact (mem_expand_visited _ _ _ _ _).mpr (Or.inr (hinv.dq_sub p (hrest p hp)))
    · exact (mem_expand_visited _ _ _ _ _).mpr (Or.inl (List.mem_map_of_mem _ hp))
  · unfold expandState
    simp only [List.map_append]
    rw [List.nodup_append]
    refine ⟨hrest_nodup, freshOf_nodup _ _, ?_⟩
    intro k hk1 hk2
    exact fresh_not_visited levels current st k hk2 (hrest_vis k hk1)
  · intro p hp
    simp only [expandState, List.mem_append] at hp
    rcases hp with hp | hp
    · rcases hinv.dq_label p (hrest p hp) with h | ⟨q, hq, hc⟩
      · exact Or.inl h
      · refine Or.inr ⟨q, ?_, hc⟩
        rw [parentOf_expand_old _ _ _ _ _ (fun hf =>
          fresh_not_visited levels current st _ hf (hinv.dq_sub p (hrest p hp)))]
        exact hq
    · exact Or.inr ⟨current, parentOf_expand_new _ _ _ _ _ (List.mem_map_of_mem _ hp),
        fresh_candidate levels current st p hp⟩
  · intro k hk hne
    rcases (mem_expand_visited _ _ _ _ _).mp hk with hk | hk
    · obtain ⟨p, hp, hpk⟩ := List.mem_map.mp hk
      refine ⟨current, parentOf_expand_new _ _ _ _ _ hk,
        (mem_expand_visited _ _ _ _ _).mpr (Or.inr hcur_vis), ?_, ?_, ?_⟩
      · rw [hnew_dq]
        rintro (h | h)
        · exact hcur_notin h
        · exact fresh_not_visited levels current st _ h hcur_vis
      · rw [← hpk]
        exact (candidate_legal levels rows cols hw current p hcur_inb
          (fresh_candidate levels current st p hp)).1
      · rw [bumpDepth_new _ _ _ _ _ hk, bumpDepth_old _ _ _ _ _ hcur_vis]
    · obtain ⟨p, hp1, hp2, hp3, hp4, hp5⟩ := hinv.parent_ok k hk hne
      refine ⟨p, ?_, (mem_expand_visited _ _ _ _ _).mpr (Or.inr hp2), ?_, hp4, ?_⟩
      · rw [parentOf_expand_old _ _ _ _ _ (fun hf =>
          fresh_not_visited levels current st _ hf hk)]
        exact hp1
      · rw [hnew_dq]
        rintro (h | h)
        · apply hp3
          obtain ⟨x, hx, hxk⟩ := List.mem_map.mp h
          exact List.mem_map.mpr ⟨x, hrest x hx, hxk⟩
        · exact fresh_not_visited levels current st _ h hp2
      · rw [bumpDepth_old _ _ _ _ _ hk, bumpDepth_old _ _ _ _ _ hp2]
        exact hp5
  · intro k hk hnot
    rw [hnew_dq] at hnot
    simp only [not_or] at hnot
    rcases (mem_expand_visited _ _ _ _ _).mp hk with hk | hk
    · exact absurd hk hnot.2
    · by_cases hkc : k = current.key
      · subst hkc
        refine ⟨hH, ?_⟩
        intro k2 hk2
        rw [mem_expand_visited]
        rcases candidate_cover levels current st.visited k2 hk2 with h | ⟨p, hp, hpk⟩
        · exact Or.inr h
        · rcases freshOf_cover _ st.visited p hp with h | h
          · exact Or.inr (hpk ▸ h)
          · exact Or.inl (hpk ▸ h)
      · have hnotdq : k ∉ st.dq.map Position.key := by
          intro h
          rcases hdq_keys k h with h | h
          · exact hkc h
          · exact hnot.1 h
        obtain ⟨h1, h2⟩ := hinv.closed k hk hnotdq
        exact ⟨h1, fun k2 hk2 => (mem_expand_visited _ _ _ _ _).mpr (Or.inr (h2 k2 hk2))⟩

theorem qinv_init (levels : Grid) (start : Position) :
    QInv levels (fun _ => 0) (initState start) := by
  refine ⟨?_, ?_, ?_⟩
  · simp [initState]
  · intro a _ k _
    exact Nat.zero_le _
  · intro k _ _ k2 _
    exact Nat.zero_le _

theorem qinv_expand (levels : Grid) (rows cols : Nat)
    (start : Position) (depth : Key → Nat) (st : SearchState)
    (hinv : Inv levels rows cols start depth st) (hq : QInv levels depth st)
    (current : Position) (rest : List Position)
    (hdq : st.dq = current :: rest) :
    QInv levels (bumpDepth levels current st depth) (expandState levels current rest st) := by
  have hcur_mem : current ∈ st.dq := by rw [hdq]; exact List.mem_cons_self _ _
  have hcur_vis : current.key ∈ st.visited := hinv.dq_sub current hcur_mem
  have hrest : ∀ p ∈ rest, p ∈ st.dq := fun p hp => by
    rw [hdq]; exact List.mem_cons_of_mem _ hp
  have hsorted := hq.sorted
  rw [hdq, List.pairwise_cons] at hsorted
  obtain ⟨hhead, hrest_sorted⟩ := hsorted
  have hold : ∀ k ∈ st.visited, bumpDepth levels current st depth k = depth k :=
    fun k hk => bumpDepth_old _ _ _ _ k hk
  have hnew : ∀ p ∈ freshCells levels current st,
      bumpDepth levels current st depth p.key = depth current.key + 1 :=
    fun p hp => bumpDepth_new _ _ _ _ _ (List.mem_map_of_mem _ hp)
  have hnodup := hinv.dq_nodup
  rw [hdq, List.map_cons, List.nodup_cons] at hnodup
  refine ⟨?_, ?_, ?_⟩
  · unfold expandState
    simp only
    rw [List.pairwise_append]
    refine ⟨?_, ?_, ?_⟩
    · refine List.Pairwise.imp_of_mem ?_ hrest_sorted
      intro a b ha hb hab
      rw [hold _ (hinv.dq_sub a (hrest a ha)), hold _ (hinv.dq_sub b (hrest b hb))]
      exact hab
    · apply List.pairwise_of_forall_mem_list
      intro a ha b hb
      rw [hnew a ha, hnew b hb]
    · intro a ha b hb
      rw [hold _ (hinv.dq_sub a (hrest a ha)), hnew b hb]
      exact hq.bound current hcur_mem a.key (hinv.dq_sub a (hrest a ha))
  · intro a ha k hk
    simp only [expandState, List.mem_append] at ha
    rcases (mem_expand_visited _ _ _ _ _).mp hk with hk | hk
    · rw [bumpDepth_new _ _ _ _ _ hk]
      rcases ha with ha | ha
      · rw [hold _ (hinv.dq_sub a (hrest a ha))]
        have := hhead a ha
        omega
      · rw [hnew a ha]
        omega
    · rw [hold k hk]
      have hk1 := hq.bound current hcur_mem k hk
      rcases ha with ha | ha
      · rw [hold _ (hinv.dq_sub a (hrest a ha))]
        have := hhead a ha
        omega
      · rw [hnew a ha]
        omega
  · intro k hk hnot k2 hk2
    have hnot2 : k ∉ rest.map Position.key ∧
        k ∉ (freshCells levels current st).map Position.key := by
      simp only [expandState, List.map_append, List.mem_append, not_or] at hnot
      exact hnot
    rcases (mem_expand_visited _ _ _ _ _).mp hk with hk | hk
    · exact absurd hk hnot2.2
    · rw [hold k hk]
      by_cases hkc : k = current.key
      · subst hkc
        by_cases hf : k2 ∈ (freshCells levels current st).map Position.key
        · rw [bumpDepth_new _ _ _ _ _ hf]
        · have hk2v : k2 ∈ st.visited := by
            rcases candidate_cover levels current st.visited k2 hk2 with h | ⟨p, hp, hpk⟩
            · exact h
            · rcases freshOf_cover _ st.visited p hp with h | h
              · exact hpk ▸ h
              · exact absurd (hpk ▸ h) hf
          rw [hold k2 hk2v]
          exact hq.bound current hcur_mem k2 hk2v
      · have hnotdq : k ∉ st.dq.map Position.key := by
          rw [hdq, List.map_cons, List.mem_cons]
          rintro (h | h)
          · exact hkc h
          · exact hnot2.1 h
        have hk2v : k2 ∈ st.visited := (hinv.closed k hk hnotdq).2 k2 hk2
        rw [hold k2 hk2v]
        exact hq.closed_depth k hk hnotdq k2 hk2

/-! ## The search loop as a whole -/

theorem good_init (levels : Grid) (rows cols : Nat) (start : Position) (mode : Mode)
    (hb : InBounds levels rows cols start.key) :
    Good levels rows cols start mode (initState start) :=
  ⟨fun _ => 0, inv_init levels rows cols start hb, fun _ => qinv_init levels start⟩

theorem perm_of_pop (mode : Mode) (dq rest : List Position) (current : Position)
    (h : popFrontier mode dq = some (current, rest)) : dq.Perm (current :: rest) := by
  rcases popFrontier_spec mode dq rest current h with ⟨_, h⟩ | ⟨_, h⟩
  · rw [h]
  · rw [h]
    exact List.perm_append_singleton _ _

theorem loopBody_next (levels : Grid) (rows cols : Nat) (hw : WellFormed levels rows cols)
    (mode : Mode) (hm : mode = Mode.kStack ∨ mode = Mode.kQueue) (st st1 : SearchState)
    (hsub : ∀ p ∈ st.dq, InBounds levels rows cols p.key)
    (h : loopBody levels mode st = Exec.ok (LoopStep.next st1)) :
    ∃ current rest, popFrontier mode st.dq = some (current, rest) ∧
      ¬ CellIs levels current.key 'H' ∧ st1 = expandState levels current rest st := by
  rcases loopBody_cases levels rows cols hw mode hm st hsub with ⟨_, h1⟩ |
    ⟨current, rest, hpop, ⟨_, h1⟩ | ⟨hH, h1⟩⟩
  · rw [h1] at h
    simp at h
  · rw [h1] at h
    simp at h
  · rw [h1] at h
    simp only [Exec.ok.injEq, LoopStep.next.injEq] at h
    exact ⟨current, rest, hpop, hH, h.symm⟩

theorem inv_dq_inb (levels : Grid) (rows cols : Nat) (start : Position) (depth : Key → Nat)
    (st : SearchState) (hinv : Inv levels rows cols start depth st) :
    ∀ p ∈ st.dq, InBounds levels rows cols p.key :=
  fun p hp => hinv.visited_inb _ (hinv.dq_sub p hp)

theorem good_step (levels : Grid) (rows cols : Nat) (hw : WellFormed levels rows cols)
    (start : Position) (mode : Mode) (hm : mode = Mode.kStack ∨ mode = Mode.kQueue)
    (st st1 : SearchState) (hg : Good levels rows cols start mode st)
    (h : loopBody levels mode st = Exec.ok (LoopStep.next st1)) :
    Good levels rows cols start mode st1 := by
  obtain ⟨depth, hinv, hq⟩ := hg
  obtain ⟨current, rest, hpop, hH, rfl⟩ := loopBody_next levels rows cols hw mode hm st st1
    (inv_dq_inb levels rows cols start depth st hinv) h
  refine ⟨bumpDepth levels current st depth,
    inv_expand levels rows cols hw start depth st hinv current rest
      (perm_of_pop mode st.dq rest current hpop) hH, ?_⟩
  intro hmq
  rcases popFrontier_spec mode st.dq rest current hpop with ⟨_, hdq⟩ | ⟨hms, _⟩
  · exact qinv_expand levels rows cols start depth st hinv (hq hmq) current rest hdq
  · rw [hmq] at hms
    exact absurd hms (by decide)

theorem loopHead_good (levels : Grid) (rows cols : Nat) (hw : WellFormed levels rows cols)
    (start : Position) (mode : Mode) (hm : mode = Mode.kStack ∨ mode = Mode.kQueue)
    (hb : InBounds levels rows cols start.key) (st : SearchState)
    (h : LoopHead levels mode start st) : Good levels rows cols start mode st := by
  induction h with
  | init => exact good_init levels rows cols start mode hb
  | step st st1 _ hbody ih => exact good_step levels rows cols hw start mode hm st st1 ih hbody

theorem searchLoop_end (levels : Grid) (mode : Mode) (start : Position) :
    ∀ (fuel : Nat) (st : SearchState) (e : SearchEnd), LoopHead levels mode start st →
      searchLoop levels mode fuel st = Exec.ok e →
      ∃ st0, LoopHead levels mode start st0 ∧
        loopBody levels mode st0 = Exec.ok (LoopStep.ended e) := by
  intro fuel
  induction fuel with
  | zero =>
    intro st e hst h
    unfold searchLoop at h
    by_cases hdq : st.dq = []
    · simp only [hdq, if_true, Exec.ok.injEq] at h
      exact ⟨st, hst, by simp [loopBody, hdq, h]⟩
    · simp [hdq] at h
  | succ fuel ih =>
    intro st e hst h
    unfold searchLoop at h
    cases hbody : loopBody levels mode st with
    | ok r =>
      cases r with
      | ended e1 =>
        simp only [hbody, Exec.ok.injEq] at h
        exact ⟨st, hst, by rw [hbody, h]⟩
      | next st1 =>
        simp only [hbody] at h
        exact ih st1 e (LoopHead.step st st1 hst hbody) h
    | undefinedBehaviour => simp [hbody] at h
    | outOfFuel => simp [hbody] at h

theorem searchLoop_mono (levels : Grid) (mode : Mode) :
    ∀ (fuel : Nat) (st : SearchState) (e : SearchEnd) (extra : Nat),
      searchLoop levels mode fuel st = Exec.ok e →
      searchLoop levels mode (fuel + extra) st = Exec.ok e := by
  intro fuel
  induction fuel with
  | zero =>
    intro st e extra h
    unfold searchLoop at h
    by_cases hdq : st.dq = []
    · simp only [hdq, if_true] at h
      cases extra with
      | zero => simp [searchLoop, hdq, h]
      | succ n =>
        simp only [Nat.zero_add]
        unfold searchLoop
        simp only [loopBody, hdq, if_true]
        exact h
    · simp [hdq] at h
  | succ fuel ih =>
    intro st e extra h
    have : fuel + 1 + extra = (fuel + extra) + 1 := by omega
    rw [this]
    unfold searchLoop at h ⊢
    cases hbody : loopBody levels mode st with
    | ok r =>
      cases r with
      | ended e1 => simpa [hbody] using h
      | next st1 =>
        simp only [hbody] at h ⊢
        exact ih st1 e extra h
    | undefinedBehaviour => simp [hbody] at h
    | outOfFuel => simp [hbody] at h

theorem visited_length_le (levels : Grid) (rows cols : Nat) (visited : List Key)
    (hnd : visited.Nodup) (hinb : ∀ k ∈ visited, InBounds levels rows cols k) :
    visited.length ≤ levels.length * rows * cols := by
  have hsub : visited.toFinset ⊆
      Finset.range levels.length ×ˢ (Finset.range rows ×ˢ Finset.range cols) := by
    intro k hk
    obtain ⟨h1, h2, h3⟩ := hinb k (List.mem_toFinset.mp hk)
    simp only [Finset.mem_product, Finset.mem_range]
    exact ⟨h1, h2, h3⟩
  have hcard := Finset.card_le_card hsub
  rw [List.toFinset_card_of_nodup hnd] at hcard
  simpa [Finset.card_product, Nat.mul_assoc] using hcard

theorem expand_lengths (levels : Grid) (current : Position) (rest : List Position)
    (st : SearchState) (hperm : st.dq.Perm (current :: rest)) :
    (expandState levels current rest st).visited.length + st.dq.length =
      st.visited.length + (expandState levels current rest st).dq.length + 1 := by
  have := hperm.length_eq
  simp only [List.length_cons] at this
  simp only [expandState, List.length_append, List.length_reverse, List.length_map]
  omega

theorem searchLoop_terminates (levels : Grid) (rows cols : Nat)
    (hw : WellFormed levels rows cols) (start : Position) (mode : Mode)
    (hm : mode = Mode.kStack ∨ mode = Mode.kQueue) :
    ∀ (fuel : Nat) (st : SearchState), Good levels rows cols start mode st →
      levels.length * rows * cols + st.dq.length ≤ fuel + st.visited.length →
      ∃ e, searchLoop levels mode fuel st = Exec.ok e := by
  intro fuel
  induction fuel with
  | zero =>
    intro st hg hle
    obtain ⟨depth, hinv, _⟩ := id hg
    have hv := visited_length_le levels rows cols st.visited hinv.visited_nodup hinv.visited_inb
    have hdq : st.dq = [] := List.eq_nil_of_length_eq_zero (by omega)
    exact ⟨SearchEnd.exhausted st, by simp [searchLoop, hdq]⟩
  | succ fuel ih =>
    intro st hg hle
    obtain ⟨depth, hinv, _⟩ := id hg
    unfold searchLoop
    rcases loopBody_cases levels rows cols hw mode hm st
      (inv_dq_inb levels rows cols start depth st hinv) with ⟨_, h1⟩ |
      ⟨current, rest, hpop, ⟨_, h1⟩ | ⟨hH, h1⟩⟩
    · exact ⟨_, by rw [h1]⟩
    · exact ⟨_, by rw [h1]⟩
    · rw [h1]
      simp only
      apply ih _ (good_step levels rows cols hw start mode hm st _ hg h1)
      have := expand_lengths levels current rest st (perm_of_pop mode st.dq rest current hpop)
      omega

/-! ## The backward walk over the parent map -/

theorem walkBack_of_backWalk (parentMap : List (Key × Position)) (start : Position)
    (current : Position) (chain : List Position)
    (h : BackWalk parentMap start current chain) :
    ∀ (fuel : Nat) (acc : List Position), chain.length ≤ fuel →
      walkBack parentMap start fuel current acc = Exec.ok (acc ++ chain) := by
  induction h with
  | stop current hk =>
    intro fuel acc _
    cases fuel with
    | zero => simp [walkBack, hk]
    | succ n => simp [walkBack, hk]
  | step current parent rest hne hp _ ih =>
    intro fuel acc hlen
    cases fuel with
    | zero => simp at hlen
    | succ n =>
      simp only [List.length_cons, Nat.add_le_add_iff_right] at hlen
      simp only [walkBack, hne, if_false, hp]
      rw [ih n (acc ++ [current]) hlen]
      simp

theorem backWalk_of_walkBack (parentMap : List (Key × Position)) (start : Position) :
    ∀ (fuel : Nat) (current : Position) (acc r : List Position),
      walkBack parentMap start fuel current acc = Exec.ok r →
      ∃ chain, BackWalk parentMap start current chain ∧ r = acc ++ chain := by
  intro fuel
  induction fuel with
  | zero =>
    intro current acc r h
    unfold walkBack at h
    by_cases hk : current.key = start.key
    · simp only [hk, if_true, Exec.ok.injEq] at h
      exact ⟨[], BackWalk.stop current hk, by simp [h]⟩
    · simp [hk] at h
  | succ n ih =>
    intro current acc r h
    unfold walkBack at h
    by_cases hk : current.key = start.key
    · simp only [hk, if_true, Exec.ok.injEq] at h
      exact ⟨[], BackWalk.stop current hk, by simp [h]⟩
    · simp only [hk, if_false] at h
      cases hp : parentOf parentMap current.key with
      | none => simp [hp] at h
      | some parent =>
        simp only [hp] at h
        obtain ⟨chain, hbw, hr⟩ := ih parent (acc ++ [current]) r h
        exact ⟨current :: chain, BackWalk.step current parent chain hk hp hbw, by simp [hr]⟩

theorem reconstructPath_ok (parentMap : List (Key × Position)) (start current : Position)
    (fuel : Nat) (path : List Position)
    (h : reconstructPath parentMap start current fuel = Exec.ok path) :
    ∃ chain, BackWalk parentMap start current chain ∧ path = (chain ++ [start]).reverse := by
  unfold reconstructPath at h
  cases hw : walkBack parentMap start fuel current [] with
  | ok r =>
    simp only [hw, Exec.ok.injEq] at h
    obtain ⟨chain, hbw, hr⟩ := backWalk_of_walkBack parentMap start fuel current [] r hw
    refine ⟨chain, hbw, ?_⟩
    rw [← h, hr]
    simp
  | undefinedBehaviour => simp [hw] at h
  | outOfFuel => simp [hw] at h

theorem reconstructPath_of_backWalk (parentMap : List (Key × Position))
    (start current : Position) (chain : List Position) (fuel : Nat)
    (h : BackWalk parentMap start current chain) (hlen : chain.length ≤ fuel) :
    reconstructPath parentMap start current fuel = Exec.ok (chain ++ [start]).reverse := by
  unfold reconstructPath
  rw [walkBack_of_backWalk parentMap start current chain h fuel [] hlen]
  simp

theorem backWalk_exists (levels : Grid) (rows cols : Nat) (start : Position)
    (depth : Key → Nat) (st : SearchState) (hinv : Inv levels rows cols start depth st) :
    ∀ (n : Nat) (current : Position), current.key ∈ st.visited → depth current.key = n →
      ∃ chain, BackWalk st.parentMap start current chain := by
  intro n
  induction n with
  | zero =>
    intro current hv hd
    by_cases hk : current.key = start.key
    · exact ⟨[], BackWalk.stop current hk⟩
    · obtain ⟨p, _, _, _, _, h5⟩ := hinv.parent_ok _ hv hk
      omega
  | succ n ih =>
    intro current hv hd
    by_cases hk : current.key = start.key
    · exact ⟨[], BackWalk.stop current hk⟩
    · obtain ⟨p, h1, h2, _, _, h5⟩ := hinv.parent_ok _ hv hk
      obtain ⟨chain, hc⟩ := ih p h2 (by omega)
      exact ⟨current :: chain, BackWalk.step current p chain hk h1 hc⟩

theorem backWalk_props (levels : Grid) (rows cols : Nat) (start : Position)
    (depth : Key → Nat) (st : SearchState) (hinv : Inv levels rows cols start depth st)
    (current : Position) (chain : List Position)
    (h : BackWalk st.parentMap start current chain) :
    current.key ∈ st.visited →
    ∃ hd tl, chain ++ [start] = hd :: tl ∧ hd.key = current.key ∧
      List.Chain' (fun x y => LegalMove levels y.key x.key) (chain ++ [start]) ∧
      (∀ x ∈ chain ++ [start], x.key ∈ st.visited ∧ depth x.key ≤ depth current.key) ∧
      (chain ++ [start]).Pairwise (fun x y => depth y.key < depth x.key) ∧
      chain.length = depth current.key ∧
      (∀ x ∈ tl, ¬ CellIs levels x.key 'H') := by
  induction h with
  | stop current hk =>
    intro _
    refine ⟨start, [], rfl, hk.symm, by simp, ?_, by simp, ?_, by simp⟩
    · intro x hx
      simp only [List.nil_append, List.mem_singleton] at hx
      subst hx
      exact ⟨hinv.start_mem, by rw [hk]⟩
    · rw [hk, hinv.start_depth]
      rfl
  | step current parent rest hne hp _ ih =>
    intro hv
    obtain ⟨p, h1, h2, h3, h4, h5⟩ := hinv.parent_ok _ hv hne
    rw [hp] at h1
    obtain rfl := Option.some.inj h1
    obtain ⟨hd, tl, hL, hhd, hchain, hmem, hpw, hlen, hH⟩ := ih h2
    refine ⟨current, rest ++ [start], rfl, rfl, ?_, ?_, ?_, ?_, ?_⟩
    · rw [List.cons_append, List.chain'_cons']
      refine ⟨?_, hchain⟩
      intro y hy
      rw [hL] at hy
      simp only [List.head?_cons, Option.mem_def, Option.some.injEq] at hy
      subst hy
      rw [hhd]
      exact h4
    · intro x hx
      rw [List.cons_append, List.mem_cons] at hx
      rcases hx with rfl | hx
      · exact ⟨hv, Nat.le_refl _⟩
      · obtain ⟨hx1, hx2⟩ := hmem x hx
        exact ⟨hx1, by omega⟩
    · rw [List.cons_append, List.pairwise_cons]
      refine ⟨?_, hpw⟩
      intro y hy
      have := (hmem y hy).2
      omega
    · simp only [List.length_cons]
      omega
    · intro x hx
      rw [hL] at hx
      rcases List.mem_cons.mp hx with rfl | hx
      · rw [hhd]
        exact (hinv.closed _ h2 h3).1
      · exact hH x hx

/-! ## The labelling pass -/

theorem set_self_of_getElem? {α : Type} (l : List α) (i : Nat) (a : α) (h : l[i]? = some a) :
    l.set i a = l := by
  induction l generalizing i with
  | nil => rfl
  | cons x xs ih =>
    cases i with
    | zero =>
      simp only [List.getElem?_cons_zero, Option.some.injEq] at h
      simp [h]
    | succ n =>
      simp only [List.getElem?_cons_succ] at h
      simp [List.set, ih n h]

theorem key_with_direction (p : Position) (c : Char) :
    ({ p with direction := c } : Position).key = p.key := rfl

theorem labelStep_length (path : List Position) (i : Nat) :
    (labelStep path i).length = path.length := by
  unfold labelStep
  split <;> simp

theorem labelStep_keys (path : List Position) (i : Nat) :
    (labelStep path i).map Position.key = path.map Position.key := by
  unfold labelStep
  split
  · rename_i current next h1 h2
    rw [List.map_set, key_with_direction]
    apply set_self_of_getElem?
    simp [h1]
  · rfl

theorem labelStep_getElem? (path : List Position) (i j : Nat) :
    (labelStep path i)[j]? =
      if i = j then labelAt path i else path[j]? := by
  unfold labelStep labelAt
  cases h1 : path[i]? with
  | none =>
    simp only
    by_cases hij : i = j
    · simp [hij] at h1 ⊢
      exact h1
    · simp [hij]
  | some current =>
    cases h2 : path[i + 1]? with
    | none =>
      simp only
      by_cases hij : i = j
      · subst hij
        simp [h1]
      · simp [hij]
    | some next =>
      simp only
      have hlt : i < path.length := (List.getElem?_eq_some.mp h1).1
      by_cases hij : i = j
      · subst hij
        simp [List.getElem?_set_self hlt]
      · simp [hij, List.getElem?_set_ne hij]

theorem foldl_labelStep_keys (path : List Position) (n : Nat) :
    ((List.range n).foldl labelStep path).map Position.key = path.map Position.key := by
  induction n with
  | zero => rfl
  | succ n ih =>
    rw [List.range_succ, List.foldl_append]
    simp only [List.foldl_cons, List.foldl_nil]
    rw [labelStep_keys, ih]

theorem labelAt_congr (p q : List Position) (i : Nat) (h1 : p[i]? = q[i]?)
    (h2 : p[i + 1]? = q[i + 1]?) : labelAt p i = labelAt q i := by
  unfold labelAt
  rw [h1, h2]

theorem foldl_labelStep_getElem? (path : List Position) (n : Nat) : ∀ (j : Nat),
    ((List.range n).foldl labelStep path)[j]? =
      if j < n then labelAt path j else path[j]? := by
  induction n with
  | zero => intro j; simp
  | succ n ih =>
    intro j
    rw [List.range_succ, List.foldl_append]
    simp only [List.foldl_cons, List.foldl_nil]
    rw [labelStep_getElem?]
    by_cases hnj : n = j
    · subst hnj
      simp only [if_true, Nat.lt_succ_self]
      apply labelAt_congr
      · rw [ih]; simp
      · rw [ih]; simp
    · rw [if_neg hnj, ih]
      by_cases hlt : j < n
      · simp [hlt, Nat.lt_succ_of_lt hlt]
      · have : ¬ j < n + 1 := by omega
        simp [hlt, this]

theorem labelLoop_getElem? (path : List Position) (j : Nat) :
    (labelLoop path)[j]? = labelAt path j := by
  unfold labelLoop
  rw [foldl_labelStep_getElem?]
  by_cases hlt : j < path.length - 1
  · simp [hlt]
  · rw [if_neg hlt]
    unfold labelAt
    have h2 : path[j + 1]? = none := List.getElem?_eq_none (by omega)
    rw [h2]
    cases path[j]? <;> rfl

theorem labelLoop_keys (path : List Position) :
    (labelLoop path).map Position.key = path.map Position.key :=
  foldl_labelStep_keys path _

theorem labelLoop_length (path : List Position) : (labelLoop path).length = path.length := by
  have := congrArg List.length (labelLoop_keys path)
  simpa using this

theorem borrowStartLabel_keys (path : List Position) :
    (borrowStartLabel path).map Position.key = path.map Position.key := by
  unfold borrowStartLabel
  split
  · split
    · rename_i first second h1 h2
      rw [List.map_set, key_with_direction]
      apply set_self_of_getElem?
      simp [h1]
    · rfl
  · rfl

theorem borrowStartLabel_getElem?_pos (path : List Position) (j : Nat) (hj : 0 < j) :
    (borrowStartLabel path)[j]? = path[j]? := by
  unfold borrowStartLabel
  split
  · split
    · rw [List.getElem?_set_ne (by omega)]
    · rfl
  · rfl

theorem labelPath_keys (path : List Position) :
    (labelPath path).map Position.key = path.map Position.key := by
  unfold labelPath
  rw [borrowStartLabel_keys, labelLoop_keys]

theorem labelPath_length (path : List Position) : (labelPath path).length = path.length := by
  have := congrArg List.length (labelPath_keys path)
  simpa using this

theorem labelPath_getElem?_pos (path : List Position) (j : Nat) (hj : 0 < j) :
    (labelPath path)[j]? = labelAt path j := by
  unfold labelPath
  rw [borrowStartLabel_getElem?_pos _ _ hj, labelLoop_getElem?]

theorem labelPath_getElem?_zero (path : List Position) (first second : Position)
    (h0 : path[0]? = some first) (h1 : (labelPath path)[1]? = some second) :
    (labelPath path)[0]? = some { first with direction := second.direction } := by
  rw [labelPath_getElem?_pos path 1 (by omega)] at h1
  have hl1 : (labelLoop path)[1]? = some second := by rw [labelLoop_getElem?]; exact h1
  have hlen : 1 < (labelLoop path).length := (List.getElem?_eq_some.mp hl1).1
  have hl0 : (labelLoop path)[0]? = labelAt path 0 := labelLoop_getElem? path 0
  obtain ⟨next, hnext⟩ : ∃ next, path[0 + 1]? = some next := by
    rw [labelLoop_length] at hlen
    exact ⟨path[1], by simp [List.getElem?_eq_getElem hlen]⟩
  have hl0b : (labelLoop path)[0]? =
      some { first with direction := labelRule first next } := by
    rw [hl0]; unfold labelAt; rw [h0, hnext]
  unfold labelPath borrowStartLabel
  have hne : labelLoop path ≠ [] := by
    intro h; rw [h] at hlen; simp at hlen
  simp only [hne, ne_eq, not_false_eq_true, hlen, gt_iff_lt, and_self, if_true, hl0b, hl1]
  rw [List.getElem?_set_self (by omega)]

/-! ## A search that finds a path -/

theorem loopBody_found (levels : Grid) (rows cols : Nat) (hw : WellFormed levels rows cols)
    (mode : Mode) (hm : mode = Mode.kStack ∨ mode = Mode.kQueue) (st0 st : SearchState)
    (current : Position) (hsub : ∀ p ∈ st0.dq, InBounds levels rows cols p.key)
    (h : loopBody levels mode st0 = Exec.ok (LoopStep.ended (SearchEnd.found current st))) :
    popFrontier mode st0.dq = some (current, st.dq) ∧ st.parentMap = st0.parentMap ∧
      st.visited = st0.visited ∧ CellIs levels current.key 'H' := by
  rcases loopBody_cases levels rows cols hw mode hm st0 hsub with ⟨_, h1⟩ |
    ⟨c, rest, hpop, ⟨hH, h1⟩ | ⟨_, h1⟩⟩
  · rw [h1] at h
    simp at h
  · rw [h1] at h
    simp only [Exec.ok.injEq, LoopStep.ended.injEq, SearchEnd.found.injEq] at h
    obtain ⟨rfl, rfl⟩ := h
    exact ⟨hpop, rfl, rfl, hH⟩
  · rw [h1] at h
    simp at h

theorem loopBody_exhausted (levels : Grid) (mode : Mode) (st0 st : SearchState)
    (h : loopBody levels mode st0 = Exec.ok (LoopStep.ended (SearchEnd.exhausted st))) :
    st = st0 ∧ st0.dq = [] := by
  unfold loopBody at h
  by_cases hdq : st0.dq = []
  · simp only [hdq, if_true, Exec.ok.injEq, LoopStep.ended.injEq,
      SearchEnd.exhausted.injEq] at h
    exact ⟨h.symm, hdq⟩
  · simp only [hdq, if_false] at h
    split at h
    · simp at h
    · split at h
      · simp at h
      · split at h
        · simp at h
        · split at h <;> simp at h

theorem runSearch_found (levels : Grid) (rows cols : Nat) (hw : WellFormed levels rows cols)
    (start : Position) (mode : Mode) (hm : mode = Mode.kStack ∨ mode = Mode.kQueue)
    (hb : InBounds levels rows cols start.key) (fuel : Nat) (path : List Position)
    (st : SearchState)
    (h : runSearch levels start mode fuel = Exec.ok (Outcome.found path st)) :
    ∃ depth st0 current chain,
      FoundRun levels rows cols start mode path st depth st0 current chain := by
  unfold runSearch at h
  cases hs : searchLoop levels mode fuel (initState start) with
  | ok e =>
    cases e with
    | found current st1 =>
      simp only [hs] at h
      cases hr : reconstructPath st1.parentMap start current fuel with
      | ok raw =>
        simp only [hr, Exec.ok.injEq, Outcome.found.injEq] at h
        obtain ⟨hpath, rfl⟩ := h
        obtain ⟨st0, hhead, hbody⟩ := searchLoop_end levels mode start fuel _ _
          LoopHead.init hs
        obtain ⟨depth, hinv, hq⟩ := loopHead_good levels rows cols hw start mode hm hb st0 hhead
        obtain ⟨hpop, hpm, hvis, hH⟩ := loopBody_found levels rows cols hw mode hm st0 st1
          current (inv_dq_inb levels rows cols start depth st0 hinv) hbody
        obtain ⟨chain, hbw, hraw⟩ := reconstructPath_ok _ _ _ _ _ hr
        rw [hpm] at hbw
        exact ⟨depth, st0, current, chain, hhead, hinv, hq, hpop, hpm, hvis, hH, hbw,
          by rw [← hpath, hraw]⟩
      | undefinedBehaviour => simp [hr] at h
      | outOfFuel => simp [hr] at h
    | exhausted st1 => simp [hs] at h
  | undefinedBehaviour => simp [hs] at h
  | outOfFuel => simp [hs] at h

theorem foundRun_current_visited (levels : Grid) (rows cols : Nat) (start : Position)
    (mode : Mode) (path : List Position) (st : SearchState) (depth : Key → Nat)
    (st0 : SearchState) (current : Position) (chain : List Position)
    (hr : FoundRun levels rows cols start mode path st depth st0 current chain) :
    current ∈ st0.dq ∧ current.key ∈ st0.visited := by
  have hmem : current ∈ st0.dq :=
    (perm_of_pop mode st0.dq st.dq current hr.pop).symm.subset (List.mem_cons_self _ _)
  exact ⟨hmem, hr.inv.dq_sub current hmem⟩

theorem foundRun_keys (levels : Grid) (rows cols : Nat) (start : Position)
    (mode : Mode) (path : List Position) (st : SearchState) (depth : Key → Nat)
    (st0 : SearchState) (current : Position) (chain : List Position)
    (hr : FoundRun levels rows cols start mode path st depth st0 current chain) :
    (path.map Position.key).head? = some start.key ∧
    (path.map Position.key).getLast? = some current.key ∧
    IsWalk levels (path.map Position.key) ∧
    (path.map Position.key).Nodup ∧
    path.length = depth current.key + 1 ∧
    (∀ k ∈ (path.map Position.key).dropLast, ¬ CellIs levels k 'H') ∧
    (∀ k ∈ path.map Position.key, k ∈ st.visited) := by
  obtain ⟨hd, tl, hL, hhd, hchain, hmem, hpw, hlen, hH⟩ :=
    backWalk_props levels rows cols start depth st0 hr.inv current chain hr.walk
      (foundRun_current_visited levels rows cols start mode path st depth st0 current chain hr).2
  have hkeys : path.map Position.key = ((chain ++ [start]).map Position.key).reverse := by
    rw [hr.path_eq, labelPath_keys, List.map_reverse]
  refine ⟨?_, ?_, ?_, ?_, ?_, ?_, ?_⟩
  · rw [hkeys, List.head?_reverse, List.map_append, List.map_singleton, List.getLast?_concat]
  · rw [hkeys, List.getLast?_reverse, hL, List.map_cons, List.head?_cons, hhd]
  · unfold IsWalk
    rw [hkeys, List.chain'_reverse, List.chain'_map]
    exact hchain
  · rw [hkeys, List.nodup_reverse]
    unfold List.Nodup
    rw [List.pairwise_map]
    refine hpw.imp ?_
    intro a b hab heq
    rw [heq] at hab
    exact Nat.lt_irrefl _ hab
  · have := congrArg List.length hkeys
    simp only [List.length_map, List.length_reverse, List.length_append,
      List.length_singleton] at this
    omega
  · intro k hk
    rw [hkeys, List.dropLast_reverse, hL, List.map_cons, List.tail_cons,
      List.mem_reverse] at hk
    obtain ⟨x, hx, rfl⟩ := List.mem_map.mp hk
    exact hH x hx
  · intro k hk
    rw [hkeys, List.mem_reverse] at hk
    obtain ⟨x, hx, rfl⟩ := List.mem_map.mp hk
    rw [hr.vis_eq]
    exact (hmem x hx).1

/-! ## Reachability -/

theorem visited_reachable (levels : Grid) (rows cols : Nat) (start : Position)
    (depth : Key → Nat) (st : SearchState) (hinv : Inv levels rows cols start depth st) :
    ∀ (n : Nat) (k : Key), k ∈ st.visited → depth k = n → Reachable levels start.key k := by
  intro n
  induction n with
  | zero =>
    intro k hk hd
    by_cases hks : k = start.key
    · rw [hks]; exact Relation.ReflTransGen.refl
    · obtain ⟨p, _, _, _, _, h5⟩ := hinv.parent_ok k hk hks
      omega
  | succ n ih =>
    intro k hk hd
    by_cases hks : k = start.key
    · rw [hks]; exact Relation.ReflTransGen.refl
    · obtain ⟨p, _, h2, _, h4, h5⟩ := hinv.parent_ok k hk hks
      exact Relation.ReflTransGen.tail (ih p.key h2 (by omega)) h4

theorem reachable_visited (levels : Grid) (rows cols : Nat) (start : Position)
    (depth : Key → Nat) (st : SearchState) (hinv : Inv levels rows cols start depth st)
    (hdq : st.dq = []) (k : Key) (h : Reachable levels start.key k) : k ∈ st.visited := by
  induction h with
  | refl => exact hinv.start_mem
  | tail _ hab ih =>
    exact (hinv.closed _ ih (by rw [hdq]; simp)).2 _ hab

theorem exhausted_no_hazard (levels : Grid) (rows cols : Nat) (start : Position)
    (depth : Key → Nat) (st : SearchState) (hinv : Inv levels rows cols start depth st)
    (hdq : st.dq = []) : ¬ HazardReachable levels start.key := by
  rintro ⟨h, hreach, hH⟩
  have hv := reachable_visited levels rows cols start depth st hinv hdq h hreach
  exact (hinv.closed h hv (by rw [hdq]; simp)).1 hH

theorem walk_depth (levels : Grid) (rows cols : Nat) (start : Position)
    (depth : Key → Nat) (st : SearchState) (hinv : Inv levels rows cols start depth st)
    (hq : QInv levels depth st) (current : Position) (rest : List Position)
    (hdq : st.dq = current :: rest) :
    ∀ (l : List Key) (a : Key) (n : Nat), List.Chain (LegalMove levels) a l →
      ((a ∈ st.visited ∧ depth a ≤ n) ∨ depth current.key ≤ n) →
      ∀ z, (a :: l).getLast? = some z →
        ((z ∈ st.visited ∧ depth z ≤ n + l.length) ∨ depth current.key ≤ n + l.length) := by
  intro l
  induction l with
  | nil =>
    intro a n _ h z hz
    simp only [List.getLast?_singleton, Option.some.injEq] at hz
    subst hz
    simpa using h
  | cons b l ih =>
    intro a n hc h z hz
    rw [List.chain_cons] at hc
    obtain ⟨hab, hc2⟩ := hc
    have hz2 : (b :: l).getLast? = some z := by
      rw [List.getLast?_cons_cons] at hz
      exact hz
    have hstep : (b ∈ st.visited ∧ depth b ≤ n + 1) ∨ depth current.key ≤ n + 1 := by
      rcases h with ⟨hav, had⟩ | h
      · by_cases hlt : depth current.key ≤ n
        · exact Or.inr (by omega)
        · left
          have hnotdq : a ∉ st.dq.map Position.key := by
            intro hmem
            obtain ⟨x, hx, hxa⟩ := List.mem_map.mp hmem
            have hsorted := hq.sorted
            rw [hdq, List.pairwise_cons] at hsorted
            rw [hdq] at hx
            rcases List.mem_cons.mp hx with rfl | hx
            · rw [hxa] at hlt
              omega
            · have := hsorted.1 x hx
              rw [hxa] at this
              omega
          exact ⟨(hinv.closed a hav hnotdq).2 b hab,
            by have := hq.closed_depth a hav hnotdq b hab; omega⟩
      · exact Or.inr (by omega)
    have := ih b (n + 1) hc2 hstep z hz2
    simp only [List.length_cons]
    rcases this with ⟨h1, h2⟩ | h2
    · exact Or.inl ⟨h1, by omega⟩
    · exact Or.inr (by omega)

theorem bfs_minimal (levels : Grid) (rows cols : Nat) (start : Position)
    (depth : Key → Nat) (st : SearchState) (hinv : Inv levels rows cols start depth st)
    (hq : QInv levels depth st) (current : Position) (rest : List Position)
    (hdq : st.dq = current :: rest) (w : List Key) (hw : IsWalk levels w)
    (hhead : w.head? = some start.key) (hlast : w.getLast? = some current.key) :
    depth current.key + 1 ≤ w.length := by
  cases w with
  | nil => simp at hhead
  | cons a l =>
    simp only [List.head?_cons, Option.some.injEq] at hhead
    subst hhead
    have := walk_depth levels rows cols start depth st hinv hq current rest hdq l start.key 0
      hw (Or.inl ⟨hinv.start_mem, by rw [hinv.start_depth]⟩) current.key hlast
    simp only [List.length_cons]
    rcases this with ⟨_, h⟩ | h <;> omega

/-! ## The outcome of `runSearch` -/

theorem foundRun_length_le (levels : Grid) (rows cols : Nat) (start : Position)
    (mode : Mode) (path : List Position) (st : SearchState) (depth : Key → Nat)
    (st0 : SearchState) (current : Position) (chain : List Position)
    (hr : FoundRun levels rows cols start mode path st depth st0 current chain) :
    path.length ≤ st.visited.length ∧ path.length = chain.length + 1 := by
  obtain ⟨_, _, _, hnd, _, _, hsub⟩ :=
    foundRun_keys levels rows cols start mode path st depth st0 current chain hr
  constructor
  · have := (List.Nodup.subperm hnd (fun k hk => hsub k hk)).length_le
    simpa using this
  · rw [hr.path_eq, labelPath_length]
    simp

theorem runSearch_exhausted (levels : Grid) (rows cols : Nat)
    (hw : WellFormed levels rows cols)
    (start : Position) (mode : Mode) (hm : mode = Mode.kStack ∨ mode = Mode.kQueue)
    (hb : InBounds levels rows cols start.key) (fuel : Nat) (st : SearchState)
    (h : runSearch levels start mode fuel = Exec.ok (Outcome.exhausted st)) :
    LoopHead levels mode start st ∧ st.dq = [] ∧
      ∃ depth, Inv levels rows cols start depth st := by
  unfold runSearch at h
  cases hs : searchLoop levels mode fuel (initState start) with
  | ok e =>
    cases e with
    | found current st1 =>
      simp only [hs] at h
      cases hr : reconstructPath st1.parentMap start current fuel <;> simp [hr] at h
    | exhausted st1 =>
      simp only [hs, Exec.ok.injEq, Outcome.exhausted.injEq] at h
      subst h
      obtain ⟨st0, hhead, hbody⟩ := searchLoop_end levels mode start fuel _ _
        LoopHead.init hs
      obtain ⟨rfl, hdq⟩ := loopBody_exhausted levels mode st0 st1 hbody
      obtain ⟨depth, hinv, _⟩ := loopHead_good levels rows cols hw start mode hm hb st1 hhead
      exact ⟨hhead, hdq, depth, hinv⟩
  | undefinedBehaviour => simp [hs] at h
  | outOfFuel => simp [hs] at h

theorem runSearch_ok (levels : Grid) (rows cols : Nat) (hw : WellFormed levels rows cols)
    (start : Position) (mode : Mode) (hm : mode = Mode.kStack ∨ mode = Mode.kQueue)
    (hb : InBounds levels rows cols start.key) (fuel : Nat)
    (hfuel : levels.length * rows * cols ≤ fuel) :
    ∃ o, runSearch levels start mode fuel = Exec.ok o := by
  obtain ⟨e, he⟩ := searchLoop_terminates levels rows cols hw start mode hm fuel
    (initState start) (good_init levels rows cols start mode hb)
    (by simp only [initState, List.length_singleton]; omega)
  cases e with
  | exhausted st1 => exact ⟨Outcome.exhausted st1, by simp [runSearch, he]⟩
  | found current st1 =>
    obtain ⟨st0, hhead, hbody⟩ := searchLoop_end levels mode start fuel _ _ LoopHead.init he
    obtain ⟨depth, hinv, hq⟩ := loopHead_good levels rows cols hw start mode hm hb st0 hhead
    obtain ⟨hpop, hpm, hvis, hH⟩ := loopBody_found levels rows cols hw mode hm st0 st1
      current (inv_dq_inb levels rows cols start depth st0 hinv) hbody
    have hcv : current.key ∈ st0.visited := hinv.dq_sub current
      ((perm_of_pop mode st0.dq st1.dq current hpop).symm.subset (List.mem_cons_self _ _))
    obtain ⟨chain, hbw⟩ := backWalk_exists levels rows cols start depth st0 hinv _ current
      hcv rfl
    have hrun : FoundRun levels rows cols start mode (labelPath (chain ++ [start]).reverse)
        st1 depth st0 current chain :=
      ⟨hhead, hinv, hq, hpop, hpm, hvis, hH, hbw, rfl⟩
    obtain ⟨h1, h2⟩ := foundRun_length_le levels rows cols start mode _ st1 depth st0 current
      chain hrun
    have hv := visited_length_le levels rows cols st0.visited hinv.visited_nodup
      hinv.visited_inb
    rw [hvis] at h1
    have hlen : chain.length ≤ fuel := by omega
    refine ⟨Outcome.found (labelPath (chain ++ [start]).reverse) st1, ?_⟩
    simp only [runSearch, he]
    rw [hpm, reconstructPath_of_backWalk st0.parentMap start current chain fuel hbw hlen]

/-! ## Claims on the search: optimality, completeness, validity, termination -/

theorem found_hazard_reachable (levels : Grid) (rows cols : Nat) (start : Position)
    (mode : Mode) (path : List Position) (st : SearchState) (depth : Key → Nat)
    (st0 : SearchState) (current : Position) (chain : List Position)
    (hr : FoundRun levels rows cols start mode path st depth st0 current chain) :
    HazardReachable levels start.key :=
  ⟨current.key,
    visited_reachable levels rows cols start depth st0 hr.inv _ current.key
      (foundRun_current_visited levels rows cols start mode path st depth st0 current chain
        hr).2 rfl,
    hr.hazard⟩

theorem corner_run (mode : Mode) (hm : mode = Mode.kStack ∨ mode = Mode.kQueue) :
    runSearch mazeCorner origin mode 4 = Exec.ok (Outcome.found cornerPath cornerState) := by
  rcases hm with rfl | rfl <;> decide

theorem corner_reachable : HazardReachable mazeCorner origin.key :=
  ⟨(0, 1, 1),
    Relation.ReflTransGen.tail
      (Relation.ReflTransGen.tail Relation.ReflTransGen.refl
        (show LegalMove mazeCorner (0, 0, 0) (0, 0, 1) by decide))
      (show LegalMove mazeCorner (0, 0, 1) (0, 1, 1) by decide),
    by decide⟩

/-- C1: on a well-formed grid with an in-bounds start from which a Hazard is reachable, queue
mode returns a path that is a legal walk from the start to a Hazard cell, and no legal walk
from the start to that Hazard cell has fewer moves than the path has edges. -/
theorem queue_path_is_shortest (levels : Grid) (rows cols : Nat)
    (hw : WellFormed levels rows cols) (start : Position)
    (hb : InBounds levels rows cols start.key)
    (hreach : HazardReachable levels start.key) (fuel : Nat)
    (hfuel : levels.length * rows * cols ≤ fuel) :
    ∃ path st goal, runSearch levels start Mode.kQueue fuel = Exec.ok (Outcome.found path st) ∧
      (path.map Position.key).head? = some start.key ∧
      (path.map Position.key).getLast? = some goal ∧ CellIs levels goal 'H' ∧
      IsWalk levels (path.map Position.key) ∧
      ∀ w, IsWalk levels w → w.head? = some start.key → w.getLast? = some goal →
        path.length - 1 ≤ w.length - 1 := by
  obtain ⟨o, ho⟩ := runSearch_ok levels rows cols hw start Mode.kQueue (Or.inr rfl) hb fuel hfuel
  cases o with
  | exhausted st =>
    obtain ⟨_, hdq, depth, hinv⟩ := runSearch_exhausted levels rows cols hw start Mode.kQueue
      (Or.inr rfl) hb fuel st ho
    exact absurd hreach (exhausted_no_hazard levels rows cols start depth st hinv hdq)
  | found path st =>
    obtain ⟨depth, st0, current, chain, hr⟩ := runSearch_found levels rows cols hw start
      Mode.kQueue (Or.inr rfl) hb fuel path st ho
    obtain ⟨h1, h2, h3, _, h5, _, _⟩ :=
      foundRun_keys levels rows cols start Mode.kQueue path st depth st0 current chain hr
    refine ⟨path, st, current.key, ho, h1, h2, hr.hazard, h3, ?_⟩
    intro w hw1 hw2 hw3
    rcases popFrontier_spec Mode.kQueue st0.dq st.dq current hr.pop with ⟨_, hdq⟩ | ⟨hms, _⟩
    · have := bfs_minimal levels rows cols start depth st0 hr.inv (hr.qinv rfl) current st.dq
        hdq w hw1 hw2 hw3
      omega
    · exact absurd hms (by decide)

theorem queue_path_is_shortest_witness :
    ∃ path st goal, runSearch mazeCorner origin Mode.kQueue 4 = Exec.ok (Outcome.found path st) ∧
      (path.map Position.key).head? = some origin.key ∧
      (path.map Position.key).getLast? = some goal ∧ CellIs mazeCorner goal 'H' ∧
      IsWalk mazeCorner (path.map Position.key) ∧
      ∀ w, IsWalk mazeCorner w → w.head? = some origin.key → w.getLast? = some goal →
        path.length - 1 ≤ w.length - 1 :=
  queue_path_is_shortest mazeCorner 2 2 (by decide) origin (by decide) corner_reachable 4
    (by decide)

/-- C2: on a well-formed grid with an in-bounds start, in stack and in queue mode, the
search ends exhausted, with an empty frontier, exactly when no Hazard is reachable from the
start, and ends with a path exactly when one is. -/
theorem exhausted_iff_unreachable (levels : Grid) (rows cols : Nat)
    (hw : WellFormed levels rows cols) (start : Position) (mode : Mode)
    (hm : mode = Mode.kStack ∨ mode = Mode.kQueue)
    (hb : InBounds levels rows cols start.key) (fuel : Nat)
    (hfuel : levels.length * rows * cols ≤ fuel) :
    ((∃ st, runSearch levels start mode fuel = Exec.ok (Outcome.exhausted st) ∧ st.dq = []) ↔
        ¬ HazardReachable levels start.key) ∧
    ((∃ path st, runSearch levels start mode fuel = Exec.ok (Outcome.found path st)) ↔
        HazardReachable levels start.key) := by
  obtain ⟨o, ho⟩ := runSearch_ok levels rows cols hw start mode hm hb fuel hfuel
  cases o with
  | exhausted st =>
    obtain ⟨_, hdq, depth, hinv⟩ := runSearch_exhausted levels rows cols hw start mode hm hb
      fuel st ho
    have hno := exhausted_no_hazard levels rows cols start depth st hinv hdq
    constructor
    · exact ⟨fun _ => hno, fun _ => ⟨st, ho, hdq⟩⟩
    · constructor
      · rintro ⟨path, st1, h⟩
        rw [ho] at h
        simp at h
      · intro h
        exact absurd h hno
  | found path st =>
    obtain ⟨depth, st0, current, chain, hr⟩ := runSearch_found levels rows cols hw start
      mode hm hb fuel path st ho
    have hyes := found_hazard_reachable levels rows cols start mode path st depth st0 current
      chain hr
    constructor
    · constructor
      · rintro ⟨st1, h, _⟩
        rw [ho] at h
        simp at h
      · intro h
        exact absurd hyes h
    · exact ⟨fun _ => hyes, fun _ => ⟨path, st, ho⟩⟩

theorem exhausted_iff_unreachable_witness :
    ((∃ st, runSearch mazeCorner origin Mode.kStack 4 = Exec.ok (Outcome.exhausted st) ∧
          st.dq = []) ↔ ¬ HazardReachable mazeCorner origin.key) ∧
    ((∃ path st, runSearch mazeCorner origin Mode.kStack 4 =
          Exec.ok (Outcome.found path st)) ↔ HazardReachable mazeCorner origin.key) :=
  exhausted_iff_unreachable mazeCorner 2 2 (by decide) origin Mode.kStack (Or.inl rfl)
    (by decide) 4 (by decide)

/-- C3: on a well-formed grid with an in-bounds start, in stack and in queue mode, a path that
the search finds starts at the start coordinate, ends on a Hazard cell, and each of its
consecutive pairs is one legal move. -/
theorem found_path_is_legal (levels : Grid) (rows cols : Nat)
    (hw : WellFormed levels rows cols) (start : Position) (mode : Mode)
    (hm : mode = Mode.kStack ∨ mode = Mode.kQueue)
    (hb : InBounds levels rows cols start.key) (fuel : Nat) (path : List Position)
    (st : SearchState)
    (h : runSearch levels start mode fuel = Exec.ok (Outcome.found path st)) :
    (path.map Position.key).head? = some start.key ∧
    (∃ goal, (path.map Position.key).getLast? = some goal ∧ CellIs levels goal 'H') ∧
    IsWalk levels (path.map Position.key) := by
  obtain ⟨depth, st0, current, chain, hr⟩ := runSearch_found levels rows cols hw start
    mode hm hb fuel path st h
  obtain ⟨h1, h2, h3, _, _, _, _⟩ :=
    foundRun_keys levels rows cols start mode path st depth st0 current chain hr
  exact ⟨h1, ⟨current.key, h2, hr.hazard⟩, h3⟩

theorem found_path_is_legal_witness :
    (cornerPath.map Position.key).head? = some origin.key ∧
    (∃ goal, (cornerPath.map Position.key).getLast? = some goal ∧ CellIs mazeCorner goal 'H') ∧
    IsWalk mazeCorner (cornerPath.map Position.key) :=
  found_path_is_legal mazeCorner 2 2 (by decide) origin Mode.kStack (Or.inl rfl) (by decide) 4
    cornerPath cornerState (corner_run Mode.kStack (Or.inl rfl))

theorem unreachable_of_exhausted (levels : Grid) (rows cols : Nat)
    (hw : WellFormed levels rows cols) (start : Position) (mode : Mode)
    (hm : mode = Mode.kStack ∨ mode = Mode.kQueue)
    (hb : InBounds levels rows cols start.key) (fuel : Nat) (st : SearchState)
    (h : runSearch levels start mode fuel = Exec.ok (Outcome.exhausted st)) :
    ¬ HazardReachable levels start.key := by
  obtain ⟨_, hdq, depth, hinv⟩ := runSearch_exhausted levels rows cols hw start mode hm hb
    fuel st h
  exact exhausted_no_hazard levels rows cols start depth st hinv hdq

theorem walled_run (mode : Mode) (hm : mode = Mode.kStack ∨ mode = Mode.kQueue) :
    runSearch mazeWalled origin mode 4 = Exec.ok (Outcome.exhausted walledState) := by
  rcases hm with rfl | rfl <;> decide

theorem walled_unreachable : ¬ HazardReachable mazeWalled origin.key :=
  unreachable_of_exhausted mazeWalled 2 2 (by decide) origin Mode.kQueue (Or.inr rfl)
    (by decide) 4 walledState (walled_run Mode.kQueue (Or.inr rfl))

/-- C4: on a well-formed grid with an in-bounds start from which no Hazard is reachable, in
stack and in queue mode the search ends with an empty frontier and a visited set that holds
exactly the coordinates reachable from the start by legal moves. -/
theorem exhausted_visited_is_component (levels : Grid) (rows cols : Nat)
    (hw : WellFormed levels rows cols) (start : Position) (mode : Mode)
    (hm : mode = Mode.kStack ∨ mode = Mode.kQueue)
    (hb : InBounds levels rows cols start.key) (fuel : Nat)
    (hfuel : levels.length * rows * cols ≤ fuel)
    (hno : ¬ HazardReachable levels start.key) :
    ∃ st, runSearch levels start mode fuel = Exec.ok (Outcome.exhausted st) ∧ st.dq = [] ∧
      ∀ k, k ∈ st.visited ↔ Reachable levels start.key k := by
  obtain ⟨o, ho⟩ := runSearch_ok levels rows cols hw start mode hm hb fuel hfuel
  cases o with
  | exhausted st =>
    obtain ⟨_, hdq, depth, hinv⟩ := runSearch_exhausted levels rows cols hw start mode hm hb
      fuel st ho
    refine ⟨st, ho, hdq, fun k => ⟨?_, ?_⟩⟩
    · intro hk
      exact visited_reachable levels rows cols start depth st hinv _ k hk rfl
    · intro hk
      exact reachable_visited levels rows cols start depth st hinv hdq k hk
  | found path st =>
    obtain ⟨depth, st0, current, chain, hr⟩ := runSearch_found levels rows cols hw start
      mode hm hb fuel path st ho
    exact absurd (found_hazard_reachable levels rows cols start mode path st depth st0 current
      chain hr) hno

theorem exhausted_visited_is_component_witness :
    ∃ st, runSearch mazeWalled origin Mode.kStack 4 = Exec.ok (Outcome.exhausted st) ∧
      st.dq = [] ∧ ∀ k, k ∈ st.visited ↔ Reachable mazeWalled origin.key k :=
  exhausted_visited_is_component mazeWalled 2 2 (by decide) origin Mode.kStack (Or.inl rfl)
    (by decide) 4 (by decide) walled_unreachable

/-- C5: on a well-formed grid with an in-bounds start, in stack and in queue mode, the search
loop ends within levels x rows x cols pops; at every loop head the frontier holds no
coordinate twice, holds only visited coordinates, and the visited set has no more entries
than the grid has cells. -/
theorem search_terminates_within_cells (levels : Grid) (rows cols : Nat)
    (hw : WellFormed levels rows cols) (start : Position) (mode : Mode)
    (hm : mode = Mode.kStack ∨ mode = Mode.kQueue)
    (hb : InBounds levels rows cols start.key) :
    (∃ e, searchLoop levels mode (levels.length * rows * cols) (initState start) = Exec.ok e) ∧
    ∀ st, LoopHead levels mode start st →
      (st.dq.map Position.key).Nodup ∧ st.visited.Nodup ∧
      (∀ p ∈ st.dq, p.key ∈ st.visited) ∧
      st.visited.length ≤ levels.length * rows * cols := by
  constructor
  · exact searchLoop_terminates levels rows cols hw start mode hm _ (initState start)
      (good_init levels rows cols start mode hb)
      (by simp only [initState, List.length_singleton]; omega)
  · intro st hst
    obtain ⟨depth, hinv, _⟩ := loopHead_good levels rows cols hw start mode hm hb st hst
    exact ⟨hinv.dq_nodup, hinv.visited_nodup, hinv.dq_sub,
      visited_length_le levels rows cols st.visited hinv.visited_nodup hinv.visited_inb⟩

theorem search_terminates_within_cells_witness :
    (∃ e, searchLoop mazeLift Mode.kStack (mazeLift.length * 2 * 2) (initState origin) =
        Exec.ok e) ∧
    ∀ st, LoopHead mazeLift Mode.kStack origin st →
      (st.dq.map Position.key).Nodup ∧ st.visited.Nodup ∧
      (∀ p ∈ st.dq, p.key ∈ st.visited) ∧
      st.visited.length ≤ mazeLift.length * 2 * 2 :=
  search_terminates_within_cells mazeLift 2 2 (by decide) origin Mode.kStack (Or.inl rfl)
    (by decide)

/-- C6: on a well-formed grid with an in-bounds start, in stack and in queue mode, the
coordinates of a found path are pairwise distinct, the path has no more elements than the
visited set, and the backward walk that builds it succeeds within |visited| steps. -/
theorem path_has_no_repeats (levels : Grid) (rows cols : Nat)
    (hw : WellFormed levels rows cols) (start : Position) (mode : Mode)
    (hm : mode = Mode.kStack ∨ mode = Mode.kQueue)
    (hb : InBounds levels rows cols start.key) (fuel : Nat) (path : List Position)
    (st : SearchState)
    (h : runSearch levels start mode fuel = Exec.ok (Outcome.found path st)) :
    (path.map Position.key).Nodup ∧ path.length ≤ st.visited.length ∧
    ∃ current raw, reconstructPath st.parentMap start current st.visited.length = Exec.ok raw ∧
      path = labelPath raw := by
  obtain ⟨depth, st0, current, chain, hr⟩ := runSearch_found levels rows cols hw start
    mode hm hb fuel path st h
  obtain ⟨_, _, _, hnd, _, _, _⟩ :=
    foundRun_keys levels rows cols start mode path st depth st0 current chain hr
  obtain ⟨hle, hlen⟩ := foundRun_length_le levels rows cols start mode path st depth st0
    current chain hr
  refine ⟨hnd, hle, current, (chain ++ [start]).reverse, ?_, hr.path_eq⟩
  rw [hr.pm_eq]
  exact reconstructPath_of_backWalk st0.parentMap start current chain _ hr.walk (by omega)

theorem path_has_no_repeats_witness :
    (cornerPath.map Position.key).Nodup ∧ cornerPath.length ≤ cornerState.visited.length ∧
    ∃ current raw,
      reconstructPath cornerState.parentMap origin current cornerState.visited.length =
        Exec.ok raw ∧ cornerPath = labelPath raw :=
  path_has_no_repeats mazeCorner 2 2 (by decide) origin Mode.kQueue (Or.inr rfl) (by decide) 4
    cornerPath cornerState (corner_run Mode.kQueue (Or.inr rfl))

/-! ## Claims on the frontier expansion -/

/-- C7, as stated, fails: a Start cell lies inside the grid, yet `isValid` rejects it. -/
theorem isValid_rejects_start :
    cellAt [[['S']]] 0 0 0 = some 'S' ∧ isValid [[['S']]] 0 0 0 = false := by
  decide

/-- C7, amended: `isValid` holds exactly for the coordinates inside the grid whose cell is
Open, Elevator or Hazard; it fails for a Start cell, a wall, any other character and every
coordinate outside the grid. -/
theorem isValid_iff_open_elevator_hazard (levels : Grid) (level row col : Nat) :
    (isValid levels level row col = true ↔
      ∃ ch, cellAt levels level row col = some ch ∧ (ch = '.' ∨ ch = 'E' ∨ ch = 'H')) ∧
    (cellAt levels level row col = some 'S' → isValid levels level row col = false) ∧
    (cellAt levels level row col = some '#' → isValid levels level row col = false) ∧
    (cellAt levels level row col = none → isValid levels level row col = false) := by
  have hiff := isValid_iff levels level row col
  refine ⟨hiff, ?_, ?_, ?_⟩
  · intro h
    cases hv : isValid levels level row col with
    | false => rfl
    | true =>
      obtain ⟨ch, h1, h2⟩ := hiff.mp hv
      rw [h] at h1
      obtain rfl := Option.some.inj h1
      revert h2
      decide
  · intro h
    cases hv : isValid levels level row col with
    | false => rfl
    | true =>
      obtain ⟨ch, h1, h2⟩ := hiff.mp hv
      rw [h] at h1
      obtain rfl := Option.some.inj h1
      revert h2
      decide
  · intro h
    cases hv : isValid levels level row col with
    | false => rfl
    | true =>
      obtain ⟨ch, h1, _⟩ := hiff.mp hv
      rw [h] at h1
      simp at h1

theorem elevatorSpec_level_ne (levels : Grid) (current : Position) (visited : List Key)
    (p : Position) (h : p ∈ elevatorSpec levels current visited) :
    p.level ≠ current.level ∧ p.key ∉ visited := by
  rw [mem_elevatorSpec] at h
  obtain ⟨_, _, h3, _, h5, h6, h7, _⟩ := h
  refine ⟨h3, ?_⟩
  simpa [Position.key, h6, h7] using h5

/-- C8: on a well-formed grid with an in-bounds current cell, the same-level part of
`getNextPositions` is the list north 'n', east 'e', south 's', west 'w' restricted to the
traversable targets, in that order, without a step off row 0 or column 0; every target lies
inside the grid, and what follows lies on other levels. -/
theorem same_level_candidates (levels : Grid) (rows cols : Nat)
    (hw : WellFormed levels rows cols) (current : Position)
    (hb : InBounds levels rows cols current.key) (visited : List Key) :
    ∃ more, getNextPositions levels current visited =
        Exec.ok (planarSpec levels current ++ more) ∧
      (∀ p ∈ more, p.level ≠ current.level) ∧
      (∀ p ∈ planarSpec levels current,
        p.level = current.level ∧ InBounds levels rows cols p.key) := by
  refine ⟨elevatorSpec levels current visited,
    getNextPositions_eq levels rows cols hw current hb visited, ?_, ?_⟩
  · intro p hp
    exact (elevatorSpec_level_ne levels current visited p hp).1
  · intro p hp
    have h1 := (mem_planarSpec levels current p).mp hp
    exact ⟨h1.2.1, isValid_inBounds levels rows cols hw _ _ _ h1.1⟩

theorem same_level_candidates_witness :
    ∃ more, getNextPositions mazeLift ⟨0, 1, 0, 's'⟩ [(0, 1, 0), (0, 0, 1), (0, 0, 0)] =
        Exec.ok (planarSpec mazeLift ⟨0, 1, 0, 's'⟩ ++ more) ∧
      (∀ p ∈ more, p.level ≠ (⟨0, 1, 0, 's'⟩ : Position).level) ∧
      (∀ p ∈ planarSpec mazeLift ⟨0, 1, 0, 's'⟩,
        p.level = (⟨0, 1, 0, 's'⟩ : Position).level ∧ InBounds mazeLift 2 2 p.key) :=
  same_level_candidates mazeLift 2 2 (by decide) ⟨0, 1, 0, 's'⟩ (by decide)
    [(0, 1, 0), (0, 0, 1), (0, 0, 0)]

/-- C9: on a well-formed grid with an in-bounds current cell, `getNextPositions` appends
after the same-level candidates, when the current cell is an Elevator, one candidate for each
other level whose cell at the same row and column is an Elevator and not yet visited, in
ascending level order, labelled 'n' below the current level and 's' above; it appends nothing
when the current cell is not an Elevator. -/
theorem cross_level_candidates (levels : Grid) (rows cols : Nat)
    (hw : WellFormed levels rows cols) (current : Position)
    (hb : InBounds levels rows cols current.key) (visited : List Key) :
    ∃ planar, getNextPositions levels current visited =
        Exec.ok (planar ++ elevatorSpec levels current visited) ∧
      (∀ p ∈ planar, p.level = current.level) ∧
      (¬ CellIs levels current.key 'E' → elevatorSpec levels current visited = []) := by
  refine ⟨planarSpec levels current,
    getNextPositions_eq levels rows cols hw current hb visited, ?_, ?_⟩
  · intro p hp
    exact ((mem_planarSpec levels current p).mp hp).2.1
  · intro h
    unfold elevatorSpec
    exact if_neg h

theorem cross_level_candidates_witness :
    ∃ planar, getNextPositions mazeLift ⟨0, 1, 0, 's'⟩ [(0, 1, 0), (0, 0, 1), (0, 0, 0)] =
        Exec.ok (planar ++ elevatorSpec mazeLift ⟨0, 1, 0, 's'⟩
          [(0, 1, 0), (0, 0, 1), (0, 0, 0)]) ∧
      (∀ p ∈ planar, p.level = (⟨0, 1, 0, 's'⟩ : Position).level) ∧
      (¬ CellIs mazeLift (⟨0, 1, 0, 's'⟩ : Position).key 'E' →
        elevatorSpec mazeLift ⟨0, 1, 0, 's'⟩ [(0, 1, 0), (0, 0, 1), (0, 0, 0)] = []) :=
  cross_level_candidates mazeLift 2 2 (by decide) ⟨0, 1, 0, 's'⟩ (by decide)
    [(0, 1, 0), (0, 0, 1), (0, 0, 0)]

/-- C10, as stated, fails: in the queue search of `mazeRow`, when (0,1,0) is expanded the
cell (0,1,1) is already visited, and the same-level branch emits it all the same. -/
theorem planar_branch_emits_visited :
    getNextPositions mazeRow ⟨0, 1, 0, 's'⟩
        [(0, 1, 1), (0, 0, 2), (0, 1, 0), (0, 0, 1), (0, 0, 0)] =
        Exec.ok [⟨0, 1, 1, 'e'⟩, ⟨0, 2, 0, 's'⟩] ∧
      (⟨0, 1, 1, 'e'⟩ : Position).key ∈
        [(0, 1, 1), (0, 0, 2), (0, 1, 0), (0, 0, 1), (0, 0, 0)] := by
  decide

/-- C10, amended: the same-level branch of `getNextPositions` emits every traversable
neighbour whatever the visited set holds, only the cross-level candidates are checked against
it; the loop of `pathfinding` over the candidates pushes none whose coordinate is visited. -/
theorem visited_neighbours_dropped_by_caller (levels : Grid) (rows cols : Nat)
    (hw : WellFormed levels rows cols) (current : Position)
    (hb : InBounds levels rows cols current.key) (mode : Mode)
    (hm : mode = Mode.kStack ∨ mode = Mode.kQueue) (st : SearchState) :
    ∃ more, getNextPositions levels current st.visited =
        Exec.ok (planarSpec levels current ++ more) ∧
      (∀ p ∈ more, p.key ∉ st.visited) ∧
      ∀ p ∈ ((planarSpec levels current ++ more).foldl (pushNext mode current) st).dq,
        p ∈ st.dq ∨ p.key ∉ st.visited := by
  refine ⟨elevatorSpec levels current st.visited,
    getNextPositions_eq levels rows cols hw current hb st.visited, ?_, ?_⟩
  · intro p hp
    exact (elevatorSpec_level_ne levels current st.visited p hp).2
  · intro p hp
    rw [foldl_pushNext mode hm] at hp
    simp only [List.mem_append] at hp
    rcases hp with hp | hp
    · exact Or.inl hp
    · exact Or.inr (freshOf_sub _ _ p hp).2

theorem visited_neighbours_dropped_by_caller_witness :
    ∃ more, getNextPositions mazeRow ⟨0, 0, 1, 'e'⟩ cornerState.visited =
        Exec.ok (planarSpec mazeRow ⟨0, 0, 1, 'e'⟩ ++ more) ∧
      (∀ p ∈ more, p.key ∉ cornerState.visited) ∧
      ∀ p ∈ ((planarSpec mazeRow ⟨0, 0, 1, 'e'⟩ ++ more).foldl
          (pushNext Mode.kQueue ⟨0, 0, 1, 'e'⟩) cornerState).dq,
        p ∈ cornerState.dq ∨ p.key ∉ cornerState.visited :=
  visited_neighbours_dropped_by_caller mazeRow 3 3 (by decide) ⟨0, 0, 1, 'e'⟩ (by decide)
    Mode.kQueue (Or.inr rfl) cornerState

/-! ## Claims on the labels -/

theorem labelRule_congr (a b c d : Position) (h1 : a.key = c.key) (h2 : b.key = d.key) :
    labelRule a b = labelRule c d := by
  simp only [Position.key, Prod.mk.injEq] at h1 h2
  obtain ⟨h11, h12, h13⟩ := h1
  obtain ⟨h21, h22, h23⟩ := h2
  unfold labelRule
  rw [h11, h12, h13, h21, h22, h23]

theorem digit_label (l : Nat) (h : l < 10) : Char.ofNat ((48 + l) % 256) = Nat.digitChar l := by
  interval_cases l <;> decide

theorem labelRule_eq_specLabel (a b : Position) (h : b.level < 10) :
    labelRule a b = specLabel a b := by
  unfold labelRule specLabel
  rw [digit_label b.level h]

theorem labelAt_some (path : List Position) (j : Nat) (x : Position)
    (h : labelAt path j = some x) :
    ∃ y, path[j]? = some y ∧ x.key = y.key ∧
      (∀ next, path[j + 1]? = some next → x.direction = labelRule y next) ∧
      (path[j + 1]? = none → x = y) := by
  unfold labelAt at h
  cases h1 : path[j]? with
  | none => simp [h1] at h
  | some y =>
    cases h2 : path[j + 1]? with
    | none =>
      simp only [h1, h2, Option.some.injEq] at h
      subst h
      exact ⟨y, rfl, rfl, fun next hn => by simp at hn, fun _ => rfl⟩
    | some next =>
      simp only [h1, h2, Option.some.injEq] at h
      subst h
      refine ⟨y, rfl, rfl, ?_, fun hn => by simp at hn⟩
      intro n hn
      obtain rfl := Option.some.inj hn
      rfl

theorem foundRun_level_lt (levels : Grid) (rows cols : Nat) (start : Position)
    (mode : Mode) (path : List Position) (st : SearchState) (depth : Key → Nat)
    (st0 : SearchState) (current : Position) (chain : List Position)
    (hr : FoundRun levels rows cols start mode path st depth st0 current chain)
    (p : Position) (hp : p ∈ path) : p.level < levels.length := by
  obtain ⟨_, _, _, _, _, _, hsub⟩ :=
    foundRun_keys levels rows cols start mode path st depth st0 current chain hr
  have := hsub p.key (List.mem_map_of_mem _ hp)
  rw [hr.vis_eq] at this
  exact (hr.inv.visited_inb _ this).1

/-- C11: on a well-formed grid of at most 10 levels with an in-bounds start, in stack and in
queue mode, every element of a found path other than the first and the last carries the label
the specification's rule gives to it and its successor. -/
theorem inner_labels_follow_rule (levels : Grid) (rows cols : Nat)
    (hw : WellFormed levels rows cols) (start : Position) (mode : Mode)
    (hm : mode = Mode.kStack ∨ mode = Mode.kQueue)
    (hb : InBounds levels rows cols start.key) (h10 : levels.length ≤ 10) (fuel : Nat)
    (path : List Position) (st : SearchState)
    (h : runSearch levels start mode fuel = Exec.ok (Outcome.found path st))
    (i : Nat) (current next : Position) (hi : 0 < i) (hc : path[i]? = some current)
    (hn : path[i + 1]? = some next) :
    current.direction = specLabel current next := by
  obtain ⟨depth, st0, cur0, chain, hr⟩ := runSearch_found levels rows cols hw start
    mode hm hb fuel path st h
  have hlev : next.level < 10 := by
    have := foundRun_level_lt levels rows cols start mode path st depth st0 cur0 chain hr next
      (List.getElem?_mem hn)
    omega
  rw [hr.path_eq, labelPath_getElem?_pos _ _ hi] at hc
  rw [hr.path_eq, labelPath_getElem?_pos _ _ (Nat.succ_pos i)] at hn
  obtain ⟨y, hy1, hy2, hy3, _⟩ := labelAt_some _ _ _ hc
  obtain ⟨z, hz1, hz2, _, _⟩ := labelAt_some _ _ _ hn
  rw [hy3 z hz1, labelRule_congr y z current next hy2.symm hz2.symm,
    labelRule_eq_specLabel current next hlev]

theorem lift_run :
    runSearch mazeLift origin Mode.kQueue 8 =
      Exec.ok (Outcome.found
        [⟨0, 0, 0, '1'⟩, ⟨0, 1, 0, '1'⟩, ⟨1, 1, 0, 'n'⟩, ⟨1, 0, 0, 'n'⟩]
        ⟨[⟨1, 1, 1, 'e'⟩],
         [((1, 1, 1), ⟨1, 1, 0, 's'⟩), ((1, 0, 0), ⟨1, 1, 0, 's'⟩), ((1, 1, 0), ⟨0, 1, 0, 's'⟩),
          ((0, 1, 0), ⟨0, 0, 0, ' '⟩), ((0, 0, 1), ⟨0, 0, 0, ' '⟩), ((0, 0, 0), ⟨0, 0, 0, ' '⟩)],
         [(1, 1, 1), (1, 0, 0), (1, 1, 0), (0, 1, 0), (0, 0, 1), (0, 0, 0)]⟩) := by
  decide

theorem inner_labels_follow_rule_witness :
    (⟨0, 1, 0, '1'⟩ : Position).direction = specLabel ⟨0, 1, 0, '1'⟩ ⟨1, 1, 0, 'n'⟩ :=
  inner_labels_follow_rule mazeLift 2 2 (by decide) origin Mode.kQueue (Or.inr rfl) (by decide)
    (by decide) 8 _ _ lift_run 1 ⟨0, 1, 0, '1'⟩ ⟨1, 1, 0, 'n'⟩ (by decide) (by decide)
    (by decide)

/-- C12, the code at the failing inputs: in `mazeCorner` the path is (0,0,0), (0,0,1), (0,1,1),
the start's first move goes east and the labelling rule gives the pair (path[0], path[1]) the
label 'e', yet the start ends labelled 's' and the list output prints "(0,0,0,s)"; in
`mazeLift` the start's first move goes south, yet the start ends labelled '1' and the list
output prints "(0,0,0,1)". In both the start carries the label of its successor. -/
theorem start_label_not_first_move :
    runSearch mazeCorner origin Mode.kQueue 4 =
        Exec.ok (Outcome.found [⟨0, 0, 0, 's'⟩, ⟨0, 0, 1, 's'⟩, ⟨0, 1, 1, 's'⟩] cornerState) ∧
      specLabel ⟨0, 0, 0, 's'⟩ ⟨0, 0, 1, 's'⟩ = 'e' ∧
      (⟨0, 0, 0, 's'⟩ : Position).direction ≠ specLabel ⟨0, 0, 0, 's'⟩ ⟨0, 0, 1, 's'⟩ ∧
      pathfinding mazeCorner origin Mode.kQueue Mode.kList 4 =
        Exec.ok ["//path taken", "(0,0,0,s)", "(0,0,1,s)"] ∧
      specLabel ⟨0, 0, 0, '1'⟩ ⟨0, 1, 0, '1'⟩ = 's' ∧
      pathfinding mazeLift origin Mode.kQueue Mode.kList 8 =
        Exec.ok ["//path taken", "(0,0,0,1)", "(0,1,0,1)", "(1,1,0,n)"] := by
  decide

theorem replayMove_digit (l : Nat) (hl : l < 10) (k : Key) :
    replayMove k (Char.ofNat ((48 + l) % 256)) = (l, k.2.1, k.2.2) := by
  unfold replayMove
  interval_cases l <;>
    (rw [if_neg (by decide), if_neg (by decide), if_neg (by decide), if_neg (by decide)]; rfl)

theorem replayMove_labelRule (levels : Grid) (a b : Position)
    (h : LegalMove levels a.key b.key) (hl : b.level < 10) :
    replayMove a.key (labelRule a b) = b.key := by
  rcases h with ⟨hlev, hadj, _⟩ | ⟨hne, hr, hc, _, _⟩
  · simp only [Position.key] at hlev hadj
    rcases hadj with ⟨h1, h2 | h2⟩ | ⟨h1, h2 | h2⟩
    · have hlab : labelRule a b = 'e' := by
        unfold labelRule
        rw [if_pos hlev, if_pos h1, if_pos (by omega)]
      rw [hlab]
      simp [replayMove, Position.key, hlev, h1, h2]
    · have hlab : labelRule a b = 'w' := by
        unfold labelRule
        rw [if_pos hlev, if_pos h1, if_neg (by omega)]
      rw [hlab]
      simp only [replayMove, Position.key]
      rw [if_neg (by decide), if_pos trivial]
      simp only [Prod.mk.injEq]
      exact ⟨hlev, h1, by omega⟩
    · have hlab : labelRule a b = 's' := by
        unfold labelRule
        rw [if_pos hlev, if_neg (by omega), if_pos (by omega)]
      rw [hlab]
      simp [replayMove, Position.key, hlev, h1, h2]
    · have hlab : labelRule a b = 'n' := by
        unfold labelRule
        rw [if_pos hlev, if_neg (by omega), if_neg (by omega)]
      rw [hlab]
      simp only [replayMove, Position.key]
      rw [if_neg (by decide), if_neg (by decide), if_neg (by decide), if_pos trivial]
      simp only [Prod.mk.injEq]
      exact ⟨hlev, by omega, h1⟩
  · simp only [Position.key] at hne hr hc
    unfold labelRule
    rw [if_neg hne]
    simp only [Position.key, hr, hc]
    exact replayMove_digit b.level hl _

theorem replay_walk (levels : Grid) : ∀ (rest : List Position) (a : Position),
    List.Chain (fun x y => LegalMove levels x.key y.key) a rest →
    (∀ p ∈ rest, p.level < 10) →
    replay a.key (List.zipWith labelRule (a :: rest) rest) = (a :: rest).map Position.key := by
  intro rest
  induction rest with
  | nil => intro a _ _; rfl
  | cons b rest ih =>
    intro a hc hl
    rw [List.chain_cons] at hc
    obtain ⟨hab, hc2⟩ := hc
    simp only [List.zipWith_cons_cons, replay, List.map_cons]
    rw [replayMove_labelRule levels a b hab (hl b (List.mem_cons_self _ _))]
    have := ih b hc2 (fun p hp => hl p (List.mem_cons_of_mem _ hp))
    simp only [List.map_cons] at this
    rw [this]

/-- C13: on a well-formed grid of at most 10 levels with an in-bounds start, in stack and in
queue mode, the labels derived from the consecutive coordinate pairs of a found path, replayed
as moves from the start coordinate, give back the coordinate sequence of the path. -/
theorem labels_replay_to_path (levels : Grid) (rows cols : Nat)
    (hw : WellFormed levels rows cols) (start : Position) (mode : Mode)
    (hm : mode = Mode.kStack ∨ mode = Mode.kQueue)
    (hb : InBounds levels rows cols start.key) (h10 : levels.length ≤ 10) (fuel : Nat)
    (path : List Position) (st : SearchState)
    (h : runSearch levels start mode fuel = Exec.ok (Outcome.found path st)) :
    replay start.key (deriveLabels path) = path.map Position.key := by
  obtain ⟨depth, st0, cur0, chain, hr⟩ := runSearch_found levels rows cols hw start
    mode hm hb fuel path st h
  obtain ⟨h1, _, h3, _, _, _, _⟩ :=
    foundRun_keys levels rows cols start mode path st depth st0 cur0 chain hr
  have hlev : ∀ p ∈ path, p.level < 10 := fun p hp => by
    have := foundRun_level_lt levels rows cols start mode path st depth st0 cur0 chain hr p hp
    omega
  cases path with
  | nil => simp at h1
  | cons a rest =>
    simp only [List.map_cons, List.head?_cons, Option.some.injEq] at h1
    unfold IsWalk at h3
    rw [List.chain'_map] at h3
    unfold deriveLabels
    rw [← h1, List.tail_cons]
    exact replay_walk levels rest a h3 (fun p hp => hlev p (List.mem_cons_of_mem _ hp))

theorem labels_replay_to_path_witness :
    replay origin.key (deriveLabels [⟨0, 0, 0, '1'⟩, ⟨0, 1, 0, '1'⟩, ⟨1, 1, 0, 'n'⟩,
        ⟨1, 0, 0, 'n'⟩]) =
      [⟨0, 0, 0, '1'⟩, ⟨0, 1, 0, '1'⟩, ⟨1, 1, 0, 'n'⟩, ⟨1, 0, 0, 'n'⟩].map Position.key :=
  labels_replay_to_path mazeLift 2 2 (by decide) origin Mode.kQueue (Or.inr rfl) (by decide)
    (by decide) 8 _ _ lift_run

/-! ## The map output -/

theorem map_modify_of_invariant {α β : Type} (f : α → α) (m : α → β)
    (hf : ∀ a, m (f a) = m a) : ∀ (n : Nat) (l : List α), (l.modify f n).map m = l.map m := by
  intro n l
  induction l generalizing n with
  | nil => simp
  | cons a l ih =>
    cases n with
    | zero => simp [hf]
    | succ n => simp [ih]

theorem gridShape_setCell (levels : Grid) (level row col : Nat) (ch : Char) :
    gridShape (setCell levels level row col ch) = gridShape levels := by
  unfold gridShape setCell
  apply map_modify_of_invariant
  intro lv
  apply map_modify_of_invariant
  intro r
  simp

theorem cellAt_setCell_ne (levels : Grid) (level row col : Nat) (ch : Char) (l r c : Nat)
    (h : (l, r, c) ≠ (level, row, col)) :
    cellAt (setCell levels level row col ch) l r c = cellAt levels l r c := by
  unfold cellAt setCell
  rw [List.getElem?_modify]
  cases h1 : levels[l]? with
  | none => simp
  | some lv =>
    by_cases hl : level = l
    · subst hl
      simp only [Option.map_eq_map, Option.map_some', if_true]
      rw [List.getElem?_modify]
      cases h2 : lv[r]? with
      | none => simp
      | some rw =>
        by_cases hr : row = r
        · subst hr
          simp only [Option.map_eq_map, Option.map_some', if_true]
          have hc : col ≠ c := by
            intro hc
            subst hc
            exact h rfl
          rw [List.getElem?_set_ne hc]
        · simp [hr]
    · simp [hl]

theorem cellAt_setCell_eq (levels : Grid) (level row col : Nat) (ch c0 : Char)
    (h : cellAt levels level row col = some c0) :
    cellAt (setCell levels level row col ch) level row col = some ch := by
  unfold cellAt at h
  unfold cellAt setCell
  rw [List.getElem?_modify]
  cases h1 : levels[level]? with
  | none => simp [h1] at h
  | some lv =>
    simp only [h1] at h
    simp only [Option.map_eq_map, Option.map_some', if_true]
    rw [List.getElem?_modify]
    cases h2 : lv[row]? with
    | none => simp [h2] at h
    | some rw =>
      simp only [h2] at h
      simp only [Option.map_eq_map, Option.map_some', if_true]
      have hlt : col < rw.length := (List.getElem?_eq_some.mp h).1
      rw [List.getElem?_set_self hlt]

theorem overlay_spec (path : List Position) : ∀ (g : Grid),
    (path.map Position.key).Nodup →
    (∀ p ∈ path, ∃ c, cellAt g p.level p.row p.col = some c) →
    ∃ updated, path.foldl overlayStep (Exec.ok g) = Exec.ok updated ∧
      gridShape updated = gridShape g ∧
      (∀ p ∈ path, ¬ CellIs g p.key 'H' →
        cellAt updated p.level p.row p.col = some p.direction) ∧
      (∀ l r c, ((l, r, c) ∉ path.map Position.key ∨ CellIs g (l, r, c) 'H') →
        cellAt updated l r c = cellAt g l r c) := by
  induction path with
  | nil =>
    intro g _ _
    exact ⟨g, rfl, rfl, fun p hp => by simp at hp, fun _ _ _ _ => rfl⟩
  | cons p ps ih =>
    intro g hnd hin
    rw [List.map_cons, List.nodup_cons] at hnd
    obtain ⟨hp_notin, hnd2⟩ := hnd
    obtain ⟨c0, hc0⟩ := hin p (List.mem_cons_self _ _)
    have hne_of_mem : ∀ q ∈ ps, (q.level, q.row, q.col) ≠ (p.level, p.row, p.col) := by
      intro q hq heq
      apply hp_notin
      have : q.key = p.key := heq
      rw [← this]
      exact List.mem_map_of_mem _ hq
    -- the grid after the round for `p`
    obtain ⟨g1, hg1, hshape1, hsame1, hat1⟩ : ∃ g1, overlayStep (Exec.ok g) p = Exec.ok g1 ∧
        gridShape g1 = gridShape g ∧
        (∀ l r c, (l, r, c) ≠ (p.level, p.row, p.col) → cellAt g1 l r c = cellAt g l r c) ∧
        cellAt g1 p.level p.row p.col = (if c0 = 'H' then some 'H' else some p.direction) := by
      by_cases hH : c0 = 'H'
      · refine ⟨g, by simp [overlayStep, hc0, hH], rfl, fun _ _ _ _ => rfl, ?_⟩
        rw [if_pos hH, hc0, hH]
      · refine ⟨setCell g p.level p.row p.col p.direction, by simp [overlayStep, hc0, hH],
          gridShape_setCell _ _ _ _ _, ?_, ?_⟩
        · intro l r c hne
          exact cellAt_setCell_ne g _ _ _ _ l r c hne
        · rw [if_neg hH]
          exact cellAt_setCell_eq g _ _ _ _ c0 hc0
    have hin1 : ∀ q ∈ ps, ∃ c, cellAt g1 q.level q.row q.col = some c := by
      intro q hq
      rw [hsame1 _ _ _ (hne_of_mem q hq)]
      exact hin q (List.mem_cons_of_mem _ hq)
    obtain ⟨updated, hfold, hshape, hlab, hkeep⟩ := ih g1 hnd2 hin1
    refine ⟨updated, ?_, ?_, ?_, ?_⟩
    · rw [List.foldl_cons, hg1]
      exact hfold
    · rw [hshape, hshape1]
    · intro q hq hqH
      rcases List.mem_cons.mp hq with rfl | hq
      · rw [hkeep _ _ _ (Or.inl hp_notin), hat1]
        have : c0 ≠ 'H' := by
          intro h
          apply hqH
          unfold CellIs
          simp only [Position.key]
          rw [hc0, h]
        rw [if_neg this]
      · apply hlab q hq
        intro h
        apply hqH
        unfold CellIs at h ⊢
        simp only [Position.key] at h ⊢
        rw [← hsame1 _ _ _ (hne_of_mem q hq)]
        exact h
    · intro l r c h
      by_cases hk : (l, r, c) = (p.level, p.row, p.col)
      · simp only [Prod.mk.injEq] at hk
        obtain ⟨rfl, rfl, rfl⟩ := hk
        rcases h with h | h
        · exact absurd (List.mem_cons_self _ _) h
        · unfold CellIs at h
          simp only at h
          rw [hc0] at h
          have hH : c0 = 'H' := Option.some.inj h
          rw [hkeep _ _ _ (Or.inl hp_notin), hat1, if_pos hH, hc0, hH]
      · rw [← hsame1 l r c hk]
        apply hkeep
        rcases h with h | h
        · left
          intro hmem
          exact h (List.mem_cons_of_mem _ hmem)
        · right
          unfold CellIs at h ⊢
          simp only at h ⊢
          rw [hsame1 l r c hk]
          exact h

/-- C14: for every grid and every non-empty labelled path whose coordinates are pairwise
distinct and inside the grid, `printSolutionMap` writes the start line and the rendering of a
copy of the grid that has the grid's dimensions, shows the path element's label at every path
coordinate whose grid cell is not a Hazard, and shows the grid's own character at every other
coordinate; the grid itself is a value the function only reads. -/
theorem map_shows_labels_off_hazards (levels : Grid) (path : List Position)
    (hne : path ≠ []) (hnd : (path.map Position.key).Nodup)
    (hin : ∀ p ∈ path, cellAt levels p.level p.row p.col ≠ none) :
    ∃ front updated, path.head? = some front ∧ overlay path levels = Exec.ok updated ∧
      printSolutionMap path levels = Exec.ok (startLine front :: renderLevels updated) ∧
      gridShape updated = gridShape levels ∧
      (∀ p ∈ path, ¬ CellIs levels p.key 'H' →
        cellAt updated p.level p.row p.col = some p.direction) ∧
      (∀ l r c, ((l, r, c) ∉ path.map Position.key ∨ CellIs levels (l, r, c) 'H') →
        cellAt updated l r c = cellAt levels l r c) := by
  obtain ⟨updated, hfold, hshape, hlab, hkeep⟩ := overlay_spec path levels hnd
    (fun p hp => Option.ne_none_iff_exists'.mp (hin p hp))
  cases path with
  | nil => exact absurd rfl hne
  | cons front rest =>
    refine ⟨front, updated, rfl, hfold, ?_, hshape, hlab, hkeep⟩
    unfold printSolutionMap overlay
    simp only [hfold]

theorem map_shows_labels_off_hazards_witness :
    ∃ front updated, cornerPath.head? = some front ∧
      overlay cornerPath mazeCorner = Exec.ok updated ∧
      printSolutionMap cornerPath mazeCorner =
        Exec.ok (startLine front :: renderLevels updated) ∧
      gridShape updated = gridShape mazeCorner ∧
      (∀ p ∈ cornerPath, ¬ CellIs mazeCorner p.key 'H' →
        cellAt updated p.level p.row p.col = some p.direction) ∧
      (∀ l r c, ((l, r, c) ∉ cornerPath.map Position.key ∨ CellIs mazeCorner (l, r, c) 'H') →
        cellAt updated l r c = cellAt mazeCorner l r c) :=
  map_shows_labels_off_hazards mazeCorner cornerPath (by decide) (by decide) (by decide)

theorem foundRun_inBounds (levels : Grid) (rows cols : Nat) (hw : WellFormed levels rows cols)
    (start : Position) (mode : Mode) (path : List Position) (st : SearchState)
    (depth : Key → Nat) (st0 : SearchState) (current : Position) (chain : List Position)
    (hr : FoundRun levels rows cols start mode path st depth st0 current chain)
    (p : Position) (hp : p ∈ path) : ∃ c, cellAt levels p.level p.row p.col = some c := by
  obtain ⟨_, _, _, _, _, _, hsub⟩ :=
    foundRun_keys levels rows cols start mode path st depth st0 current chain hr
  have := hsub p.key (List.mem_map_of_mem _ hp)
  rw [hr.vis_eq] at this
  exact (cellAt_some_iff levels rows cols hw p.level p.row p.col).mpr
    (hr.inv.visited_inb _ this)

/-- C20: on a well-formed grid with an in-bounds start, in stack and in queue mode, no element
of a found path before the last lies on a Hazard cell, the last one does, and no parent
stored for a cell other than the start is a Hazard cell; so the map output shows the label of
every path element before the goal and keeps 'H' at the goal. -/
theorem only_goal_is_hazard (levels : Grid) (rows cols : Nat)
    (hw : WellFormed levels rows cols) (start : Position) (mode : Mode)
    (hm : mode = Mode.kStack ∨ mode = Mode.kQueue)
    (hb : InBounds levels rows cols start.key) (fuel : Nat) (path : List Position)
    (st : SearchState)
    (h : runSearch levels start mode fuel = Exec.ok (Outcome.found path st)) :
    (∀ p ∈ path.dropLast, ¬ CellIs levels p.key 'H') ∧
    (∃ goal, path.getLast? = some goal ∧ CellIs levels goal.key 'H') ∧
    (∀ k p, parentOf st.parentMap k = some p → k ≠ start.key → ¬ CellIs levels p.key 'H') ∧
    ∃ front updated, path.head? = some front ∧
      printSolutionMap path levels = Exec.ok (startLine front :: renderLevels updated) ∧
      (∀ p ∈ path.dropLast, cellAt updated p.level p.row p.col = some p.direction) ∧
      (∀ goal, path.getLast? = some goal →
        cellAt updated goal.level goal.row goal.col = some 'H') := by
  obtain ⟨depth, st0, current, chain, hr⟩ := runSearch_found levels rows cols hw start
    mode hm hb fuel path st h
  obtain ⟨_, h2, _, hnd, hlen, hdrop, _⟩ :=
    foundRun_keys levels rows cols start mode path st depth st0 current chain hr
  have hdrop2 : ∀ p ∈ path.dropLast, ¬ CellIs levels p.key 'H' := by
    intro p hp
    apply hdrop
    rw [← List.map_dropLast]
    exact List.mem_map_of_mem _ hp
  have hgoal : ∀ goal, path.getLast? = some goal → CellIs levels goal.key 'H' := by
    intro goal hg
    rw [List.getLast?_map, hg] at h2
    simp only [Option.map_some', Option.some.injEq] at h2
    rw [h2]
    exact hr.hazard
  have hne : path ≠ [] := by
    intro h0
    rw [h0] at hlen
    simp at hlen
  obtain ⟨updated, hfold, _, hlab, hkeep⟩ := overlay_spec path levels hnd
    (fun p hp => foundRun_inBounds levels rows cols hw start mode path st depth st0 current
      chain hr p hp)
  refine ⟨hdrop2, ?_, ?_, ?_⟩
  · obtain ⟨goal, hg⟩ : ∃ goal, path.getLast? = some goal :=
      ⟨path.getLast hne, List.getLast?_eq_getLast _ hne⟩
    exact ⟨goal, hg, hgoal goal hg⟩
  · intro k p hp hk
    rw [hr.pm_eq] at hp
    have hkv : k ∈ st0.visited := by
      rw [← hr.inv.keys_eq]
      exact parentOf_some_mem _ _ _ hp
    obtain ⟨q, hq1, hq2, hq3, _, _⟩ := hr.inv.parent_ok k hkv hk
    rw [hp] at hq1
    obtain rfl := Option.some.inj hq1
    exact (hr.inv.closed _ hq2 hq3).1
  · cases hpath : path with
    | nil => exact absurd hpath hne
    | cons front rest =>
      rw [hpath] at hfold
      refine ⟨front, updated, rfl, ?_, ?_, ?_⟩
      · unfold printSolutionMap overlay
        simp only [hfold]
      · intro p hp
        rw [← hpath] at hp
        exact hlab p (List.mem_of_mem_dropLast hp) (hdrop2 p hp)
      · intro goal hg
        rw [← hpath] at hg
        have hH := hgoal goal hg
        rw [hkeep _ _ _ (Or.inr hH)]
        exact hH

theorem only_goal_is_hazard_witness :
    (∀ p ∈ cornerPath.dropLast, ¬ CellIs mazeCorner p.key 'H') ∧
    (∃ goal, cornerPath.getLast? = some goal ∧ CellIs mazeCorner goal.key 'H') ∧
    (∀ k p, parentOf cornerState.parentMap k = some p → k ≠ origin.key →
      ¬ CellIs mazeCorner p.key 'H') ∧
    ∃ front updated, cornerPath.head? = some front ∧
      printSolutionMap cornerPath mazeCorner =
        Exec.ok (startLine front :: renderLevels updated) ∧
      (∀ p ∈ cornerPath.dropLast, cellAt updated p.level p.row p.col = some p.direction) ∧
      (∀ goal, cornerPath.getLast? = some goal →
        cellAt updated goal.level goal.row goal.col = some 'H') :=
  only_goal_is_hazard mazeCorner 2 2 (by decide) origin Mode.kStack (Or.inl rfl) (by decide) 4
    cornerPath cornerState (corner_run Mode.kStack (Or.inl rfl))

/-! ## The list output and the output of an exhausted search -/

theorem filterMap_range_take {α β : Type} (l : List α) (g : α → Option β) : ∀ (k : Nat),
    (List.range k).filterMap (fun i => (l[i]?).bind g) = (l.take k).filterMap g := by
  intro k
  induction k with
  | zero => simp
  | succ k ih =>
    rw [List.range_succ, List.filterMap_append, ih, List.take_succ, List.filterMap_append]
    congr 1
    cases h : l[k]? with
    | none => simp [h]
    | some a => simp [h, List.filterMap_cons]

theorem filterMap_eq_map_filter_label (l : List Position) :
    l.filterMap (fun pos => if pos.direction ≠ ' ' then some (listLine pos) else none) =
      (l.filter (fun pos => decide (pos.direction ≠ ' '))).map listLine := by
  induction l with
  | nil => rfl
  | cons a l ih =>
    by_cases h : a.direction = ' '
    · rw [List.filterMap_cons_none (by simp [h]), List.filter_cons_of_neg (by simp [h]), ih]
    · rw [List.filterMap_cons_some (show _ = some (listLine a) by simp [h]),
        List.filter_cons_of_pos (by simp [h]), List.map_cons, ih]

theorem printSolutionList_eq (path : List Position) :
    printSolutionList path =
      "//path taken" ::
        (path.dropLast.filter (fun pos => decide (pos.direction ≠ ' '))).map listLine := by
  cases path with
  | nil => rfl
  | cons a rest =>
    unfold printSolutionList
    simp only
    congr 1
    rw [← filterMap_eq_map_filter_label, List.dropLast_eq_take, ← filterMap_range_take]
    congr 1
    funext i
    cases (a :: rest)[i]? <;> rfl

theorem walkBack_mono (parentMap : List (Key × Position)) (start : Position) :
    ∀ (fuel : Nat) (current : Position) (acc r : List Position) (extra : Nat),
      walkBack parentMap start fuel current acc = Exec.ok r →
      walkBack parentMap start (fuel + extra) current acc = Exec.ok r := by
  intro fuel current acc r extra h
  obtain ⟨chain, hbw, hr⟩ := backWalk_of_walkBack parentMap start fuel current acc r h
  have hlen : chain.length ≤ fuel := by
    by_contra hgt
    have hlong : ∀ (n : Nat) (c : Position) (a : List Position) (ch : List Position),
        BackWalk parentMap start c ch → n < ch.length →
        walkBack parentMap start n c a = Exec.outOfFuel := by
      intro n
      induction n with
      | zero =>
        intro c a ch hch hlt
        cases hch with
        | stop _ hk => simp at hlt
        | step _ parent rest hne hp hrest => simp [walkBack, hne]
      | succ n ih =>
        intro c a ch hch hlt
        cases hch with
        | stop _ hk => simp at hlt
        | step _ parent rest hne hp hrest =>
          simp only [List.length_cons, Nat.add_lt_add_iff_right] at hlt
          simp only [walkBack, hne, if_false, hp]
          exact ih parent _ rest hrest hlt
    rw [hlong fuel current acc chain hbw (by omega)] at h
    simp at h
  rw [hr]
  exact walkBack_of_backWalk parentMap start current chain hbw (fuel + extra) acc (by omega)

theorem runSearch_mono (levels : Grid) (start : Position) (mode : Mode) (fuel extra : Nat)
    (o : Outcome) (h : runSearch levels start mode fuel = Exec.ok o) :
    runSearch levels start mode (fuel + extra) = Exec.ok o := by
  unfold runSearch at h ⊢
  cases hs : searchLoop levels mode fuel (initState start) with
  | ok e =>
    rw [searchLoop_mono levels mode fuel _ e extra hs]
    cases e with
    | exhausted st => simpa [hs] using h
    | found current st =>
      simp only [hs] at h
      simp only
      unfold reconstructPath at h ⊢
      cases hw : walkBack st.parentMap start fuel current [] with
      | ok r =>
        rw [walkBack_mono st.parentMap start fuel current [] r extra hw]
        simpa [hw] using h
      | undefinedBehaviour => simp [hw] at h
      | outOfFuel => simp [hw] at h
  | undefinedBehaviour => simp [hs] at h
  | outOfFuel => simp [hs] at h

theorem pathfinding_mono (levels : Grid) (start : Position) (mode outputMode : Mode)
    (fuel extra : Nat) (o : Outcome) (h : runSearch levels start mode fuel = Exec.ok o) :
    pathfinding levels start mode outputMode (fuel + extra) =
      pathfinding levels start mode outputMode fuel := by
  unfold pathfinding
  rw [runSearch_mono levels start mode fuel extra o h, h]

/-- C15: for every labelled path `printSolutionList` writes the header line followed, in path
order, by the line of every path element except the last whose label is not blank; in the
3x3 scenario queue mode finds a path of two edges and the list output is the header,
"(0,0,0,e)" and "(0,0,1,e)", whatever fuel beyond the nine cells the run is given. -/
theorem list_lines_and_row_scenario :
    (∀ path : List Position, printSolutionList path =
      "//path taken" ::
        (path.dropLast.filter (fun pos => decide (pos.direction ≠ ' '))).map listLine) ∧
    (∀ pos : Position, listLine pos =
      "(" ++ toString pos.level ++ "," ++ toString pos.row ++ "," ++ toString pos.col ++ ","
        ++ String.singleton pos.direction ++ ")") ∧
    (∀ extra : Nat, ∃ path st,
      runSearch mazeRow origin Mode.kQueue (9 + extra) = Exec.ok (Outcome.found path st) ∧
      path.length - 1 = 2 ∧
      pathfinding mazeRow origin Mode.kQueue Mode.kList (9 + extra) =
        Exec.ok ["//path taken", "(0,0,0,e)", "(0,0,1,e)"]) := by
  refine ⟨printSolutionList_eq, fun _ => rfl, ?_⟩
  intro extra
  have hrun : runSearch mazeRow origin Mode.kQueue 9 =
      Exec.ok (Outcome.found [⟨0, 0, 0, 'e'⟩, ⟨0, 0, 1, 'e'⟩, ⟨0, 0, 2, 'e'⟩]
        ⟨[⟨0, 1, 1, 's'⟩, ⟨0, 2, 0, 's'⟩],
         [((0, 2, 0), ⟨0, 1, 0, 's'⟩), ((0, 1, 1), ⟨0, 0, 1, 'e'⟩), ((0, 0, 2), ⟨0, 0, 1, 'e'⟩),
          ((0, 1, 0), ⟨0, 0, 0, ' '⟩), ((0, 0, 1), ⟨0, 0, 0, ' '⟩), ((0, 0, 0), ⟨0, 0, 0, ' '⟩)],
         [(0, 2, 0), (0, 1, 1), (0, 0, 2), (0, 1, 0), (0, 0, 1), (0, 0, 0)]⟩) := by
    decide
  refine ⟨_, _, runSearch_mono mazeRow origin Mode.kQueue 9 extra _ hrun, by decide, ?_⟩
  rw [pathfinding_mono mazeRow origin Mode.kQueue Mode.kList 9 extra _ hrun]
  decide

theorem runSearch_exhausted_of_unreachable (levels : Grid) (rows cols : Nat)
    (hw : WellFormed levels rows cols) (start : Position) (mode : Mode)
    (hm : mode = Mode.kStack ∨ mode = Mode.kQueue)
    (hb : InBounds levels rows cols start.key) (fuel : Nat)
    (hfuel : levels.length * rows * cols ≤ fuel)
    (hno : ¬ HazardReachable levels start.key) :
    ∃ st, runSearch levels start mode fuel = Exec.ok (Outcome.exhausted st) := by
  obtain ⟨o, ho⟩ := runSearch_ok levels rows cols hw start mode hm hb fuel hfuel
  cases o with
  | exhausted st => exact ⟨st, ho⟩
  | found path st =>
    obtain ⟨depth, st0, current, chain, hr⟩ := runSearch_found levels rows cols hw start
      mode hm hb fuel path st ho
    exact absurd (found_hazard_reachable levels rows cols start mode path st depth st0 current
      chain hr) hno

/-- C16: on a well-formed grid with an in-bounds start from which no Hazard is reachable, in
stack and in queue mode `pathfinding` writes, in map mode, the line
"Start in level L, row R, column C" of the start coordinate followed by every level's
"//level i" marker and rows as they are in the input grid, and in list mode the header line
"//path taken" alone. -/
theorem unreachable_output (levels : Grid) (rows cols : Nat)
    (hw : WellFormed levels rows cols) (start : Position) (mode : Mode)
    (hm : mode = Mode.kStack ∨ mode = Mode.kQueue)
    (hb : InBounds levels rows cols start.key) (fuel : Nat)
    (hfuel : levels.length * rows * cols ≤ fuel)
    (hno : ¬ HazardReachable levels start.key) :
    pathfinding levels start mode Mode.kMap fuel =
      Exec.ok (("Start in level " ++ toString start.level ++ ", row " ++ toString start.row
          ++ ", column " ++ toString start.col) ::
        (levels.enum.map (fun e => ("//level " ++ toString e.1) :: e.2.map String.mk)).flatten) ∧
    pathfinding levels start mode Mode.kList fuel = Exec.ok ["//path taken"] := by
  obtain ⟨st, hst⟩ := runSearch_exhausted_of_unreachable levels rows cols hw start mode hm hb
    fuel hfuel hno
  constructor
  · simp only [pathfinding, hst, if_true]
    rfl
  · simp only [pathfinding, hst]
    rfl

theorem unreachable_output_witness :
    (pathfinding mazeWalled origin Mode.kStack Mode.kMap 4 =
      Exec.ok (("Start in level " ++ toString origin.level ++ ", row " ++ toString origin.row
          ++ ", column " ++ toString origin.col) ::
        (mazeWalled.enum.map
          (fun e => ("//level " ++ toString e.1) :: e.2.map String.mk)).flatten) ∧
    pathfinding mazeWalled origin Mode.kStack Mode.kList 4 = Exec.ok ["//path taken"]) ∧
    pathfinding mazeWalled origin Mode.kStack Mode.kMap 4 =
      Exec.ok ["Start in level 0, row 0, column 0", "//level 0", "S#", "#H"] :=
  ⟨unreachable_output mazeWalled 2 2 (by decide) origin Mode.kStack (Or.inl rfl) (by decide) 4
    (by decide) walled_unreachable, by decide⟩

/-! ## Invariants and safety of the search loop -/

/-- C17: on a well-formed grid with an in-bounds start, in stack and in queue mode, at every
head of the search loop the keys of the parent map are the visited coordinates, the start is
mapped to itself, every other visited coordinate is mapped to a visited cell one legal move
before it; one pass through the loop keeps every visited coordinate and every parent. -/
theorem parent_map_invariants (levels : Grid) (rows cols : Nat)
    (hw : WellFormed levels rows cols) (start : Position) (mode : Mode)
    (hm : mode = Mode.kStack ∨ mode = Mode.kQueue)
    (hb : InBounds levels rows cols start.key) :
    (∀ st, LoopHead levels mode start st →
      st.parentMap.map Prod.fst = st.visited ∧
      parentOf st.parentMap start.key = some start ∧
      ∀ k ∈ st.visited, k ≠ start.key →
        ∃ p, parentOf st.parentMap k = some p ∧ p.key ∈ st.visited ∧
          LegalMove levels p.key k) ∧
    (∀ st st1, LoopHead levels mode start st →
      loopBody levels mode st = Exec.ok (LoopStep.next st1) →
      (∀ k ∈ st.visited, k ∈ st1.visited) ∧
      ∀ k p, parentOf st.parentMap k = some p → parentOf st1.parentMap k = some p) := by
  constructor
  · intro st hst
    obtain ⟨depth, hinv, _⟩ := loopHead_good levels rows cols hw start mode hm hb st hst
    refine ⟨hinv.keys_eq, hinv.start_parent, ?_⟩
    intro k hk hne
    obtain ⟨p, h1, h2, _, h4, _⟩ := hinv.parent_ok k hk hne
    exact ⟨p, h1, h2, h4⟩
  · intro st st1 hst hbody
    obtain ⟨depth, hinv, _⟩ := loopHead_good levels rows cols hw start mode hm hb st hst
    obtain ⟨current, rest, _, _, rfl⟩ := loopBody_next levels rows cols hw mode hm st st1
      (inv_dq_inb levels rows cols start depth st hinv) hbody
    constructor
    · intro k hk
      exact (mem_expand_visited _ _ _ _ _).mpr (Or.inr hk)
    · intro k p hp
      have hkv : k ∈ st.visited := by
        rw [← hinv.keys_eq]
        exact parentOf_some_mem _ _ _ hp
      rw [parentOf_expand_old _ _ _ _ _
        (fun hf => fresh_not_visited levels current st k hf hkv)]
      exact hp

theorem parent_map_invariants_witness :
    (∀ st, LoopHead mazeLift Mode.kQueue origin st →
      st.parentMap.map Prod.fst = st.visited ∧
      parentOf st.parentMap origin.key = some origin ∧
      ∀ k ∈ st.visited, k ≠ origin.key →
        ∃ p, parentOf st.parentMap k = some p ∧ p.key ∈ st.visited ∧
          LegalMove mazeLift p.key k) ∧
    (∀ st st1, LoopHead mazeLift Mode.kQueue origin st →
      loopBody mazeLift Mode.kQueue st = Exec.ok (LoopStep.next st1) →
      (∀ k ∈ st.visited, k ∈ st1.visited) ∧
      ∀ k p, parentOf st.parentMap k = some p → parentOf st1.parentMap k = some p) :=
  parent_map_invariants mazeLift 2 2 (by decide) origin Mode.kQueue (Or.inr rfl) (by decide)

theorem searchLoop_not_ub (levels : Grid) (rows cols : Nat)
    (hw : WellFormed levels rows cols) (start : Position) (mode : Mode)
    (hm : mode = Mode.kStack ∨ mode = Mode.kQueue) :
    ∀ (fuel : Nat) (st : SearchState), Good levels rows cols start mode st →
      searchLoop levels mode fuel st ≠ Exec.undefinedBehaviour := by
  intro fuel
  induction fuel with
  | zero =>
    intro st _
    unfold searchLoop
    split <;> simp
  | succ fuel ih =>
    intro st hg
    obtain ⟨depth, hinv, _⟩ := id hg
    unfold searchLoop
    rcases loopBody_cases levels rows cols hw mode hm st
      (inv_dq_inb levels rows cols start depth st hinv) with ⟨_, h1⟩ |
      ⟨current, rest, hpop, ⟨_, h1⟩ | ⟨hH, h1⟩⟩
    · rw [h1]; simp
    · rw [h1]; simp
    · rw [h1]
      exact ih _ (good_step levels rows cols hw start mode hm st _ hg h1)

theorem walkBack_not_ub (levels : Grid) (rows cols : Nat) (start : Position)
    (depth : Key → Nat) (st : SearchState) (hinv : Inv levels rows cols start depth st) :
    ∀ (fuel : Nat) (current : Position) (acc : List Position), current.key ∈ st.visited →
      walkBack st.parentMap start fuel current acc ≠ Exec.undefinedBehaviour := by
  intro fuel
  induction fuel with
  | zero =>
    intro current acc _
    unfold walkBack
    split <;> simp
  | succ fuel ih =>
    intro current acc hv
    unfold walkBack
    by_cases hk : current.key = start.key
    · simp [hk]
    · obtain ⟨p, h1, h2, _, _, _⟩ := hinv.parent_ok _ hv hk
      simp only [hk, if_false, h1]
      exact ih p _ h2

/-- C19: on a well-formed grid with an in-bounds start, in stack and in queue mode, every
position on the frontier at a loop head lies inside the grid, no pass through the loop reads
the grid out of bounds, and no run of the search, path reconstruction included, reads the
grid out of bounds or misses a parent entry. -/
theorem search_stays_in_bounds (levels : Grid) (rows cols : Nat)
    (hw : WellFormed levels rows cols) (start : Position) (mode : Mode)
    (hm : mode = Mode.kStack ∨ mode = Mode.kQueue)
    (hb : InBounds levels rows cols start.key) :
    (∀ st, LoopHead levels mode start st →
      (∀ p ∈ st.dq, InBounds levels rows cols p.key) ∧
      ∃ r, loopBody levels mode st = Exec.ok r) ∧
    (∀ fuel, runSearch levels start mode fuel ≠ Exec.undefinedBehaviour) ∧
    (∀ fuel, levels.length * rows * cols ≤ fuel →
      ∃ o, runSearch levels start mode fuel = Exec.ok o) := by
  refine ⟨?_, ?_, ?_⟩
  · intro st hst
    obtain ⟨depth, hinv, _⟩ := loopHead_good levels rows cols hw start mode hm hb st hst
    have hsub := inv_dq_inb levels rows cols start depth st hinv
    refine ⟨hsub, ?_⟩
    rcases loopBody_cases levels rows cols hw mode hm st hsub with ⟨_, h1⟩ |
      ⟨current, rest, hpop, ⟨_, h1⟩ | ⟨hH, h1⟩⟩
    · exact ⟨_, h1⟩
    · exact ⟨_, h1⟩
    · exact ⟨_, h1⟩
  · intro fuel
    unfold runSearch
    cases hs : searchLoop levels mode fuel (initState start) with
    | ok e =>
      cases e with
      | exhausted st1 => simp
      | found current st1 =>
        simp only
        obtain ⟨st0, hhead, hbody⟩ := searchLoop_end levels mode start fuel _ _
          LoopHead.init hs
        obtain ⟨depth, hinv, _⟩ := loopHead_good levels rows cols hw start mode hm hb st0 hhead
        obtain ⟨hpop, hpm, _, _⟩ := loopBody_found levels rows cols hw mode hm st0 st1
          current (inv_dq_inb levels rows cols start depth st0 hinv) hbody
        have hcv : current.key ∈ st0.visited := hinv.dq_sub current
          ((perm_of_pop mode st0.dq st1.dq current hpop).symm.subset (List.mem_cons_self _ _))
        have hwb := walkBack_not_ub levels rows cols start depth st0 hinv fuel current [] hcv
        unfold reconstructPath
        rw [hpm]
        cases hres : walkBack st0.parentMap start fuel current [] with
        | ok r => simp
        | undefinedBehaviour => exact absurd hres hwb
        | outOfFuel => simp
    | undefinedBehaviour =>
      exact absurd hs (searchLoop_not_ub levels rows cols hw start mode hm fuel _
        (good_init levels rows cols start mode hb))
    | outOfFuel => simp
  · intro fuel hfuel
    exact runSearch_ok levels rows cols hw start mode hm hb fuel hfuel

theorem search_stays_in_bounds_witness :
    (∀ st, LoopHead mazeLift Mode.kStack origin st →
      (∀ p ∈ st.dq, InBounds mazeLift 2 2 p.key) ∧
      ∃ r, loopBody mazeLift Mode.kStack st = Exec.ok r) ∧
    (∀ fuel, runSearch mazeLift origin Mode.kStack fuel ≠ Exec.undefinedBehaviour) ∧
    (∀ fuel, mazeLift.length * 2 * 2 ≤ fuel →
      ∃ o, runSearch mazeLift origin Mode.kStack fuel = Exec.ok o) :=
  search_stays_in_bounds mazeLift 2 2 (by decide) origin Mode.kStack (Or.inl rfl) (by decide)

/-! ## The label of the start does not matter -/

theorem normLabel_key (k : Key) (p : Position) : (normLabel k p).key = p.key := by
  unfold normLabel
  split <;> rfl

theorem normLabel_of_ne (k : Key) (p : Position) (h : p.key ≠ k) : normLabel k p = p := by
  unfold normLabel
  rw [if_neg h]

theorem normLabel_start (start : Position) (d : Char) :
    normLabel start.key { start with direction := d } = normLabel start.key start := by
  have h1 : ({ start with direction := d } : Position).key = start.key := rfl
  unfold normLabel
  rw [if_pos h1, if_pos rfl]

theorem cellAt_key_congr (levels : Grid) (p q : Position) (h : p.key = q.key) :
    cellAt levels p.level p.row p.col = cellAt levels q.level q.row q.col := by
  simp only [Position.key, Prod.mk.injEq] at h
  rw [h.1, h.2.1, h.2.2]

theorem elevatorLoop_key_congr (levels : Grid) (p q : Position) (h : p.key = q.key)
    (visited : List Key) (ls : List Nat) :
    elevatorLoop levels p visited ls = elevatorLoop levels q visited ls := by
  simp only [Position.key, Prod.mk.injEq] at h
  induction ls with
  | nil => rfl
  | cons l rest ih =>
    unfold elevatorLoop
    rw [ih]
    unfold elevatorCandidate
    rw [h.1, h.2.1, h.2.2]

theorem getNextPositions_key_congr (levels : Grid) (p q : Position) (h : p.key = q.key)
    (visited : List Key) :
    getNextPositions levels p visited = getNextPositions levels q visited := by
  have h2 := elevatorLoop_key_congr levels p q h visited (List.range levels.length)
  have h3 := cellAt_key_congr levels p q h
  simp only [Position.key, Prod.mk.injEq] at h
  have h4 : planarPositions levels p = planarPositions levels q := by
    unfold planarPositions
    congr 1
    funext move
    unfold planarCandidate
    rw [h.1, h.2.1, h.2.2]
  unfold getNextPositions
  rw [h2, h3, h4]

theorem popFrontier_map (mode : Mode) (f : Position → Position) (dq : List Position) :
    popFrontier mode (dq.map f) =
      (popFrontier mode dq).map (fun cr => (f cr.1, cr.2.map f)) := by
  cases mode with
  | kStack =>
    unfold popFrontier
    simp only [List.getLast?_map]
    cases dq.getLast? with
    | none => rfl
    | some c => simp
  | kQueue =>
    cases dq with
    | nil => rfl
    | cons a l => rfl
  | kNone => rfl
  | kMap => rfl
  | kList => rfl

theorem pushNext_norm (k : Key) (mode : Mode) (current next : Position) (st : SearchState)
    (hk : k ∈ st.visited) :
    pushNext mode (normLabel k current) (normState k st) next =
      normState k (pushNext mode current st next) ∧
    k ∈ (pushNext mode current st next).visited := by
  unfold pushNext
  by_cases hv : next.key ∈ st.visited
  · have hv2 : next.key ∈ (normState k st).visited := hv
    rw [if_pos hv, if_pos hv2]
    exact ⟨rfl, hk⟩
  · have hv2 : next.key ∉ (normState k st).visited := hv
    rw [if_neg hv, if_neg hv2]
    have hne : next.key ≠ k := fun h => hv (h ▸ hk)
    refine ⟨?_, List.mem_cons_of_mem _ hk⟩
    unfold normState
    simp only [List.map_cons, SearchState.mk.injEq, and_true, true_and]
    by_cases h1 : mode = Mode.kStack
    · simp [h1, normLabel_of_ne k next hne]
    · by_cases h2 : mode = Mode.kQueue
      · simp [h2, normLabel_of_ne k next hne]
      · simp [h1, h2]

theorem foldl_pushNext_norm (k : Key) (mode : Mode) (current : Position)
    (cands : List Position) : ∀ (st : SearchState), k ∈ st.visited →
    cands.foldl (pushNext mode (normLabel k current)) (normState k st) =
      normState k (cands.foldl (pushNext mode current) st) ∧
    k ∈ (cands.foldl (pushNext mode current) st).visited := by
  induction cands with
  | nil => intro st hk; exact ⟨rfl, hk⟩
  | cons c cs ih =>
    intro st hk
    obtain ⟨h1, h2⟩ := pushNext_norm k mode current c st hk
    rw [List.foldl_cons, List.foldl_cons, h1]
    exact ih _ h2

theorem loopBody_norm (levels : Grid) (mode : Mode) (k : Key) (st : SearchState)
    (hk : k ∈ st.visited) :
    loopBody levels mode (normState k st) = (loopBody levels mode st).map (normStep k) ∧
    ∀ st1, loopBody levels mode st = Exec.ok (LoopStep.next st1) → k ∈ st1.visited := by
  unfold loopBody
  by_cases hdq : st.dq = []
  · have hdq2 : (normState k st).dq = [] := by simp [normState, hdq]
    rw [if_pos hdq, if_pos hdq2]
    refine ⟨rfl, ?_⟩
    intro st1 h
    simp at h
  · have hdq2 : (normState k st).dq ≠ [] := by simpa [normState] using hdq
    rw [if_neg hdq, if_neg hdq2]
    have hpop : popFrontier mode (normState k st).dq =
        (popFrontier mode st.dq).map (fun cr => (normLabel k cr.1, cr.2.map (normLabel k))) :=
      popFrontier_map mode (normLabel k) st.dq
    rw [hpop]
    cases hp : popFrontier mode st.dq with
    | none =>
      refine ⟨rfl, ?_⟩
      intro st1 h
      simp at h
    | some cr =>
      obtain ⟨current, rest⟩ := cr
      simp only [Option.map_some']
      rw [cellAt_key_congr levels (normLabel k current) current (normLabel_key k current)]
      cases hc : cellAt levels current.level current.row current.col with
      | none =>
        refine ⟨rfl, ?_⟩
        intro st1 h
        simp at h
      | some ch =>
        simp only
        by_cases hH : ch = 'H'
        · rw [if_pos hH, if_pos hH]
          refine ⟨rfl, ?_⟩
          intro st1 h
          simp at h
        · rw [if_neg hH, if_neg hH]
          have hvis : (normState k st).visited = st.visited := rfl
          rw [hvis, getNextPositions_key_congr levels (normLabel k current) current
            (normLabel_key k current)]
          cases hn : getNextPositions levels current st.visited with
          | ok cands =>
            simp only
            obtain ⟨h1, h2⟩ := foldl_pushNext_norm k mode current cands
              ⟨rest, st.parentMap, st.visited⟩ hk
            constructor
            · have : (⟨rest.map (normLabel k), (normState k st).parentMap, st.visited⟩ :
                  SearchState) = normState k ⟨rest, st.parentMap, st.visited⟩ := rfl
              rw [this, h1]
              rfl
            · intro st1 h
              simp only [Exec.ok.injEq, LoopStep.next.injEq] at h
              rw [← h]
              exact h2
          | undefinedBehaviour =>
            refine ⟨rfl, ?_⟩
            intro st1 h
            simp at h
          | outOfFuel =>
            refine ⟨rfl, ?_⟩
            intro st1 h
            simp at h

theorem searchLoop_norm (levels : Grid) (mode : Mode) (k : Key) :
    ∀ (fuel : Nat) (st : SearchState), k ∈ st.visited →
      searchLoop levels mode fuel (normState k st) =
        (searchLoop levels mode fuel st).map (normEnd k) := by
  intro fuel
  induction fuel with
  | zero =>
    intro st _
    unfold searchLoop
    by_cases hdq : st.dq = []
    · have hdq2 : (normState k st).dq = [] := by simp [normState, hdq]
      rw [if_pos hdq, if_pos hdq2]
      rfl
    · have hdq2 : (normState k st).dq ≠ [] := by simpa [normState] using hdq
      rw [if_neg hdq, if_neg hdq2]
      rfl
  | succ fuel ih =>
    intro st hk
    obtain ⟨h1, h2⟩ := loopBody_norm levels mode k st hk
    unfold searchLoop
    rw [h1]
    cases hb : loopBody levels mode st with
    | ok r =>
      cases r with
      | ended e => rfl
      | next st1 =>
        simp only [Exec.map, normStep]
        exact ih st1 (h2 st1 hb)
    | undefinedBehaviour => rfl
    | outOfFuel => rfl

theorem parentOf_map (f : Position → Position) (pm : List (Key × Position)) (key : Key) :
    parentOf (pm.map (fun e => (e.1, f e.2))) key = (parentOf pm key).map f := by
  induction pm with
  | nil => rfl
  | cons e pm ih =>
    obtain ⟨k1, p1⟩ := e
    simp only [List.map_cons, parentOf]
    by_cases hk : k1 = key
    · rw [if_pos hk, if_pos hk]
      rfl
    · rw [if_neg hk, if_neg hk]
      exact ih

theorem walkBack_norm (k : Key) (pm : List (Key × Position)) (s1 s2 : Position)
    (h1 : s1.key = k) (h2 : s2.key = k) :
    ∀ (fuel : Nat) (current : Position) (acc : List Position),
      walkBack (pm.map (fun e => (e.1, normLabel k e.2))) s2 fuel (normLabel k current) acc =
        walkBack pm s1 fuel current acc := by
  intro fuel
  induction fuel with
  | zero =>
    intro current acc
    unfold walkBack
    rw [normLabel_key, h1, h2]
  | succ fuel ih =>
    intro current acc
    unfold walkBack
    rw [normLabel_key, h1, h2]
    by_cases hk : current.key = k
    · rw [if_pos hk, if_pos hk]
    · rw [if_neg hk, if_neg hk, parentOf_map]
      cases hp : parentOf pm current.key with
      | none => rfl
      | some parent =>
        simp only [Option.map_some']
        rw [normLabel_of_ne k current hk]
        exact ih parent _

theorem walkBack_nil (pm : List (Key × Position)) (start current : Position) (fuel : Nat)
    (h : walkBack pm start fuel current [] = Exec.ok []) : current.key = start.key := by
  obtain ⟨chain, hbw, hr⟩ := backWalk_of_walkBack pm start fuel current [] [] h
  simp only [List.nil_append] at hr
  subst hr
  cases hbw with
  | stop _ hk => exact hk

theorem loopBody_found_hazard (levels : Grid) (mode : Mode) (st0 st : SearchState)
    (current : Position)
    (h : loopBody levels mode st0 = Exec.ok (LoopStep.ended (SearchEnd.found current st))) :
    cellAt levels current.level current.row current.col = some 'H' := by
  unfold loopBody at h
  by_cases hdq : st0.dq = []
  · simp [hdq] at h
  · rw [if_neg hdq] at h
    cases hp : popFrontier mode st0.dq with
    | none => simp [hp] at h
    | some cr =>
      obtain ⟨c, rest⟩ := cr
      simp only [hp] at h
      cases hc : cellAt levels c.level c.row c.col with
      | none => simp [hc] at h
      | some ch =>
        simp only [hc] at h
        by_cases hH : ch = 'H'
        · rw [if_pos hH] at h
          simp only [Exec.ok.injEq, LoopStep.ended.injEq, SearchEnd.found.injEq] at h
          rw [← h.1, hc, hH]
        · rw [if_neg hH] at h
          cases hn : getNextPositions levels c st0.visited <;> simp [hn] at h

theorem labelPath_single (s : Position) : labelPath [s] = [s] := by
  simp [labelPath, labelLoop, borrowStartLabel]

theorem labelPath_cons_congr (s1 s2 : Position) (rest : List Position)
    (hk : s1.key = s2.key) (hne : rest ≠ []) :
    labelPath (s1 :: rest) = labelPath (s2 :: rest) := by
  obtain ⟨b, rest2, rfl⟩ := List.exists_cons_of_ne_nil hne
  have hpos : ∀ j, 0 < j → (labelPath (s1 :: b :: rest2))[j]? =
      (labelPath (s2 :: b :: rest2))[j]? := by
    intro j hj
    rw [labelPath_getElem?_pos _ _ hj, labelPath_getElem?_pos _ _ hj]
    obtain ⟨i, rfl⟩ : ∃ i, j = i + 1 := ⟨j - 1, by omega⟩
    apply labelAt_congr <;> simp
  apply List.ext_getElem?
  intro j
  cases j with
  | zero =>
    obtain ⟨second, hsec⟩ : ∃ second, (labelPath (s1 :: b :: rest2))[1]? = some second := by
      have hlen : 1 < (labelPath (s1 :: b :: rest2)).length := by
        rw [labelPath_length]
        simp
      exact ⟨_, List.getElem?_eq_getElem hlen⟩
    have hsec2 : (labelPath (s2 :: b :: rest2))[1]? = some second := by
      rw [← hpos 1 (by omega)]
      exact hsec
    rw [labelPath_getElem?_zero (s1 :: b :: rest2) s1 second (by simp) hsec,
      labelPath_getElem?_zero (s2 :: b :: rest2) s2 second (by simp) hsec2]
    simp only [Position.key, Prod.mk.injEq] at hk
    simp only [Option.some.injEq, Position.mk.injEq, and_true]
    exact hk
  | succ j => exact hpos (j + 1) (by omega)

theorem startLine_key_congr (p q : Position) (h : p.key = q.key) :
    startLine p = startLine q := by
  simp only [Position.key, Prod.mk.injEq] at h
  unfold startLine
  rw [h.1, h.2.1, h.2.2]

theorem printSolutionMap_single_hazard (levels : Grid) (s : Position)
    (h : cellAt levels s.level s.row s.col = some 'H') :
    printSolutionMap [s] levels = Exec.ok (startLine s :: renderLevels levels) := by
  simp [printSolutionMap, overlay, overlayStep, h]

theorem runSearch_pair (levels : Grid) (start : Position) (d : Char) (mode : Mode)
    (fuel : Nat) :
    (runSearch levels { start with direction := d } mode fuel = Exec.undefinedBehaviour ∧
      runSearch levels start mode fuel = Exec.undefinedBehaviour) ∨
    (runSearch levels { start with direction := d } mode fuel = Exec.outOfFuel ∧
      runSearch levels start mode fuel = Exec.outOfFuel) ∨
    (∃ st1 st2,
      runSearch levels { start with direction := d } mode fuel =
        Exec.ok (Outcome.exhausted st1) ∧
      runSearch levels start mode fuel = Exec.ok (Outcome.exhausted st2)) ∨
    (∃ path st1 st2,
      runSearch levels { start with direction := d } mode fuel =
        Exec.ok (Outcome.found path st1) ∧
      runSearch levels start mode fuel = Exec.ok (Outcome.found path st2)) ∨
    (∃ st1 st2,
      runSearch levels { start with direction := d } mode fuel =
        Exec.ok (Outcome.found [{ start with direction := d }] st1) ∧
      runSearch levels start mode fuel = Exec.ok (Outcome.found [start] st2) ∧
      cellAt levels start.level start.row start.col = some 'H') := by
  have hk1 : ({ start with direction := d } : Position).key = start.key := rfl
  have hinit : normState start.key (initState { start with direction := d }) =
      normState start.key (initState start) := by
    simp only [initState, normState, List.map_cons, List.map_nil, normLabel_start, hk1]
  have hn1 := searchLoop_norm levels mode start.key fuel
    (initState { start with direction := d }) (by simp [initState, hk1])
  have hn2 := searchLoop_norm levels mode start.key fuel (initState start)
    (by simp [initState])
  rw [hinit, hn2] at hn1
  unfold runSearch
  cases hs2 : searchLoop levels mode fuel (initState start) with
  | undefinedBehaviour =>
    rw [hs2] at hn1
    cases hs1 : searchLoop levels mode fuel (initState { start with direction := d }) with
    | undefinedBehaviour => exact Or.inl ⟨rfl, rfl⟩
    | outOfFuel => rw [hs1] at hn1; simp [Exec.map] at hn1
    | ok e => rw [hs1] at hn1; simp [Exec.map] at hn1
  | outOfFuel =>
    rw [hs2] at hn1
    cases hs1 : searchLoop levels mode fuel (initState { start with direction := d }) with
    | undefinedBehaviour => rw [hs1] at hn1; simp [Exec.map] at hn1
    | outOfFuel => exact Or.inr (Or.inl ⟨rfl, rfl⟩)
    | ok e => rw [hs1] at hn1; simp [Exec.map] at hn1
  | ok e2 =>
    rw [hs2] at hn1
    cases hs1 : searchLoop levels mode fuel (initState { start with direction := d }) with
    | undefinedBehaviour => rw [hs1] at hn1; simp [Exec.map] at hn1
    | outOfFuel => rw [hs1] at hn1; simp [Exec.map] at hn1
    | ok e1 =>
      rw [hs1] at hn1
      simp only [Exec.map, Exec.ok.injEq] at hn1
      cases e2 with
      | exhausted st2 =>
        cases e1 with
        | exhausted st1 => exact Or.inr (Or.inr (Or.inl ⟨st1, st2, rfl, rfl⟩))
        | found c1 st1 => simp [normEnd] at hn1
      | found c2 st2 =>
        cases e1 with
        | exhausted st1 => simp [normEnd] at hn1
        | found c1 st1 =>
          simp only [normEnd, SearchEnd.found.injEq] at hn1
          obtain ⟨hc, hst⟩ := hn1
          have hpm : st2.parentMap.map (fun e => (e.1, normLabel start.key e.2)) =
              st1.parentMap.map (fun e => (e.1, normLabel start.key e.2)) := by
            have := congrArg SearchState.parentMap hst
            exact this
          have hwalk : walkBack st1.parentMap { start with direction := d } fuel c1 [] =
              walkBack st2.parentMap start fuel c2 [] := by
            rw [← walkBack_norm start.key st1.parentMap { start with direction := d } start
              hk1 rfl fuel c1 [],
              ← walkBack_norm start.key st2.parentMap start start rfl rfl fuel c2 [], hpm, hc]
          obtain ⟨st0, hhead, hbody⟩ := searchLoop_end levels mode start fuel _ _
            LoopHead.init hs2
          have hH := loopBody_found_hazard levels mode st0 st2 c2 hbody
          simp only [reconstructPath, hwalk]
          cases hw2 : walkBack st2.parentMap start fuel c2 [] with
          | undefinedBehaviour => exact Or.inl ⟨rfl, rfl⟩
          | outOfFuel => exact Or.inr (Or.inl ⟨rfl, rfl⟩)
          | ok acc =>
            simp only [List.reverse_append, List.reverse_cons, List.reverse_nil,
              List.nil_append, List.singleton_append]
            by_cases hacc : acc = []
            · subst hacc
              have hck := walkBack_nil _ _ _ _ hw2
              right; right; right; right
              refine ⟨st1, st2, ?_, ?_, ?_⟩
              · simp [labelPath_single]
              · simp [labelPath_single]
              · rw [← cellAt_key_congr levels c2 start hck]
                exact hH
            · right; right; right; left
              refine ⟨labelPath (start :: acc.reverse), st1, st2, ?_, rfl⟩
              rw [labelPath_cons_congr { start with direction := d } start acc.reverse hk1
                (by simpa using hacc)]

theorem pathfinding_label_congr (levels : Grid) (start : Position) (d : Char)
    (mode outputMode : Mode) (fuel : Nat) :
    pathfinding levels { start with direction := d } mode outputMode fuel =
      pathfinding levels start mode outputMode fuel ∧
    SameOutcome (runSearch levels { start with direction := d } mode fuel)
      (runSearch levels start mode fuel) := by
  have hk1 : ({ start with direction := d } : Position).key = start.key := rfl
  rcases runSearch_pair levels start d mode fuel with ⟨h1, h2⟩ | ⟨h1, h2⟩ |
    ⟨st1, st2, h1, h2⟩ | ⟨path, st1, st2, h1, h2⟩ | ⟨st1, st2, h1, h2, hH⟩
  · simp only [pathfinding, h1, h2, SameOutcome, and_self]
  · simp only [pathfinding, h1, h2, SameOutcome, and_self]
  · simp only [pathfinding, h1, h2, SameOutcome, and_true]
    rw [startLine_key_congr _ _ hk1]
  · simp only [pathfinding, h1, h2, SameOutcome, and_self]
  · simp only [pathfinding, h1, h2, SameOutcome]
    refine ⟨?_, rfl⟩
    rw [printSolutionMap_single_hazard levels start hH,
      printSolutionMap_single_hazard levels { start with direction := d } hH,
      startLine_key_congr _ _ hk1]
    rfl

theorem pathfinding_ok (levels : Grid) (rows cols : Nat)
    (hw : WellFormed levels rows cols) (start : Position) (mode outputMode : Mode)
    (hm : mode = Mode.kStack ∨ mode = Mode.kQueue)
    (hb : InBounds levels rows cols start.key) (fuel : Nat)
    (hfuel : levels.length * rows * cols ≤ fuel) :
    ∃ lines, pathfinding levels start mode outputMode fuel = Exec.ok lines := by
  obtain ⟨o, ho⟩ := runSearch_ok levels rows cols hw start mode hm hb fuel hfuel
  cases o with
  | exhausted st =>
    simp only [pathfinding, ho]
    split
    · exact ⟨_, rfl⟩
    · exact ⟨_, rfl⟩
  | found path st =>
    obtain ⟨depth, st0, current, chain, hr⟩ := runSearch_found levels rows cols hw start
      mode hm hb fuel path st ho
    obtain ⟨_, _, _, hnd, hlen, _, _⟩ :=
      foundRun_keys levels rows cols start mode path st depth st0 current chain hr
    obtain ⟨updated, hfold, _, _, _⟩ := overlay_spec path levels hnd
      (fun p hp => foundRun_inBounds levels rows cols hw start mode path st depth st0 current
        chain hr p hp)
    simp only [pathfinding, ho]
    split
    · cases hpath : path with
      | nil => rw [hpath] at hlen; simp at hlen
      | cons front rest =>
        rw [hpath] at hfold
        exact ⟨startLine front :: renderLevels updated, by
          unfold printSolutionMap overlay
          simp only [hfold]⟩
    · split
      · exact ⟨_, rfl⟩
      · exact ⟨_, rfl⟩

/-- C18: on a well-formed grid with an in-bounds start, in stack and in queue mode and in
either output mode, the run from the start carrying any other direction label writes the
same lines as the run from the start, both runs do write lines, and both end the same way:
exhausted, or with paths over the same coordinates. -/
theorem start_label_is_irrelevant (levels : Grid) (rows cols : Nat)
    (hw : WellFormed levels rows cols) (start : Position) (d : Char) (mode outputMode : Mode)
    (hm : mode = Mode.kStack ∨ mode = Mode.kQueue)
    (hb : InBounds levels rows cols start.key) (fuel : Nat)
    (hfuel : levels.length * rows * cols ≤ fuel) :
    (∃ lines,
      pathfinding levels { start with direction := d } mode outputMode fuel = Exec.ok lines ∧
      pathfinding levels start mode outputMode fuel = Exec.ok lines) ∧
    (∃ o, runSearch levels start mode fuel = Exec.ok o) ∧
    SameOutcome (runSearch levels { start with direction := d } mode fuel)
      (runSearch levels start mode fuel) := by
  obtain ⟨h1, h2⟩ := pathfinding_label_congr levels start d mode outputMode fuel
  obtain ⟨lines, hl⟩ := pathfinding_ok levels rows cols hw start mode outputMode hm hb fuel
    hfuel
  exact ⟨⟨lines, by rw [h1, hl], hl⟩,
    runSearch_ok levels rows cols hw start mode hm hb fuel hfuel, h2⟩

theorem start_label_is_irrelevant_witness :
    (∃ lines,
      pathfinding mazeCorner { origin with direction := 'n' } Mode.kQueue Mode.kMap 4 =
        Exec.ok lines ∧
      pathfinding mazeCorner origin Mode.kQueue Mode.kMap 4 = Exec.ok lines) ∧
    (∃ o, runSearch mazeCorner origin Mode.kQueue 4 = Exec.ok o) ∧
    SameOutcome (runSearch mazeCorner { origin with direction := 'n' } Mode.kQueue 4)
      (runSearch mazeCorner origin Mode.kQueue 4) :=
  start_label_is_irrelevant mazeCorner 2 2 (by decide) origin 'n' Mode.kQueue Mode.kMap
    (Or.inr rfl) (by decide) 4 (by decide)

end MazeNavigation
